import Mathlib

/-!
ComputerGraphic: software rasterizer (graphics.cpp, model.cpp, main.cpp).

Shallow embedding of the CPU rasterizer.  The C++ type `float` is embedded as an
arbitrary linearly ordered field `K` with a floor function (exact arithmetic); every
definition is computable and can be run at `K := ℚ`.  The value
`-std::numeric_limits<float>::infinity()` of the depth buffer is the bottom element
of `WithBot K`.  The C++ type `int` is embedded as `Int`, `unsigned char` as a
natural number reduced modulo 256.  The conversion `(int)x` of a `float` is `castInt`:
truncation toward zero within the range of a 32-bit `int`, `INT_MIN` beyond it.
`std::sqrt` (used by `Vec3f::norm`) is a parameter `sqrt : K → K` of the functions that
need it.  Accesses `v[i]` of a `std::vector` are total (`vecGet`) where the index is
known to be valid and checked (`vecGetChecked`, result `none`) in the constructor of
`Model`, which `main` runs first.
-/

set_option linter.unusedSectionVars false

namespace ComputerGraphic

/-! ## Constants of graphics.cpp -/

/-- Frame width, `const int width = 1920`. -/
def width : Int := 1920

/-- Frame height, `const int height = 1920`. -/
def height : Int := 1920

/-- Depth range, `const int depth = 255`. -/
def depth : Int := 255

/-! ## Geometry types (geometry.h is not part of the sources) -/

/-- Modelled from the spec: `Vec2i` of geometry.h, a pair of `int` coordinates. -/
structure Vec2i where
  x : Int
  y : Int
deriving DecidableEq, Repr

/-- Modelled from the spec: `Vec2f` of geometry.h, a pair of scalars. -/
structure Vec2f (K : Type) where
  x : K
  y : K
deriving DecidableEq, Repr

/-- Modelled from the spec: `Vec3f` of geometry.h, a triple of scalars. -/
structure Vec3f (K : Type) where
  x : K
  y : K
  z : K
deriving DecidableEq, Repr

/-- Modelled from the spec: `TGAColor` of tgaimage.h, four `unsigned char` channels. -/
structure TGAColor where
  r : Nat
  g : Nat
  b : Nat
  a : Nat
deriving DecidableEq, Repr

section Scalar

variable {K : Type} [LinearOrderedField K] [FloorRing K]

/-- Truncation toward zero, the `trunc` of the specification.  It is the value of the
C++ conversion `(int)x` whenever that value fits the type `int` (see `castInt`). -/
def truncToInt (x : K) : Int := if 0 ≤ x then ⌊x⌋ else ⌈x⌉

/-- Smallest value of the 32-bit type `int`, `INT_MIN`. -/
def intMin : Int := -2147483648

/-- Largest value of the 32-bit type `int`, `INT_MAX`. -/
def intMax : Int := 2147483647

/-- The truncation of `x` is representable in the type `int`. -/
def fitsInt (x : K) : Prop := intMin ≤ truncToInt x ∧ truncToInt x ≤ intMax

instance fitsInt.decidable (x : K) : Decidable (fitsInt x) := by
  unfold fitsInt; infer_instance

/-- The C++ conversion `(int)x` of a `float`: truncation toward zero when the truncated
value fits `int`.  Outside that range the conversion is undefined in C++; the embedding
returns `INT_MIN`, the result of the x86 conversion instruction the compiled program
executes. -/
def castInt (x : K) : Int :=
  if intMin ≤ truncToInt x ∧ truncToInt x ≤ intMax then truncToInt x else intMin

/-- The C++ conversion `(unsigned char)x` of a scalar: truncation, then reduction
modulo 256. -/
def toUChar (x : K) : Nat := (truncToInt x % 256).toNat

namespace Vec3f

/-- Modelled from the spec: `operator+` of geometry.h. -/
def add (a b : Vec3f K) : Vec3f K := ⟨a.x + b.x, a.y + b.y, a.z + b.z⟩

/-- Modelled from the spec: `operator-` of geometry.h. -/
def sub (a b : Vec3f K) : Vec3f K := ⟨a.x - b.x, a.y - b.y, a.z - b.z⟩

/-- Modelled from the spec: `operator*(float)` of geometry.h, scaling. -/
def smul (a : Vec3f K) (f : K) : Vec3f K := ⟨a.x * f, a.y * f, a.z * f⟩

/-- Modelled from the spec: `operator*(Vec3f)` of geometry.h, the dot product. -/
def dot (a b : Vec3f K) : K := a.x * b.x + a.y * b.y + a.z * b.z

/-- Modelled from the spec: `operator^` of geometry.h, the cross product. -/
def cross (a b : Vec3f K) : Vec3f K :=
  ⟨a.y * b.z - a.z * b.y, a.z * b.x - a.x * b.z, a.x * b.y - a.y * b.x⟩

/-- Modelled from the spec: `norm()` of geometry.h, `sqrt(x*x + y*y + z*z)`. -/
def norm (sqrt : K → K) (a : Vec3f K) : K := sqrt (a.x * a.x + a.y * a.y + a.z * a.z)

/-- Modelled from the spec: `normalize()` of geometry.h, `*this * (1 / norm())`. -/
def normalize (sqrt : K → K) (a : Vec3f K) : Vec3f K := a.smul (1 / a.norm sqrt)

end Vec3f

/-! ## graphics.cpp: barycentric and the bounding box -/

/-- Denominator computed at the start of `barycentric`. -/
def baryDenom (pts : Fin 3 → Vec3f K) : K :=
  ((pts 1).x - (pts 0).x) * ((pts 2).y - (pts 0).y)
    - ((pts 2).x - (pts 0).x) * ((pts 1).y - (pts 0).y)

/-- Embedding of `barycentric(pts, P)`; the result is `Vec3f(w, u, v)`. -/
def barycentric (pts : Fin 3 → Vec3f K) (P : Vec2i) : Vec3f K :=
  let x0 := (pts 0).x
  let y0 := (pts 0).y
  let x1 := (pts 1).x
  let y1 := (pts 1).y
  let x2 := (pts 2).x
  let y2 := (pts 2).y
  let denom := (x1 - x0) * (y2 - y0) - (x2 - x0) * (y1 - y0)
  if |denom| < 1 / 100 then ⟨-1, 1, 1⟩
  else
    let u := (((P.x : K) - x0) * (y2 - y0) - (x2 - x0) * ((P.y : K) - y0)) / denom
    let v := ((x1 - x0) * ((P.y : K) - y0) - ((P.x : K) - x0) * (y1 - y0)) / denom
    let w := 1 - u - v
    ⟨w, u, v⟩

/-- One iteration of the `for (int i = 0; i < 3; i++)` loop of `bbox_of_triangle`,
acting on the pair `(bboxmin, bboxmax)`. -/
def bboxStep (pts : Fin 3 → Vec3f K) (b : Vec2i × Vec2i) (i : Fin 3) : Vec2i × Vec2i :=
  let clampv : Vec2i := ⟨width - 1, height - 1⟩
  (⟨max 0 (min b.1.x (castInt (pts i).x)), max 0 (min b.1.y (castInt (pts i).y))⟩,
   ⟨min clampv.x (max b.2.x (castInt (pts i).x)),
    min clampv.y (max b.2.y (castInt (pts i).y))⟩)

/-- Embedding of `bbox_of_triangle(pts, bboxmin, bboxmax)`; returns the two
out-parameters `(bboxmin, bboxmax)`. -/
def bbox_of_triangle (pts : Fin 3 → Vec3f K) : Vec2i × Vec2i :=
  [0, 1, 2].foldl (bboxStep pts) (⟨width - 1, height - 1⟩, ⟨0, 0⟩)

/-! ## graphics.cpp: Phong shading -/

/-- Shininess exponent, `static const float shininess = 64.0f`; the exponent of
`std::pow` is the whole number 64. -/
def shininess : Nat := 64

/-- Ambient weight, `static const float ambientStrength = 0.30f`. -/
def ambientStrength : K := 30 / 100

/-- Diffuse weight, `static const float diffuseStrength = 0.70f`. -/
def diffuseStrength : K := 70 / 100

/-- Specular weight, `static const float specularStrength = 0.20f`. -/
def specularStrength : K := 20 / 100

/-- Embedding of `clamp01(x) = std::max(0.f, std::min(1.f, x))`. -/
def clamp01 (x : K) : K := max 0 (min 1 x)

/-- Embedding of `phongColor(N_in, fragPos, lightDir_in, eyePos, albedo)`. -/
def phongColor (sqrt : K → K) (N_in fragPos lightDir_in eyePos : Vec3f K)
    (albedo : TGAColor) : TGAColor :=
  let N := N_in.normalize sqrt
  let L := lightDir_in.normalize sqrt
  let V := (eyePos.sub fragPos).normalize sqrt
  let diff := max 0 (N.dot L)
  let minusL := L.smul (-1)
  let R := (minusL.sub (N.smul (2 * (minusL.dot N)))).normalize sqrt
  let spec := (max 0 (R.dot V)) ^ shininess
  let ar := (albedo.r : K) / 255
  let ag := (albedo.g : K) / 255
  let ab := (albedo.b : K) / 255
  let a : K := ambientStrength
  let d := diffuseStrength * diff
  let s := specularStrength * spec
  let r := clamp01 (ar * (a + d) + s)
  let g := clamp01 (ag * (a + d) + s)
  let b := clamp01 (ab * (a + d) + s)
  ⟨toUChar (r * 255), toUChar (g * 255), toUChar (b * 255), albedo.a⟩

/-! ## graphics.cpp: the three rasterizers -/

/-- Modelled from the spec: the diffuse texture of the model (`diffuse_width()`,
`diffuse_height()`, `diffuse(Vec2i)`), whose image class tgaimage.h is not part of the
sources. -/
structure Texture where
  w : Int
  h : Int
  get : Int → Int → TGAColor

/-- The two buffers a rasterizer call mutates: the depth buffer `zb`, indexed by
`P.x + P.y * width`, and the output image.  Modelled from the spec: the image is the
output sink written by `set(x, y, color)`. -/
structure Frame (K : Type) where
  zb : Int → WithBot K
  image : Int → Int → TGAColor

/-- Modelled from the spec: `TGAImage::set(x, y, c)` for an in-frame pixel. -/
def imageSet (img : Int → Int → TGAColor) (x y : Int) (c : TGAColor) :
    Int → Int → TGAColor :=
  fun a b => if a = x ∧ b = y then c else img a b

/-- The values of a C loop variable in `for (v = lo; v <= hi; v++)`, in order. -/
def intRange (lo hi : Int) : List Int :=
  (List.range (hi + 1 - lo).toNat).map (fun (k : Nat) => lo + (k : Int))

/-- Embedding of `triangle_flat(pts, image, color, zb)`. -/
def triangle_flat (pts : Fin 3 → Vec3f K) (color : TGAColor) (st : Frame K) : Frame K :=
  let clampv : Vec2i := ⟨width - 1, height - 1⟩
  let bb : Vec2i × Vec2i :=
    [0, 1, 2].foldl (fun (b : Vec2i × Vec2i) (i : Fin 3) =>
      (⟨max 0 (min b.1.x (castInt (pts i).x)), max 0 (min b.1.y (castInt (pts i).y))⟩,
       ⟨min clampv.x (max b.2.x (castInt (pts i).x)),
        min clampv.y (max b.2.y (castInt (pts i).y))⟩))
      (⟨width - 1, height - 1⟩, ⟨0, 0⟩)
  (intRange bb.1.x bb.2.x).foldl (fun st px =>
    (intRange bb.1.y bb.2.y).foldl (fun st py =>
      let P : Vec2i := ⟨px, py⟩
      let bc := barycentric pts P
      if bc.x < 0 ∨ bc.y < 0 ∨ bc.z < 0 then st
      else
        let z := (pts 0).z * bc.x + (pts 1).z * bc.y + (pts 2).z * bc.z
        let idx := P.x + P.y * width
        if idx < 0 ∨ idx ≥ width * height then st
        else if st.zb idx < (z : WithBot K) then
          { zb := Function.update st.zb idx (z : WithBot K),
            image := imageSet st.image P.x P.y color }
        else st) st) st

/-- Embedding of `triangle_phong_flat(pts, norms, worldPos, image, zb, light_dir,
eyePos, albedo)`. -/
def triangle_phong_flat (sqrt : K → K) (pts norms worldPos : Fin 3 → Vec3f K)
    (light_dir eyePos : Vec3f K) (albedo : TGAColor) (st : Frame K) : Frame K :=
  let bb := bbox_of_triangle pts
  (intRange bb.1.x bb.2.x).foldl (fun st px =>
    (intRange bb.1.y bb.2.y).foldl (fun st py =>
      let P : Vec2i := ⟨px, py⟩
      let bc := barycentric pts P
      if bc.x < 0 ∨ bc.y < 0 ∨ bc.z < 0 then st
      else
        let z := (pts 0).z * bc.x + (pts 1).z * bc.y + (pts 2).z * bc.z
        let idx := P.x + P.y * width
        if idx < 0 ∨ idx ≥ width * height then st
        else if st.zb idx < (z : WithBot K) then
          let N := ((((norms 0).smul bc.x).add ((norms 1).smul bc.y)).add
            ((norms 2).smul bc.z)).normalize sqrt
          let fragPos := (((worldPos 0).smul bc.x).add ((worldPos 1).smul bc.y)).add
            ((worldPos 2).smul bc.z)
          { zb := Function.update st.zb idx (z : WithBot K),
            image := imageSet st.image P.x P.y
              (phongColor sqrt N fragPos light_dir eyePos albedo) }
        else st) st) st

/-- Embedding of `triangle_phong_tex(pts, uvs, norms, worldPos, image, zb, light_dir,
eyePos)`; the global `model` enters through its diffuse texture `tex`. -/
def triangle_phong_tex (sqrt : K → K) (tex : Texture) (pts : Fin 3 → Vec3f K)
    (uvs : Fin 3 → Vec2f K) (norms worldPos : Fin 3 → Vec3f K)
    (light_dir eyePos : Vec3f K) (st : Frame K) : Frame K :=
  let bb := bbox_of_triangle pts
  let texW := tex.w
  let texH := tex.h
  (intRange bb.1.x bb.2.x).foldl (fun st px =>
    (intRange bb.1.y bb.2.y).foldl (fun st py =>
      let P : Vec2i := ⟨px, py⟩
      let bc := barycentric pts P
      if bc.x < 0 ∨ bc.y < 0 ∨ bc.z < 0 then st
      else
        let z := (pts 0).z * bc.x + (pts 1).z * bc.y + (pts 2).z * bc.z
        let idx := P.x + P.y * width
        if idx < 0 ∨ idx ≥ width * height then st
        else if st.zb idx < (z : WithBot K) then
          let u := (uvs 0).x * bc.x + (uvs 1).x * bc.y + (uvs 2).x * bc.z
          let v := (uvs 0).y * bc.x + (uvs 1).y * bc.y + (uvs 2).y * bc.z
          let tx := max 0 (min (texW - 1) (castInt (u * (texW : K))))
          let ty := max 0 (min (texH - 1) (castInt (v * (texH : K))))
          let albedo := tex.get tx ty
          let N := ((((norms 0).smul bc.x).add ((norms 1).smul bc.y)).add
            ((norms 2).smul bc.z)).normalize sqrt
          let fragPos := (((worldPos 0).smul bc.x).add ((worldPos 1).smul bc.y)).add
            ((worldPos 2).smul bc.z)
          { zb := Function.update st.zb idx (z : WithBot K),
            image := imageSet st.image P.x P.y
              (phongColor sqrt N fragPos light_dir eyePos albedo) }
        else st) st) st

/-! ## Vocabulary for the rasterizer claims -/

/-- Pixel `Q` lies in the framebuffer `[0, width-1] x [0, height-1]`. -/
def inFrame (Q : Vec2i) : Prop :=
  0 ≤ Q.x ∧ Q.x ≤ width - 1 ∧ 0 ≤ Q.y ∧ Q.y ≤ height - 1

instance (Q : Vec2i) : Decidable (inFrame Q) := by
  unfold inFrame; infer_instance

/-- Pixel `Q` is visited by the two nested loops over the box `bb = (bboxmin, bboxmax)`. -/
def inBox (bb : Vec2i × Vec2i) (Q : Vec2i) : Prop :=
  bb.1.x ≤ Q.x ∧ Q.x ≤ bb.2.x ∧ bb.1.y ≤ Q.y ∧ Q.y ≤ bb.2.y

instance (bb : Vec2i × Vec2i) (Q : Vec2i) : Decidable (inBox bb Q) := by
  unfold inBox; infer_instance

/-- Pixel `Q` passes the inside test: the negation of
`bc.x < 0.f || bc.y < 0.f || bc.z < 0.f`. -/
def accepted (pts : Fin 3 → Vec3f K) (Q : Vec2i) : Prop :=
  ¬ ((barycentric pts Q).x < 0 ∨ (barycentric pts Q).y < 0 ∨ (barycentric pts Q).z < 0)

instance (pts : Fin 3 → Vec3f K) (Q : Vec2i) : Decidable (accepted pts Q) := by
  unfold accepted; infer_instance

/-- Coverage of a triangle: the pixel is in its bounding box and passes the inside
test. -/
def covers (pts : Fin 3 → Vec3f K) (Q : Vec2i) : Prop :=
  inBox (bbox_of_triangle pts) Q ∧ accepted pts Q

instance (pts : Fin 3 → Vec3f K) (Q : Vec2i) : Decidable (covers pts Q) := by
  unfold covers; infer_instance

/-- Interpolated depth `z = pts[0].z*bc.x + pts[1].z*bc.y + pts[2].z*bc.z` at `Q`. -/
def depthAt (pts : Fin 3 → Vec3f K) (Q : Vec2i) : K :=
  (pts 0).z * (barycentric pts Q).x + (pts 1).z * (barycentric pts Q).y
    + (pts 2).z * (barycentric pts Q).z

/-- Body of the pixel loops shared by the three rasterizers; `shade` is the colour
written on a passed depth test, as a function of the barycentric weights. -/
def pixelStep (pts : Fin 3 → Vec3f K) (shade : Vec3f K → TGAColor) (st : Frame K)
    (P : Vec2i) : Frame K :=
  let bc := barycentric pts P
  if bc.x < 0 ∨ bc.y < 0 ∨ bc.z < 0 then st
  else
    let z := (pts 0).z * bc.x + (pts 1).z * bc.y + (pts 2).z * bc.z
    let idx := P.x + P.y * width
    if idx < 0 ∨ idx ≥ width * height then st
    else if st.zb idx < (z : WithBot K) then
      { zb := Function.update st.zb idx (z : WithBot K),
        image := imageSet st.image P.x P.y (shade bc) }
    else st

/-- The two nested pixel loops over a box, shared by the three rasterizers. -/
def rasterize (pts : Fin 3 → Vec3f K) (bb : Vec2i × Vec2i) (shade : Vec3f K → TGAColor)
    (st : Frame K) : Frame K :=
  (intRange bb.1.x bb.2.x).foldl (fun st px =>
    (intRange bb.1.y bb.2.y).foldl (fun st py => pixelStep pts shade st ⟨px, py⟩) st) st

/-- Colour written by `triangle_phong_flat` on a passed depth test. -/
def phongShade (sqrt : K → K) (norms worldPos : Fin 3 → Vec3f K)
    (light_dir eyePos : Vec3f K) (albedo : TGAColor) (bc : Vec3f K) : TGAColor :=
  phongColor sqrt
    (((((norms 0).smul bc.x).add ((norms 1).smul bc.y)).add ((norms 2).smul bc.z)).normalize sqrt)
    ((((worldPos 0).smul bc.x).add ((worldPos 1).smul bc.y)).add ((worldPos 2).smul bc.z))
    light_dir eyePos albedo

/-- Colour written by `triangle_phong_tex` on a passed depth test. -/
def texShade (sqrt : K → K) (tex : Texture) (uvs : Fin 3 → Vec2f K)
    (norms worldPos : Fin 3 → Vec3f K) (light_dir eyePos : Vec3f K) (bc : Vec3f K) :
    TGAColor :=
  phongShade sqrt norms worldPos light_dir eyePos
    (tex.get
      (max 0 (min (tex.w - 1)
        (castInt (((uvs 0).x * bc.x + (uvs 1).x * bc.y + (uvs 2).x * bc.z) * (tex.w : K)))))
      (max 0 (min (tex.h - 1)
        (castInt (((uvs 0).y * bc.x + (uvs 1).y * bc.y + (uvs 2).y * bc.z) * (tex.h : K))))))
    bc

/-- What the buffers hold for pixel `Q`: its depth cell and its colour. -/
def obs (st : Frame K) (Q : Vec2i) : WithBot K × TGAColor :=
  (st.zb (Q.x + Q.y * width), st.image Q.x Q.y)

/-- Effect of one visit of pixel `Q` on its depth cell and colour. -/
def cellStep (pts : Fin 3 → Vec3f K) (shade : Vec3f K → TGAColor) (Q : Vec2i)
    (c : WithBot K × TGAColor) : WithBot K × TGAColor :=
  if accepted pts Q ∧ c.1 < ((depthAt pts Q : K) : WithBot K) then
    (((depthAt pts Q : K) : WithBot K), shade (barycentric pts Q))
  else c

/-- An opaque draw call: one of the three rasterizers with its arguments. -/
inductive DrawCall (K : Type) where
  | flat (pts : Fin 3 → Vec3f K) (color : TGAColor)
  | phongFlat (pts norms worldPos : Fin 3 → Vec3f K) (light_dir eyePos : Vec3f K)
      (albedo : TGAColor)
  | phongTex (pts : Fin 3 → Vec3f K) (uvs : Fin 3 → Vec2f K)
      (norms worldPos : Fin 3 → Vec3f K) (light_dir eyePos : Vec3f K)

/-- Screen-space points of a draw call. -/
def DrawCall.pts : DrawCall K → (Fin 3 → Vec3f K)
  | .flat pts _ => pts
  | .phongFlat pts _ _ _ _ _ => pts
  | .phongTex pts _ _ _ _ _ => pts

/-- Run one draw call on the buffers. -/
def draw (sqrt : K → K) (tex : Texture) (st : Frame K) : DrawCall K → Frame K
  | .flat pts color => triangle_flat pts color st
  | .phongFlat pts norms worldPos light_dir eyePos albedo =>
      triangle_phong_flat sqrt pts norms worldPos light_dir eyePos albedo st
  | .phongTex pts uvs norms worldPos light_dir eyePos =>
      triangle_phong_tex sqrt tex pts uvs norms worldPos light_dir eyePos st

/-- Run a list of draw calls in order. -/
def render (sqrt : K → K) (tex : Texture) (calls : List (DrawCall K)) (st : Frame K) :
    Frame K :=
  calls.foldl (draw sqrt tex) st

/-- Depth buffer as initialised in `main`: every cell is negative infinity. -/
def emptyZBuffer : Int → WithBot K := fun _ => ⊥

/-- Depths of the calls of a list that cover pixel `Q`. -/
def coveringDepths (calls : List (DrawCall K)) (Q : Vec2i) : List K :=
  (calls.filter (fun c => decide (covers c.pts Q))).map (fun c => depthAt c.pts Q)

/-- Smallest truncated x coordinate of the three vertices. -/
def extentMinX (pts : Fin 3 → Vec3f K) : Int :=
  min (truncToInt (pts 0).x) (min (truncToInt (pts 1).x) (truncToInt (pts 2).x))

/-- Largest truncated x coordinate of the three vertices. -/
def extentMaxX (pts : Fin 3 → Vec3f K) : Int :=
  max (truncToInt (pts 0).x) (max (truncToInt (pts 1).x) (truncToInt (pts 2).x))

/-- Smallest truncated y coordinate of the three vertices. -/
def extentMinY (pts : Fin 3 → Vec3f K) : Int :=
  min (truncToInt (pts 0).y) (min (truncToInt (pts 1).y) (truncToInt (pts 2).y))

/-- Largest truncated y coordinate of the three vertices. -/
def extentMaxY (pts : Fin 3 → Vec3f K) : Int :=
  max (truncToInt (pts 0).y) (max (truncToInt (pts 1).y) (truncToInt (pts 2).y))

/-- The box as the specification words it: the intersection of the (truncated) extent
of the triangle with the frame `[0, width-1] x [0, height-1]`. -/
def bboxIntersection (pts : Fin 3 → Vec3f K) : Vec2i × Vec2i :=
  (⟨max 0 (extentMinX pts), max 0 (extentMinY pts)⟩,
   ⟨min (width - 1) (extentMaxX pts), min (height - 1) (extentMaxY pts)⟩)

/-- The truncated extent of the triangle misses the frame on some axis. -/
def extentOutsideFrame (pts : Fin 3 → Vec3f K) : Prop :=
  width - 1 < extentMinX pts ∨ extentMaxX pts < 0 ∨
  height - 1 < extentMinY pts ∨ extentMaxY pts < 0

instance (pts : Fin 3 → Vec3f K) : Decidable (extentOutsideFrame pts) := by
  unfold extentOutsideFrame; infer_instance

/-! ## Phong terms as the specification words them -/

/-- Diffuse term of the specification: `max(0, N.L)` on the normalized vectors. -/
def phongDiffuse (sqrt : K → K) (N L : Vec3f K) : K :=
  max 0 ((N.normalize sqrt).dot (L.normalize sqrt))

/-- Reflection vector of the specification: `R = normalize(-L - N*2*(-L.N))` on the
normalized `N` and `L`. -/
def phongReflect (sqrt : K → K) (N L : Vec3f K) : Vec3f K :=
  ((((L.normalize sqrt).smul (-1)).sub
    ((N.normalize sqrt).smul (2 * (((L.normalize sqrt).smul (-1)).dot (N.normalize sqrt)))))
    ).normalize sqrt

/-- Specular term of the specification: `max(0, R.V)` raised to the exponent 64, with
`V = normalize(E - P)`. -/
def phongSpecular (sqrt : K → K) (N fragPos L eyePos : Vec3f K) : K :=
  (max 0 ((phongReflect sqrt N L).dot ((eyePos.sub fragPos).normalize sqrt))) ^ 64

/-- Output channel of the specification for albedo channel `c`:
`trunc(255 * clamp01(c/255 * (0.30 + 0.70*diffuse) + 0.20*specular))`. -/
def phongChannelSpec (sqrt : K → K) (N fragPos L eyePos : Vec3f K) (c : Nat) : Int :=
  truncToInt (255 * clamp01 ((c : K) / 255 * (3 / 10 + 7 / 10 * phongDiffuse sqrt N L)
    + 2 / 10 * phongSpecular sqrt N fragPos L eyePos))

/-! ## model.cpp: vertex normals -/

/-- Embedding of the data members of `class Model`. -/
structure Model (K : Type) where
  verts_ : List (Vec3f K)
  faces_ : List (List Int)
  uvs_ : List (Vec2f K)
  faces_uv_ : List (List Int)
  vnorms_ : List (Vec3f K)
  diffusemap_ : Texture

/-- Read `v[i]` of a `std::vector<Vec3f>` with an `int` index.  The source assumes
the index valid; outside the vector this embedding reads the zero vector. -/
def vecGet (v : List (Vec3f K)) (i : Int) : Vec3f K :=
  if 0 ≤ i then v.getD i.toNat ⟨0, 0, 0⟩ else ⟨0, 0, 0⟩

/-- Write `v[i] = a` of a `std::vector<Vec3f>` with an `int` index.  The source
assumes the index valid; outside the vector this embedding writes nothing. -/
def vecSet (v : List (Vec3f K)) (i : Int) (a : Vec3f K) : List (Vec3f K) :=
  if 0 ≤ i then v.set i.toNat a else v

/-- Body of the loop `for (int k = 1; k + 1 < n; k++)` of `compute_vertex_normals`
for the face `f` with first vertex `v0`. -/
def addFaceNormal (verts : List (Vec3f K)) (f : List Int) (v0 : Vec3f K)
    (vn : List (Vec3f K)) (k : Nat) : List (Vec3f K) :=
  let i1 := f.getD k 0
  let i2 := f.getD (k + 1) 0
  let v1 := vecGet verts i1
  let v2 := vecGet verts i2
  let e1 := v2.sub v0
  let e2 := v1.sub v0
  let fn := e1.cross e2
  let vn := vecSet vn (f.getD 0 0) ((vecGet vn (f.getD 0 0)).add fn)
  let vn := vecSet vn i1 ((vecGet vn i1).add fn)
  vecSet vn i2 ((vecGet vn i2).add fn)

/-- Body of the loop over the faces in `compute_vertex_normals`. -/
def accumulateFace (verts : List (Vec3f K)) (vn : List (Vec3f K)) (f : List Int) :
    List (Vec3f K) :=
  let n := f.length
  if n < 3 then vn
  else
    let v0 := vecGet verts (f.getD 0 0)
    (List.range' 1 (n - 2)).foldl (addFaceNormal verts f v0) vn

/-- State of `vnorms_` after the first loop of `compute_vertex_normals`: the
accumulated sums of face normals. -/
def accumulateNormals (verts : List (Vec3f K)) (faces : List (List Int)) :
    List (Vec3f K) :=
  faces.foldl (accumulateFace verts) (List.replicate verts.length ⟨0, 0, 0⟩)

/-- Body of the second loop of `compute_vertex_normals`: normalize when the length
exceeds `1e-8f`, else the fallback `(0, 0, 1)`. -/
def finishNormal (sqrt : K → K) (v : Vec3f K) : Vec3f K :=
  let len := v.norm sqrt
  if len > 1 / 100000000 then v.smul (1 / len) else ⟨0, 0, 1⟩

/-- Embedding of `Model::compute_vertex_normals()`. -/
def Model.compute_vertex_normals (sqrt : K → K) (m : Model K) : Model K :=
  { m with vnorms_ := (accumulateNormals m.verts_ m.faces_).map (finishNormal sqrt) }

/-- Embedding of `Model::has_normals()`. -/
def Model.has_normals (m : Model K) : Bool :=
  decide ((m.vnorms_.length : Int) = (m.verts_.length : Int))

/-- Embedding of `Model::normal(vidx)`. -/
def Model.normal (m : Model K) (vidx : Int) : Vec3f K :=
  if vidx < 0 ∨ vidx ≥ (m.vnorms_.length : Int) then ⟨0, 0, 1⟩
  else m.vnorms_.getD vidx.toNat ⟨0, 0, 1⟩

/-- Every index stored in a face addresses a vertex. -/
def validFaces (m : Model K) : Prop :=
  ∀ f ∈ m.faces_, ∀ i ∈ f, 0 ≤ i ∧ i < (m.verts_.length : Int)

/-- Texture with no pixels, as left by a failed `load_texture`. -/
def noTexture : Texture := ⟨0, 0, fun _ _ => ⟨0, 0, 0, 0⟩⟩

/-- The mesh of the scenario: the single triangle (0,0,0), (1,0,0), (0,1,0). -/
def unitTriangleMesh : Model K :=
  { verts_ := [⟨0, 0, 0⟩, ⟨1, 0, 0⟩, ⟨0, 1, 0⟩]
    faces_ := [[0, 1, 2]]
    uvs_ := []
    faces_uv_ := [[]]
    vnorms_ := []
    diffusemap_ := noTexture }

/-- Light direction of main.cpp, `Vec3f light_dir(0, 0, -1)`. -/
def light_dir : Vec3f K := ⟨0, 0, -1⟩

/-- Eye position of main.cpp, `Vec3f camera(1, 0, 4)`. -/
def camera : Vec3f K := ⟨1, 0, 4⟩

/-- Default gray of main.cpp, `TGAColor(180, 180, 180, 255)`. -/
def defaultGray : TGAColor := ⟨180, 180, 180, 255⟩

/-- Vertex normals handed to the rasterizer for the triangle of `unitTriangleMesh`,
as in the face loop of `main`: `model->normal(i0)`, `model->normal(i1)`,
`model->normal(i2)` after `compute_vertex_normals`. -/
def unitTriangleNormals (sqrt : K → K) : Fin 3 → Vec3f K :=
  ![(unitTriangleMesh.compute_vertex_normals sqrt).normal 0,
    (unitTriangleMesh.compute_vertex_normals sqrt).normal 1,
    (unitTriangleMesh.compute_vertex_normals sqrt).normal 2]

/-- World positions of the three vertices of `unitTriangleMesh`. -/
def unitTriangleWorld : Fin 3 → Vec3f K := ![⟨0, 0, 0⟩, ⟨1, 0, 0⟩, ⟨0, 1, 0⟩]

/-- Barycentric weights of the centroid. -/
def centroidWeights : Vec3f K := ⟨1 / 3, 1 / 3, 1 / 3⟩

/-- Normal interpolated at the centroid, as `triangle_phong_flat` computes it. -/
def centroidNormal (sqrt : K → K) : Vec3f K :=
  (((((unitTriangleNormals sqrt) 0).smul centroidWeights.x).add
    (((unitTriangleNormals sqrt) 1).smul centroidWeights.y)).add
    (((unitTriangleNormals sqrt) 2).smul centroidWeights.z)).normalize sqrt

/-- Fragment position interpolated at the centroid, as `triangle_phong_flat`
computes it. -/
def centroidPos : Vec3f K :=
  (((unitTriangleWorld 0).smul centroidWeights.x).add
    ((unitTriangleWorld 1).smul centroidWeights.y)).add
    ((unitTriangleWorld 2).smul centroidWeights.z)

/-! ## model.cpp: accessors -/

/-- Embedding of `Model::nverts()`. -/
def Model.nverts (m : Model K) : Int := (m.verts_.length : Int)

/-- Embedding of `Model::nfaces()`. -/
def Model.nfaces (m : Model K) : Int := (m.faces_.length : Int)

/-- Embedding of `Model::face(idx)`.  The source assumes the index valid; outside
the vector this embedding reads the empty face. -/
def Model.face (m : Model K) (idx : Int) : List Int :=
  if 0 ≤ idx then m.faces_.getD idx.toNat [] else []

/-- Embedding of `Model::vert(i)`, the unchecked read `verts_[i]`. -/
def Model.vert (m : Model K) (i : Int) : Vec3f K := vecGet m.verts_ i

/-- Embedding of `Model::uv(iface, nthvert)`.  Each `operator[]` of the source is a
checked read here: the result is `none` exactly when a read would fall outside its
vector. -/
def Model.uv (m : Model K) (iface nthvert : Int) : Option (Vec2f K) :=
  if iface < 0 ∨ iface ≥ (m.faces_uv_.length : Int) then some ⟨0, 0⟩
  else
    match m.faces_uv_[iface.toNat]? with
    | none => none
    | some fu =>
      if nthvert < 0 ∨ nthvert ≥ (fu.length : Int) then some ⟨0, 0⟩
      else
        match fu[nthvert.toNat]? with
        | none => none
        | some idx =>
          if idx < 0 ∨ idx ≥ (m.uvs_.length : Int) then some ⟨0, 0⟩
          else m.uvs_[idx.toNat]?

/-- Embedding of `Model::face_has_uv(iface)`. -/
def Model.face_has_uv (m : Model K) (iface : Int) : Bool :=
  if iface < 0 ∨ iface ≥ (m.faces_uv_.length : Int) then false
  else decide ((m.faces_uv_.getD iface.toNat []).length ≥ 3)

/-- Embedding of `Model::diffuse(uv)`. -/
def Model.diffuse (m : Model K) (uv : Vec2i) : TGAColor := m.diffusemap_.get uv.x uv.y

/-- Embedding of `Model::has_diffuse()`. -/
def Model.has_diffuse (m : Model K) : Bool :=
  decide (m.diffusemap_.w > 0 ∧ m.diffusemap_.h > 0)

/-- Embedding of `Model::diffuse_width()`. -/
def Model.diffuse_width (m : Model K) : Int := m.diffusemap_.w

/-- Embedding of `Model::diffuse_height()`. -/
def Model.diffuse_height (m : Model K) : Int := m.diffusemap_.h

/-! ## graphics.cpp: texel coordinates of `triangle_phong_tex` -/

/-- The texel column `tx` computed by `triangle_phong_tex` for weights `bc`. -/
def texelX (tex : Texture) (uvs : Fin 3 → Vec2f K) (bc : Vec3f K) : Int :=
  max 0 (min (tex.w - 1)
    (castInt (((uvs 0).x * bc.x + (uvs 1).x * bc.y + (uvs 2).x * bc.z) * (tex.w : K))))

/-- The texel row `ty` computed by `triangle_phong_tex` for weights `bc`. -/
def texelY (tex : Texture) (uvs : Fin 3 → Vec2f K) (bc : Vec3f K) : Int :=
  max 0 (min (tex.h - 1)
    (castInt (((uvs 0).y * bc.x + (uvs 1).y * bc.y + (uvs 2).y * bc.z) * (tex.h : K))))

/-- Clamping as the specification words it: `v` limited to the range `[lo, hi]`. -/
def clampSpec (v lo hi : Int) : Int := if v < lo then lo else if hi < v then hi else v

/-- A model with two texture coordinates and one face whose third UV index is out of
range. -/
def uvModel : Model ℚ :=
  { verts_ := [⟨0, 0, 0⟩, ⟨1, 0, 0⟩, ⟨0, 1, 0⟩]
    faces_ := [[0, 1, 2]]
    uvs_ := [⟨1 / 4, 1 / 2⟩, ⟨3 / 4, 1 / 2⟩]
    faces_uv_ := [[0, 1, 7]]
    vnorms_ := []
    diffusemap_ := ⟨2, 2, fun a b => ⟨(a + 2 * b).toNat, 0, 0, 255⟩⟩ }

/-! ## Lab3/main.cpp: the overlay pass

`triangle_alpha` is called by `Lab3/main.cpp`; its definition is not part of the
sources. -/

/-- Modelled from the spec: a framebuffer pixel as the overlay pass blends it, one
scalar per colour channel. -/
structure Pixel (K : Type) where
  r : K
  g : K
  b : K

/-- Modelled from the spec: the buffers of the overlay pass, the shared depth buffer
and the framebuffer with scalar channels. -/
structure OverlayFrame (K : Type) where
  zb : Int → WithBot K
  image : Int → Int → Pixel K

/-- Modelled from the spec: the alpha blend of one channel,
`out = existing*(1 - alpha) + overlayColor*alpha`. -/
def blend (alpha existing overlay : K) : K := existing * (1 - alpha) + overlay * alpha

/-- Modelled from the spec: the blend applied to the three channels of a pixel. -/
def blendPixel (alpha : K) (existing overlay : Pixel K) : Pixel K :=
  ⟨blend alpha existing.r overlay.r, blend alpha existing.g overlay.g,
   blend alpha existing.b overlay.b⟩

/-- Modelled from the spec: the body of the pixel loop of `triangle_alpha`, which is
not part of the sources: the inside test and the strict depth test of the opaque
rasterizers; on pass the stored depth is left untouched and the pixel becomes the
blend of the existing pixel and the overlay colour. -/
def alphaPixelStep (pts : Fin 3 → Vec3f K) (color : Pixel K) (alpha : K)
    (st : OverlayFrame K) (P : Vec2i) : OverlayFrame K :=
  let bc := barycentric pts P
  if bc.x < 0 ∨ bc.y < 0 ∨ bc.z < 0 then st
  else
    let z := (pts 0).z * bc.x + (pts 1).z * bc.y + (pts 2).z * bc.z
    let idx := P.x + P.y * width
    if st.zb idx < (z : WithBot K) then
      { zb := st.zb,
        image := fun a b =>
          if a = P.x ∧ b = P.y then blendPixel alpha (st.image P.x P.y) color
          else st.image a b }
    else st

/-- Modelled from the spec: `triangle_alpha(pts, image, color, alpha, zb)`, which is
not part of the sources: the rasterizer of section 4.2 (bounding box, pixel loop)
with the overlay rule of section 4.4. -/
def triangle_alpha (pts : Fin 3 → Vec3f K) (color : Pixel K) (alpha : K)
    (st : OverlayFrame K) : OverlayFrame K :=
  let bb := bbox_of_triangle pts
  (intRange bb.1.x bb.2.x).foldl (fun st px =>
    (intRange bb.1.y bb.2.y).foldl (fun st py =>
      alphaPixelStep pts color alpha st ⟨px, py⟩) st) st

/-- Overlay colour of Lab3/main.cpp, `TGAColor glass(180, 220, 255, 255)`. -/
def glass : Pixel K := ⟨180, 220, 255⟩

/-- Overlay opacity of Lab3/main.cpp, `float alpha = 0.15f`. -/
def overlayAlpha : K := 15 / 100

/-- What the overlay buffers hold for pixel `Q`: the whole depth buffer and the
colour of `Q`. -/
def obsOverlay (st : OverlayFrame K) (Q : Vec2i) : (Int → WithBot K) × Pixel K :=
  (st.zb, st.image Q.x Q.y)

/-- Effect of one visit of pixel `Q` by the overlay pass. -/
def overlayCellStep (pts : Fin 3 → Vec3f K) (color : Pixel K) (alpha : K) (Q : Vec2i)
    (c : (Int → WithBot K) × Pixel K) : (Int → WithBot K) × Pixel K :=
  if accepted pts Q ∧ c.1 (Q.x + Q.y * width) < ((depthAt pts Q : K) : WithBot K) then
    (c.1, blendPixel alpha c.2 color)
  else c

/-! ## Matrices and the transform pipeline

The class `Matrix` of geometry.h is not part of the sources. -/

/-- Modelled from the spec: the assignment `m[i][j] = v` on a `Matrix`. -/
def matSet {r c : Nat} (m : Matrix (Fin r) (Fin c) K) (i : Fin r) (j : Fin c) (v : K) :
    Matrix (Fin r) (Fin c) K :=
  fun a b => if a = i ∧ b = j then v else m a b

/-- Modelled from the spec: `operator[]` of `Vec3f`, component `i` of a vector. -/
def Vec3f.get (v : Vec3f K) (i : Fin 3) : K :=
  match i with
  | 0 => v.x
  | 1 => v.y
  | 2 => v.z

/-- Embedding of `v2m(v)` of main.cpp: the 4x1 matrix `(v.x, v.y, v.z, 1)`. -/
def v2m (v : Vec3f K) : Matrix (Fin 4) (Fin 1) K :=
  let m : Matrix (Fin 4) (Fin 1) K := 0
  let m := matSet m 0 0 v.x
  let m := matSet m 1 0 v.y
  let m := matSet m 2 0 v.z
  matSet m 3 0 1

/-- Embedding of `m2v(m)` of main.cpp: the perspective divide. -/
def m2v (m : Matrix (Fin 4) (Fin 1) K) : Vec3f K :=
  ⟨m 0 0 / m 3 0, m 1 0 / m 3 0, m 2 0 / m 3 0⟩

/-- Embedding of `lookat(eye, center, up)`; returns the value assigned to the global
`ModelView`. -/
def lookat (sqrt : K → K) (eye center up : Vec3f K) : Matrix (Fin 4) (Fin 4) K :=
  let z := (eye.sub center).normalize sqrt
  let x := (up.cross z).normalize sqrt
  let y := (z.cross x).normalize sqrt
  let Minv : Matrix (Fin 4) (Fin 4) K := 1
  let Tr : Matrix (Fin 4) (Fin 4) K := 1
  let r := [0, 1, 2].foldl (fun (p : Matrix (Fin 4) (Fin 4) K × Matrix (Fin 4) (Fin 4) K)
      (i : Fin 3) =>
      (matSet (matSet (matSet p.1 0 i.castSucc (x.get i)) 1 i.castSucc (y.get i))
          2 i.castSucc (z.get i),
       matSet p.2 i.castSucc 3 (-(eye.get i)))) (Minv, Tr)
  r.1 * r.2

/-- Embedding of `viewport(x, y, w, h)`. -/
def viewport (x y w h : Int) : Matrix (Fin 4) (Fin 4) K :=
  let m : Matrix (Fin 4) (Fin 4) K := 1
  let m := matSet m 0 3 ((x : K) + (w : K) / 2)
  let m := matSet m 1 3 ((y : K) + (h : K) / 2)
  let m := matSet m 2 3 ((depth : K) / 2)
  let m := matSet m 0 0 ((w : K) / 2)
  let m := matSet m 1 1 ((h : K) / 2)
  matSet m 2 2 ((depth : K) / 2)

/-- Embedding of the statements of `main` that build the global `Projection` from the
globals `camera` and `center`. -/
def mainProjection (sqrt : K → K) (camera center : Vec3f K) : Matrix (Fin 4) (Fin 4) K :=
  let P : Matrix (Fin 4) (Fin 4) K := 1
  let dir := camera.sub center
  let dist := dir.norm sqrt
  let dist := if dist = 0 then 1 else dist
  matSet P 3 2 (-1 / dist)

/-- The eye-to-center distance used by `main` for `Projection`: `dir.norm()`, replaced
by 1 when it is 0. -/
def eyeDistance (sqrt : K → K) (camera center : Vec3f K) : K :=
  if (camera.sub center).norm sqrt = 0 then 1 else (camera.sub center).norm sqrt

/-- Look-at point of main.cpp, `Vec3f center(0, 0, 0)`. -/
def center : Vec3f K := ⟨0, 0, 0⟩

/-- Up vector of main.cpp, `Vec3f up(0, 1, 0)`. -/
def up : Vec3f K := ⟨0, 1, 0⟩

/-- Camera basis of the specification: `forward = normalize(eye - center)`. -/
def cameraForward (sqrt : K → K) (eye center : Vec3f K) : Vec3f K :=
  (eye.sub center).normalize sqrt

/-- Camera basis of the specification: `right = normalize(up x forward)`. -/
def cameraRight (sqrt : K → K) (eye center up : Vec3f K) : Vec3f K :=
  (up.cross (cameraForward sqrt eye center)).normalize sqrt

/-- Camera basis of the specification: `trueUp = normalize(forward x right)`. -/
def cameraUp (sqrt : K → K) (eye center up : Vec3f K) : Vec3f K :=
  ((cameraForward sqrt eye center).cross (cameraRight sqrt eye center up)).normalize sqrt

/-! ## main.cpp: the face loop and `main` -/

/-- Embedding of the loop `for (int k = 1; k + 1 < n; k++)` of `main`: the list of
what the body produces, in order.  `fuel` bounds the number of iterations; `n`
suffices (see `fanLoop_eq_map`). -/
def fanLoop {α : Type} (n : Nat) (body : Nat → α) (k : Nat) : Nat → List α
  | 0 => []
  | fuel + 1 => if k + 1 < n then body k :: fanLoop n body (k + 1) fuel else []

/-- Body of the `k` loop of `main` once the indices `i0 = face[0]`, `i1 = face[k]`,
`i2 = face[k + 1]` are read: the rasterizer call it makes for face `i`. -/
def submitTriangle (m : Model K) (Viewport Projection ModelView : Matrix (Fin 4) (Fin 4) K)
    (light eye : Vec3f K) (face_uv : Bool) (i k : Nat) (i0 i1 i2 : Int) : DrawCall K :=
  let world : Fin 3 → Vec3f K := ![m.vert i0, m.vert i1, m.vert i2]
  let pts : Fin 3 → Vec3f K := fun j =>
    m2v (Viewport * Projection * ModelView * v2m (world j))
  let wpos : Fin 3 → Vec3f K := ![world 0, world 1, world 2]
  let norms : Fin 3 → Vec3f K := ![m.normal i0, m.normal i1, m.normal i2]
  if face_uv then
    let uvs : Fin 3 → Vec2f K :=
      ![(m.uv (i : Int) 0).getD ⟨0, 0⟩, (m.uv (i : Int) (k : Int)).getD ⟨0, 0⟩,
        (m.uv (i : Int) ((k : Int) + 1)).getD ⟨0, 0⟩]
    DrawCall.phongTex pts uvs norms wpos light eye
  else
    DrawCall.phongFlat pts norms wpos light eye defaultGray

/-- Body of the face loop of `main` for face `i`: the rasterizer calls it makes, in
order. -/
def faceCalls (m : Model K) (Viewport Projection ModelView : Matrix (Fin 4) (Fin 4) K)
    (light eye : Vec3f K) (use_tex : Bool) (i : Nat) : List (DrawCall K) :=
  let face := m.face (i : Int)
  let n := face.length
  if n < 3 then []
  else
    let face_uv := use_tex && m.face_has_uv (i : Int)
    fanLoop n (fun k => submitTriangle m Viewport Projection ModelView light eye face_uv i k
      (face.getD 0 0) (face.getD k 0) (face.getD (k + 1) 0)) 1 n

/-- The rasterizer calls made by the face loop of `main`, in order. -/
def mainCalls (sqrt : K → K) (m : Model K) : List (DrawCall K) :=
  (List.range m.faces_.length).flatMap
    (faceCalls m (viewport 0 0 width height) (mainProjection sqrt camera center)
      (lookat sqrt camera center up) ((light_dir : Vec3f K).normalize sqrt) camera
      m.has_diffuse)

/-- Modelled from the spec: the image handed to the output sink after
`flip_vertically()` of tgaimage.h, which is not part of the sources: the rows are
mirrored. -/
def flipVertically (img : Int → Int → TGAColor) : Int → Int → TGAColor :=
  fun x y => img x (height - 1 - y)

/-! ## model.cpp: the end of the constructor, with checked vector accesses -/

/-- Largest finite `float`, `std::numeric_limits<float>::max()`. -/
def fltMax : K := 340282346638528859811704183484516925440

/-- Body of the first loop of `Model::normalize()`, acting on the pair `(minv, maxv)`. -/
def normalizeStep (p : Vec3f K × Vec3f K) (v : Vec3f K) : Vec3f K × Vec3f K :=
  (⟨min p.1.x v.x, min p.1.y v.y, min p.1.z v.z⟩,
   ⟨max p.2.x v.x, max p.2.y v.y, max p.2.z v.z⟩)

/-- Embedding of `Model::normalize()`. -/
def Model.normalize (m : Model K) : Model K :=
  let mm := m.verts_.foldl normalizeStep
    ((⟨fltMax, fltMax, fltMax⟩ : Vec3f K), (⟨-fltMax, -fltMax, -fltMax⟩ : Vec3f K))
  let minv := mm.1
  let maxv := mm.2
  let center : Vec3f K :=
    ⟨(minv.x + maxv.x) * (1 / 2), (minv.y + maxv.y) * (1 / 2), (minv.z + maxv.z) * (1 / 2)⟩
  let size : Vec3f K := ⟨maxv.x - minv.x, maxv.y - minv.y, maxv.z - minv.z⟩
  let maxExtentXY := max size.x size.y
  let maxExtentXY := if maxExtentXY = 0 then 1 else maxExtentXY
  let scale := (18 / 10) / maxExtentXY
  { m with verts_ := m.verts_.map (fun v =>
      ⟨(v.x - center.x) * scale, (v.y - center.y) * scale, (v.z - center.z) * scale⟩) }

/-- Read `v[i]` of a `std::vector<Vec3f>` with an `int` index, checked: `none` when
the index lies outside the vector, where the C++ access has no defined result. -/
def vecGetChecked (v : List (Vec3f K)) (i : Int) : Option (Vec3f K) :=
  if 0 ≤ i ∧ i < (v.length : Int) then some (vecGet v i) else none

/-- Write `v[i] = a` of a `std::vector<Vec3f>` with an `int` index, checked: `none`
when the index lies outside the vector. -/
def vecSetChecked (v : List (Vec3f K)) (i : Int) (a : Vec3f K) : Option (List (Vec3f K)) :=
  if 0 ≤ i ∧ i < (v.length : Int) then some (vecSet v i a) else none

/-- Body of the loop `for (int k = 1; k + 1 < n; k++)` of `compute_vertex_normals`, every
access to `verts_` and `vnorms_` checked. -/
def addFaceNormalChecked (verts : List (Vec3f K)) (f : List Int) (v0 : Vec3f K)
    (vn : List (Vec3f K)) (k : Nat) : Option (List (Vec3f K)) :=
  let i1 := f.getD k 0
  let i2 := f.getD (k + 1) 0
  (vecGetChecked verts i1).bind fun v1 =>
  (vecGetChecked verts i2).bind fun v2 =>
  let e1 := v2.sub v0
  let e2 := v1.sub v0
  let fn := e1.cross e2
  (vecGetChecked vn (f.getD 0 0)).bind fun a0 =>
  (vecSetChecked vn (f.getD 0 0) (a0.add fn)).bind fun vn1 =>
  (vecGetChecked vn1 i1).bind fun a1 =>
  (vecSetChecked vn1 i1 (a1.add fn)).bind fun vn2 =>
  (vecGetChecked vn2 i2).bind fun a2 =>
  vecSetChecked vn2 i2 (a2.add fn)

/-- Body of the loop over the faces in `compute_vertex_normals`, every access checked;
the first access is `Vec3f v0 = verts_[f[0]]`. -/
def accumulateFaceChecked (verts : List (Vec3f K)) (vn : List (Vec3f K)) (f : List Int) :
    Option (List (Vec3f K)) :=
  let n := f.length
  if n < 3 then some vn
  else
    (vecGetChecked verts (f.getD 0 0)).bind fun v0 =>
    (List.range' 1 (n - 2)).foldlM (addFaceNormalChecked verts f v0) vn

/-- Embedding of `Model::compute_vertex_normals()` with every access to `verts_` and
`vnorms_` checked: `none` when the method reads or writes outside a vector. -/
def Model.compute_vertex_normals_checked (sqrt : K → K) (m : Model K) : Option (Model K) :=
  (m.faces_.foldlM (accumulateFaceChecked m.verts_)
      (List.replicate m.verts_.length ⟨0, 0, 0⟩)).map
    fun acc => { m with vnorms_ := acc.map (finishNormal sqrt) }

/-- Embedding of the end of `Model::Model`, after the second pass over the file has filled
`verts_`, `faces_`, `uvs_` and `faces_uv_` (the fields of `parsed`; its `diffusemap_` is
the image `load_texture` reads): `if (!verts_.empty()) normalize();` then
`compute_vertex_normals();`.  The result is `none` when `compute_vertex_normals` accesses
a vector outside its bounds. -/
def Model.construct (sqrt : K → K) (parsed : Model K) : Option (Model K) :=
  (if parsed.verts_.isEmpty then parsed else parsed.normalize).compute_vertex_normals_checked
    sqrt

/-! ## main.cpp: `main` -/

/-- What a run of `main` leaves behind: the exit code, the depth buffer if one was
allocated, the rasterizer calls made, and the image written to `output.tga` if one was
written. -/
structure MainResult (K : Type) where
  code : Int
  zbuffer : Option (Int → WithBot K)
  submitted : List (DrawCall K)
  output : Option (Int → Int → TGAColor)

/-- Embedding of the statements of `main` that follow `model = new Model(...)`, for the
constructed model `m` (`new` never returns a null pointer). -/
def mainAfterLoad (sqrt : K → K) (m : Model K) : MainResult K :=
  if m.nverts = 0 ∨ m.nfaces = 0 then
    { code := 1, zbuffer := none, submitted := [], output := none }
  else
    let zbuffer : Int → WithBot K := emptyZBuffer
    let image : Int → Int → TGAColor := fun _ _ => ⟨0, 0, 0, 0⟩
    let calls := mainCalls sqrt m
    let st := render sqrt m.diffusemap_ calls ⟨zbuffer, image⟩
    { code := 0, zbuffer := some st.zb, submitted := calls,
      output := some (flipVertically st.image) }

/-- Embedding of `main` of main.cpp on the vectors `parsed` read from the model file:
the constructor `new Model(...)` runs first, then the emptiness check and the render.
The result is `none` when the constructor accesses a vector outside its bounds: the
program then has no defined result (the compiled program is stopped by a memory fault
and returns no exit code of its own). -/
def main (sqrt : K → K) (parsed : Model K) : Option (MainResult K) :=
  (parsed.construct sqrt).map (mainAfterLoad sqrt)

/-- Fan triangulation as the specification words it: vertex 0 paired with each
consecutive edge `(k, k+1)` for `k = 1..n-2`; each entry is `(k, f[0], f[k], f[k+1])`. -/
def fanTriangles (f : List Int) : List (Nat × Int × Int × Int) :=
  if f.length < 3 then []
  else (List.range' 1 (f.length - 2)).map
    (fun k => (k, f.getD 0 0, f.getD k 0, f.getD (k + 1) 0))

/-- The accumulation step of `compute_vertex_normals` for the triangle with vertex
indices `i0, i1, i2`. -/
def addTriangleNormal (verts : List (Vec3f K)) (vn : List (Vec3f K)) (i0 i1 i2 : Int) :
    List (Vec3f K) :=
  let v0 := vecGet verts i0
  let v1 := vecGet verts i1
  let v2 := vecGet verts i2
  let fn := (v2.sub v0).cross (v1.sub v0)
  let vn := vecSet vn i0 ((vecGet vn i0).add fn)
  let vn := vecSet vn i1 ((vecGet vn i1).add fn)
  vecSet vn i2 ((vecGet vn i2).add fn)

/-- A model with no vertex and no face, as left by a file that cannot be opened. -/
def emptyModel : Model K :=
  { verts_ := [], faces_ := [], uvs_ := [], faces_uv_ := [], vnorms_ := [],
    diffusemap_ := noTexture }

/-- A mesh with one quad face. -/
def quadModel : Model K :=
  { verts_ := [⟨0, 0, 0⟩, ⟨1, 0, 0⟩, ⟨1, 1, 0⟩, ⟨0, 1, 0⟩]
    faces_ := [[0, 1, 2, 3]]
    uvs_ := []
    faces_uv_ := [[]]
    vnorms_ := []
    diffusemap_ := noTexture }

/-! ## model.cpp: the parser of `f` lines -/

/-- The test `*s == ' ' || *s == '\t'` of the face parser. -/
def isBlank (c : Char) : Bool := c == ' ' || c == '\t'

/-- The C library predicate `isspace` in the "C" locale, used by `strtol` to skip
leading white space. -/
def isSpaceC (c : Char) : Bool :=
  c == ' ' || c == '\t' || c == '\n' || c == Char.ofNat 11 || c == Char.ofNat 12 || c == '\r'

/-- The C library call `strtol(s, &end, 10)` on the characters `s` up to the
terminating NUL: `none` when no conversion is performed (`end == s`), else the value
and the characters from `end` on.  The value is not limited to the range of `long`. -/
def strtol (s : List Char) : Option (Int × List Char) :=
  let s1 := s.dropWhile isSpaceC
  let neg : Bool := s1.head? == some '-'
  let s2 : List Char :=
    match s1 with
    | '-' :: t => t
    | '+' :: t => t
    | _ => s1
  let ds := s2.takeWhile Char.isDigit
  if ds.isEmpty then none
  else
    let v : Nat := ds.foldl (fun a c => 10 * a + (c.toNat - 48)) 0
    some (if neg then -(v : Int) else (v : Int), s2.dropWhile Char.isDigit)

/-- The loop `while (*s && *s != ' ' && *s != '\t') s++` of the face parser. -/
def skipToken (s : List Char) : List Char := s.dropWhile (fun c => !isBlank c)

/-- Embedding of the loop `while (*s)` of the `f` branch of `Model::Model`, on the
characters `s` up to the terminating NUL, with the vectors `f` and `fuv` built so
far; `none` when `fuel` iterations do not reach the end of the loop. -/
def parseFaceTokens : Nat → List Char → List Int → List Int → Option (List Int × List Int)
  | 0, _, _, _ => none
  | fuel + 1, s, f, fuv =>
    match s with
    | [] => some (f, fuv)
    | _ :: _ =>
      match s.dropWhile isBlank with
      | [] => some (f, fuv)
      | c :: rest =>
        match strtol (c :: rest) with
        | none => some (f, fuv)
        | some (vIdx, e) =>
          match e with
          | '/' :: s1 =>
            match strtol s1 with
            | some (tmp, e2) =>
              parseFaceTokens fuel (skipToken e2) (f ++ [vIdx - 1])
                (if tmp - 1 ≥ 0 then fuv ++ [tmp - 1] else fuv)
            | none => parseFaceTokens fuel (skipToken e) (f ++ [vIdx - 1]) fuv
          | _ => parseFaceTokens fuel (skipToken e) (f ++ [vIdx - 1]) fuv

/-- The characters of `line.c_str() + 2` up to the terminating NUL. -/
def faceLineText (line : List Char) : List Char :=
  (line.drop 2).takeWhile (fun c => c != Char.ofNat 0)

/-- Embedding of the `f` branch of `Model::Model` for one line starting with `"f "`:
the new values of `faces_` and `faces_uv_`; `none` when the token loop runs out of
fuel. -/
def parseFaceLine (line : List Char) (faces_ faces_uv_ : List (List Int)) :
    Option (List (List Int) × List (List Int)) :=
  match parseFaceTokens (line.length + 1) (faceLineText line) [] [] with
  | none => none
  | some (f, fuv) =>
    if f.length ≥ 3 then
      some (faces_ ++ [f], faces_uv_ ++ [if !fuv.isEmpty then fuv else []])
    else some (faces_, faces_uv_)

/-- The line `f 1/1 2 3/3`: the second vertex token carries no `/vt` part. -/
def partialUvLine : List Char :=
  ['f', ' ', '1', '/', '1', ' ', '2', ' ', '3', '/', '3']

/-- The line `f 1/1 2 3/3 4/4`. -/
def partialUvQuadLine : List Char :=
  ['f', ' ', '1', '/', '1', ' ', '2', ' ', '3', '/', '3', ' ', '4', '/', '4']

/-- A model holding the face parsed from `partialUvQuadLine` and four texture
coordinates. -/
def partialUvModel : Model ℚ :=
  { verts_ := [⟨0, 0, 0⟩, ⟨1, 0, 0⟩, ⟨1, 1, 0⟩, ⟨0, 1, 0⟩]
    faces_ := [[0, 1, 2, 3]]
    uvs_ := [⟨0, 0⟩, ⟨1, 0⟩, ⟨1, 1⟩, ⟨0, 1⟩]
    faces_uv_ := [[0, 2, 3]]
    vnorms_ := []
    diffusemap_ := ⟨2, 2, fun _ _ => ⟨0, 0, 0, 255⟩⟩ }

/-! ## Vocabulary for the shared coverage and depth rule -/

/-- The box computed by the loop inlined at the start of `triangle_flat`. -/
def flatBox (pts : Fin 3 → Vec3f K) : Vec2i × Vec2i :=
  let clampv : Vec2i := ⟨width - 1, height - 1⟩
  [0, 1, 2].foldl (fun (b : Vec2i × Vec2i) (i : Fin 3) =>
    (⟨max 0 (min b.1.x (castInt (pts i).x)), max 0 (min b.1.y (castInt (pts i).y))⟩,
     ⟨min clampv.x (max b.2.x (castInt (pts i).x)),
      min clampv.y (max b.2.y (castInt (pts i).y))⟩))
    (⟨width - 1, height - 1⟩, ⟨0, 0⟩)

/-- The body of the pixel loops with the test `idx < 0 || idx >= width * height`
removed. -/
def pixelStepUnguarded (pts : Fin 3 → Vec3f K) (shade : Vec3f K → TGAColor) (st : Frame K)
    (P : Vec2i) : Frame K :=
  let bc := barycentric pts P
  if bc.x < 0 ∨ bc.y < 0 ∨ bc.z < 0 then st
  else
    let z := (pts 0).z * bc.x + (pts 1).z * bc.y + (pts 2).z * bc.z
    let idx := P.x + P.y * width
    if st.zb idx < (z : WithBot K) then
      { zb := Function.update st.zb idx (z : WithBot K),
        image := imageSet st.image P.x P.y (shade bc) }
    else st

/-- The two nested pixel loops with the index test removed from the body. -/
def rasterizeUnguarded (pts : Fin 3 → Vec3f K) (bb : Vec2i × Vec2i)
    (shade : Vec3f K → TGAColor) (st : Frame K) : Frame K :=
  (intRange bb.1.x bb.2.x).foldl (fun st px =>
    (intRange bb.1.y bb.2.y).foldl (fun st py =>
      pixelStepUnguarded pts shade st ⟨px, py⟩) st) st

/-- Pixel `Q` is written by a rasterizer call on the buffers `st`: it is covered and
its stored depth is strictly below the interpolated depth. -/
def written (pts : Fin 3 → Vec3f K) (st : Frame K) (Q : Vec2i) : Prop :=
  covers pts Q ∧ st.zb (Q.x + Q.y * width) < ((depthAt pts Q : K) : WithBot K)

instance (pts : Fin 3 → Vec3f K) (st : Frame K) (Q : Vec2i) : Decidable (written pts st Q) := by
  unfold written; infer_instance

/-- A triangle that sticks out of the frame on the left and at the top. -/
def cornerTri : Fin 3 → Vec3f ℚ := ![⟨-50, 1900, 1⟩, ⟨30, 1900, 1⟩, ⟨-50, 2500, 1⟩]

/-- The vertex coordinates of the triangle, truncated, fit the type `int`. -/
def coordsFitInt (pts : Fin 3 → Vec3f K) : Prop :=
  ∀ i : Fin 3, fitsInt (pts i).x ∧ fitsInt (pts i).y

instance coordsFitInt.decidable (pts : Fin 3 → Vec3f K) : Decidable (coordsFitInt pts) := by
  unfold coordsFitInt; infer_instance

/-- The vectors left by a file with no `v` line and the line `f 1 2 3`: no vertex and
one stored face. -/
def vertexlessModel : Model K :=
  { verts_ := [], faces_ := [[0, 1, 2]], uvs_ := [], faces_uv_ := [[]], vnorms_ := [],
    diffusemap_ := noTexture }

/-- The line `f 1 2 3`. -/
def plainFaceLine : List Char := ['f', ' ', '1', ' ', '2', ' ', '3']

/-- A non-degenerate triangle with one vertex at x = 3000000000, beyond the range of
`int`; its lower edge runs through the frame along the row y = 5. -/
def overflowTri : Fin 3 → Vec3f ℚ := ![⟨5, 5, 0⟩, ⟨3000000000, 5, 0⟩, ⟨5, 15, 0⟩]

/-- A texture of width 2 and height 2 whose texel (x, y) has red channel x. -/
def stripeTexture : Texture := ⟨2, 2, fun x _ => ⟨x.toNat, 0, 0, 255⟩⟩

/-- Texture coordinates (10000000000, 0) at each of the three vertices. -/
def hugeUvs : Fin 3 → Vec2f ℚ := fun _ => ⟨10000000000, 0⟩

/-! ## Concrete inputs used to exercise the definitions -/

/-- A small on-screen triangle with vertices (0,0,0), (10,0,5), (0,10,5). -/
def exTri : Fin 3 → Vec3f ℚ := ![⟨0, 0, 0⟩, ⟨10, 0, 5⟩, ⟨0, 10, 5⟩]

/-- A non-degenerate triangle lying entirely to the right of the frame. -/
def farTri : Fin 3 → Vec3f ℚ := ![⟨2000, 0, 0⟩, ⟨2010, 0, 0⟩, ⟨2000, 10, 0⟩]

/-- A degenerate triangle: three collinear points. -/
def degTri : Fin 3 → Vec3f ℚ := ![⟨0, 0, 0⟩, ⟨1, 1, 0⟩, ⟨2, 2, 0⟩]

/-- Opaque red. -/
def red : TGAColor := ⟨255, 0, 0, 255⟩

/-- Buffers at the start of a render: empty depth buffer, black image. -/
def exFrame : Frame ℚ := ⟨emptyZBuffer, fun _ _ => ⟨0, 0, 0, 255⟩⟩

/-- Overlay buffers at the start: empty depth buffer, black image. -/
def exOverlayFrame : OverlayFrame ℚ := ⟨emptyZBuffer, fun _ _ => ⟨0, 0, 0⟩⟩

/-! ## Basic facts -/

theorem triangle_flat_eq (pts : Fin 3 → Vec3f K) (color : TGAColor) (st : Frame K) :
    triangle_flat pts color st
      = rasterize pts (bbox_of_triangle pts) (fun _ => color) st := rfl

theorem triangle_phong_flat_eq (sqrt : K → K) (pts norms worldPos : Fin 3 → Vec3f K)
    (light_dir eyePos : Vec3f K) (albedo : TGAColor) (st : Frame K) :
    triangle_phong_flat sqrt pts norms worldPos light_dir eyePos albedo st
      = rasterize pts (bbox_of_triangle pts)
          (phongShade sqrt norms worldPos light_dir eyePos albedo) st := rfl

theorem triangle_phong_tex_eq (sqrt : K → K) (tex : Texture) (pts : Fin 3 → Vec3f K)
    (uvs : Fin 3 → Vec2f K) (norms worldPos : Fin 3 → Vec3f K)
    (light_dir eyePos : Vec3f K) (st : Frame K) :
    triangle_phong_tex sqrt tex pts uvs norms worldPos light_dir eyePos st
      = rasterize pts (bbox_of_triangle pts)
          (texShade sqrt tex uvs norms worldPos light_dir eyePos) st := rfl

theorem mem_intRange (lo hi a : Int) : a ∈ intRange lo hi ↔ lo ≤ a ∧ a ≤ hi := by
  unfold intRange
  simp only [List.mem_map, List.mem_range]
  constructor
  · rintro ⟨k, hk, rfl⟩
    omega
  · rintro ⟨h1, h2⟩
    exact ⟨(a - lo).toNat, by omega, by omega⟩

theorem nodup_intRange (lo hi : Int) : (intRange lo hi).Nodup := by
  unfold intRange
  apply List.Nodup.map _ (List.nodup_range _)
  intro a b h
  simpa using h

theorem vec2i_eq_iff (P Q : Vec2i) : P = Q ↔ P.x = Q.x ∧ P.y = Q.y := by
  cases P; cases Q; simp

theorem pixelStep_obs (pts : Fin 3 → Vec3f K) (shade : Vec3f K → TGAColor) (st : Frame K)
    (P Q : Vec2i) (hP : inFrame P) (hQ : inFrame Q) :
    obs (pixelStep pts shade st P) Q
      = if P = Q then cellStep pts shade Q (obs st Q) else obs st Q := by
  have hidx : ¬ (P.x + P.y * width < 0 ∨ P.x + P.y * width ≥ width * height) := by
    unfold inFrame at hP
    simp only [width, height] at hP ⊢
    omega
  by_cases hPQ : P = Q
  · subst hPQ
    simp only [if_true]
    unfold pixelStep cellStep obs accepted depthAt
    by_cases hacc : (barycentric pts P).x < 0 ∨ (barycentric pts P).y < 0 ∨
        (barycentric pts P).z < 0
    · simp [hacc]
    · simp only [hacc, if_false, hidx, not_false_eq_true, true_and]
      split_ifs with hlt
      · simp [imageSet]
      · rfl
  · simp only [hPQ, if_false]
    have hne : Q.x + Q.y * width ≠ P.x + P.y * width := by
      unfold inFrame at hP hQ
      rw [vec2i_eq_iff] at hPQ
      simp only [width, height] at hP hQ ⊢
      omega
    have hne2 : ¬ (Q.x = P.x ∧ Q.y = P.y) := by
      rw [vec2i_eq_iff] at hPQ
      tauto
    unfold pixelStep obs
    simp only
    split_ifs <;> simp [imageSet, Function.update_noteq hne, hne2]

theorem foldl_obs_none {S A B : Type} (f : S → A → S) (o : S → B) (l : List A)
    (hstep : ∀ s a, a ∈ l → o (f s a) = o s) (s : S) :
    o (l.foldl f s) = o s := by
  induction l generalizing s with
  | nil => rfl
  | cons a l ih =>
    rw [List.foldl_cons, ih (fun s b hb => hstep s b (List.mem_cons_of_mem _ hb)),
      hstep s a (List.mem_cons_self _ _)]

theorem foldl_obs_once {S A B : Type} [DecidableEq A] (f : S → A → S) (o : S → B)
    (g : B → B) (key : A) (l : List A) (hnd : l.Nodup)
    (hstep : ∀ s a, a ∈ l → o (f s a) = if a = key then g (o s) else o s) (s : S) :
    o (l.foldl f s) = if key ∈ l then g (o s) else o s := by
  induction l generalizing s with
  | nil => simp
  | cons a l ih =>
    rw [List.nodup_cons] at hnd
    rw [List.foldl_cons]
    by_cases hak : a = key
    · subst hak
      rw [foldl_obs_none f o l _ (f s a)]
      · rw [hstep s a (List.mem_cons_self _ _)]
        simp
      · intro s b hb
        rw [hstep s b (List.mem_cons_of_mem _ hb)]
        have hba : b ≠ a := fun h => hnd.1 (h ▸ hb)
        simp [hba]
    · rw [ih hnd.2 (fun s b hb => hstep s b (List.mem_cons_of_mem _ hb)),
        hstep s a (List.mem_cons_self _ _)]
      have hka : key ≠ a := fun h => hak h.symm
      simp [hak, hka]

/-- Effect of the two nested loops on the cell and colour of one in-frame pixel. -/
theorem rasterize_obs (pts : Fin 3 → Vec3f K) (bb : Vec2i × Vec2i)
    (shade : Vec3f K → TGAColor) (st : Frame K) (Q : Vec2i)
    (hbb : ∀ P, inBox bb P → inFrame P) (hQ : inFrame Q) :
    obs (rasterize pts bb shade st) Q
      = if inBox bb Q then cellStep pts shade Q (obs st Q) else obs st Q := by
  have hcol : ∀ (px : Int) (s : Frame K), px ∈ intRange bb.1.x bb.2.x →
      obs ((intRange bb.1.y bb.2.y).foldl (fun st py => pixelStep pts shade st ⟨px, py⟩) s) Q
        = if px = Q.x then
            (if Q.y ∈ intRange bb.1.y bb.2.y then cellStep pts shade Q (obs s Q) else obs s Q)
          else obs s Q := by
    intro px s hpx
    rw [mem_intRange] at hpx
    have hfr : ∀ py, py ∈ intRange bb.1.y bb.2.y → inFrame ⟨px, py⟩ := by
      intro py hpy
      rw [mem_intRange] at hpy
      exact hbb ⟨px, py⟩ ⟨hpx.1, hpx.2, hpy.1, hpy.2⟩
    by_cases hx : px = Q.x
    · simp only [hx, if_true]
      rw [← hx]
      apply foldl_obs_once (fun st py => pixelStep pts shade st ⟨px, py⟩) (fun s => obs s Q)
        (cellStep pts shade Q) Q.y _ (nodup_intRange _ _)
      intro s a ha
      show obs (pixelStep pts shade s ⟨px, a⟩) Q = _
      rw [pixelStep_obs pts shade s ⟨px, a⟩ Q (hfr a ha) hQ]
      have : ((⟨px, a⟩ : Vec2i) = Q) ↔ a = Q.y := by
        rw [vec2i_eq_iff]
        simp [hx]
      simp only [this]
    · simp only [hx, if_false]
      apply foldl_obs_none (fun st py => pixelStep pts shade st ⟨px, py⟩) (fun s => obs s Q)
      intro s a ha
      show obs (pixelStep pts shade s ⟨px, a⟩) Q = _
      rw [pixelStep_obs pts shade s ⟨px, a⟩ Q (hfr a ha) hQ]
      have : ¬ ((⟨px, a⟩ : Vec2i) = Q) := by
        rw [vec2i_eq_iff]
        simp [hx]
      simp only [this, if_false]
  unfold rasterize
  rw [foldl_obs_once
    (fun st px => (intRange bb.1.y bb.2.y).foldl
      (fun st py => pixelStep pts shade st ⟨px, py⟩) st)
    (fun s => obs s Q)
    (fun c => if Q.y ∈ intRange bb.1.y bb.2.y then cellStep pts shade Q c else c)
    Q.x _ (nodup_intRange _ _) (fun s a ha => hcol a s ha)]
  simp only [mem_intRange, inBox]
  by_cases h1 : bb.1.x ≤ Q.x ∧ Q.x ≤ bb.2.x
  · by_cases h2 : bb.1.y ≤ Q.y ∧ Q.y ≤ bb.2.y
    · have : bb.1.x ≤ Q.x ∧ Q.x ≤ bb.2.x ∧ bb.1.y ≤ Q.y ∧ Q.y ≤ bb.2.y :=
        ⟨h1.1, h1.2, h2.1, h2.2⟩
      simp [h1, h2, this]
    · have : ¬ (bb.1.x ≤ Q.x ∧ Q.x ≤ bb.2.x ∧ bb.1.y ≤ Q.y ∧ Q.y ≤ bb.2.y) :=
        fun h => h2 ⟨h.2.2.1, h.2.2.2⟩
      simp [h1, h2, this]
  · have : ¬ (bb.1.x ≤ Q.x ∧ Q.x ≤ bb.2.x ∧ bb.1.y ≤ Q.y ∧ Q.y ≤ bb.2.y) :=
      fun h => h1 ⟨h.1, h.2.1⟩
    simp [h1, this]

/-- The box of `bbox_of_triangle` lies inside the frame. -/
theorem bbox_bounds (pts : Fin 3 → Vec3f K) :
    0 ≤ (bbox_of_triangle pts).1.x ∧ (bbox_of_triangle pts).2.x ≤ width - 1 ∧
    0 ≤ (bbox_of_triangle pts).1.y ∧ (bbox_of_triangle pts).2.y ≤ height - 1 := by
  simp only [bbox_of_triangle, List.foldl, bboxStep, width, height]
  omega

theorem bbox_inFrame (pts : Fin 3 → Vec3f K) (P : Vec2i)
    (h : inBox (bbox_of_triangle pts) P) : inFrame P := by
  have hb := bbox_bounds pts
  unfold inBox at h
  unfold inFrame
  omega

/-- Effect of one rasterizer run over the box of `bbox_of_triangle` on an in-frame
pixel. -/
theorem rasterize_bbox_obs (pts : Fin 3 → Vec3f K) (shade : Vec3f K → TGAColor)
    (st : Frame K) (Q : Vec2i) (hQ : inFrame Q) :
    obs (rasterize pts (bbox_of_triangle pts) shade st) Q
      = if covers pts Q ∧ (obs st Q).1 < ((depthAt pts Q : K) : WithBot K) then
          (((depthAt pts Q : K) : WithBot K), shade (barycentric pts Q))
        else obs st Q := by
  rw [rasterize_obs pts _ shade st Q (bbox_inFrame pts) hQ]
  unfold cellStep covers
  by_cases hb : inBox (bbox_of_triangle pts) Q
  · simp [hb]
  · simp [hb]

theorem draw_eq_rasterize (sqrt : K → K) (tex : Texture) (st : Frame K) (c : DrawCall K) :
    ∃ shade, draw sqrt tex st c = rasterize c.pts (bbox_of_triangle c.pts) shade st := by
  cases c with
  | flat pts color => exact ⟨_, triangle_flat_eq pts color st⟩
  | phongFlat pts norms worldPos light_dir eyePos albedo =>
    exact ⟨_, triangle_phong_flat_eq sqrt pts norms worldPos light_dir eyePos albedo st⟩
  | phongTex pts uvs norms worldPos light_dir eyePos =>
    exact ⟨_, triangle_phong_tex_eq sqrt tex pts uvs norms worldPos light_dir eyePos st⟩

/-- Depth cell of an in-frame pixel after one draw call. -/
theorem draw_zb (sqrt : K → K) (tex : Texture) (st : Frame K) (c : DrawCall K)
    (Q : Vec2i) (hQ : inFrame Q) :
    (draw sqrt tex st c).zb (Q.x + Q.y * width)
      = if covers c.pts Q then
          max (st.zb (Q.x + Q.y * width)) ((depthAt c.pts Q : K) : WithBot K)
        else st.zb (Q.x + Q.y * width) := by
  obtain ⟨shade, hshade⟩ := draw_eq_rasterize sqrt tex st c
  have h := congrArg Prod.fst (rasterize_bbox_obs c.pts shade st Q hQ)
  rw [← hshade] at h
  simp only [obs] at h
  rw [h]
  by_cases hc : covers c.pts Q
  · by_cases hlt : st.zb (Q.x + Q.y * width) < ((depthAt c.pts Q : K) : WithBot K)
    · simp [hc, hlt, max_eq_right (le_of_lt hlt)]
    · simp [hc, hlt, max_eq_left (not_lt.mp hlt)]
  · simp [hc]

theorem maximum_perm {α : Type} [LinearOrder α] {l₁ l₂ : List α} (h : l₁.Perm l₂) :
    l₁.maximum = l₂.maximum := by
  induction h with
  | nil => rfl
  | cons a _ ih => rw [List.maximum_cons, List.maximum_cons, ih]
  | swap a b l =>
    rw [List.maximum_cons, List.maximum_cons, List.maximum_cons, List.maximum_cons,
      max_left_comm]
  | trans _ _ ih1 ih2 => rw [ih1, ih2]

theorem render_zb (sqrt : K → K) (tex : Texture) (calls : List (DrawCall K))
    (st : Frame K) (Q : Vec2i) (hQ : inFrame Q) :
    (render sqrt tex calls st).zb (Q.x + Q.y * width)
      = max (st.zb (Q.x + Q.y * width)) (coveringDepths calls Q).maximum := by
  induction calls generalizing st with
  | nil => simp [render, coveringDepths]
  | cons c cs ih =>
    have hstep : render sqrt tex (c :: cs) st = render sqrt tex cs (draw sqrt tex st c) := rfl
    rw [hstep, ih, draw_zb sqrt tex st c Q hQ]
    by_cases hc : covers c.pts Q
    · have : coveringDepths (c :: cs) Q = depthAt c.pts Q :: coveringDepths cs Q := by
        simp [coveringDepths, List.filter_cons, hc]
      rw [this, List.maximum_cons, if_pos hc, max_assoc]
    · have : coveringDepths (c :: cs) Q = coveringDepths cs Q := by
        simp [coveringDepths, List.filter_cons, hc]
      rw [this, if_neg hc]

/-! ## C1: the depth buffer holds the maximum covering depth -/

/-- C1: starting from a depth buffer filled with negative infinity, after any list
of opaque draw calls the depth cell of every in-frame pixel `Q` is the maximum of the
interpolated depths of the calls covering `Q`; it is negative infinity when no call
covers `Q`; and the cell is the same for every reordering of the list. -/
theorem depth_buffer_is_max_covering_depth (sqrt : K → K) (tex : Texture)
    (calls : List (DrawCall K)) (img : Int → Int → TGAColor) (Q : Vec2i)
    (hQ : inFrame Q) :
    (render sqrt tex calls ⟨emptyZBuffer, img⟩).zb (Q.x + Q.y * width)
        = (coveringDepths calls Q).maximum ∧
    ((∀ c ∈ calls, ¬ covers c.pts Q) →
      (render sqrt tex calls ⟨emptyZBuffer, img⟩).zb (Q.x + Q.y * width) = ⊥) ∧
    (∀ calls', calls'.Perm calls →
      (render sqrt tex calls' ⟨emptyZBuffer, img⟩).zb (Q.x + Q.y * width)
        = (render sqrt tex calls ⟨emptyZBuffer, img⟩).zb (Q.x + Q.y * width)) := by
  have hmain : ∀ l : List (DrawCall K),
      (render sqrt tex l ⟨emptyZBuffer, img⟩).zb (Q.x + Q.y * width)
        = (coveringDepths l Q).maximum := by
    intro l
    rw [render_zb sqrt tex l _ Q hQ]
    simp [emptyZBuffer]
  refine ⟨hmain calls, ?_, ?_⟩
  · intro hnone
    rw [hmain calls]
    have : coveringDepths calls Q = [] := by
      unfold coveringDepths
      rw [List.map_eq_nil_iff, List.filter_eq_nil_iff]
      intro c hc
      simpa using hnone c hc
    rw [this, List.maximum_nil]
  · intro calls' hperm
    rw [hmain calls', hmain calls]
    apply maximum_perm
    unfold coveringDepths
    exact (hperm.filter _).map _

/-! ## C2: the strict depth test of `triangle_flat` -/

/-- C2: in one call of `triangle_flat`, for a pixel `P` covered by the triangle with
interpolated depth `z = depthAt pts P`: if the stored depth is strictly less than `z`
the cell becomes `z` and the pixel takes the triangle colour; if the stored depth is
greater than or equal to `z` both the cell and the pixel are unchanged. -/
theorem triangle_flat_strict_depth_test (pts : Fin 3 → Vec3f K) (color : TGAColor)
    (st : Frame K) (P : Vec2i) (hcov : covers pts P) :
    (st.zb (P.x + P.y * width) < ((depthAt pts P : K) : WithBot K) →
      (triangle_flat pts color st).zb (P.x + P.y * width)
          = ((depthAt pts P : K) : WithBot K) ∧
      (triangle_flat pts color st).image P.x P.y = color) ∧
    (((depthAt pts P : K) : WithBot K) ≤ st.zb (P.x + P.y * width) →
      (triangle_flat pts color st).zb (P.x + P.y * width) = st.zb (P.x + P.y * width) ∧
      (triangle_flat pts color st).image P.x P.y = st.image P.x P.y) := by
  have hP : inFrame P := bbox_inFrame pts P hcov.1
  have h := rasterize_bbox_obs pts (fun _ => color) st P hP
  rw [← triangle_flat_eq] at h
  constructor
  · intro hlt
    have hc : covers pts P ∧ (obs st P).1 < ((depthAt pts P : K) : WithBot K) := ⟨hcov, hlt⟩
    rw [if_pos hc] at h
    exact ⟨congrArg Prod.fst h, congrArg Prod.snd h⟩
  · intro hge
    have hc : ¬ (covers pts P ∧ (obs st P).1 < ((depthAt pts P : K) : WithBot K)) :=
      fun hh => absurd hh.2 (not_lt.mpr hge)
    rw [if_neg hc] at h
    exact ⟨congrArg Prod.fst h, congrArg Prod.snd h⟩

/-! ## C3, C4: barycentric weights -/

theorem barycentric_nondegenerate (pts : Fin 3 → Vec3f K) (P : Vec2i)
    (hnd : 1 / 100 ≤ |baryDenom pts|) :
    barycentric pts P =
      ⟨1 - (((P.x : K) - (pts 0).x) * ((pts 2).y - (pts 0).y)
              - ((pts 2).x - (pts 0).x) * ((P.y : K) - (pts 0).y)) / baryDenom pts
          - (((pts 1).x - (pts 0).x) * ((P.y : K) - (pts 0).y)
              - ((P.x : K) - (pts 0).x) * ((pts 1).y - (pts 0).y)) / baryDenom pts,
       (((P.x : K) - (pts 0).x) * ((pts 2).y - (pts 0).y)
              - ((pts 2).x - (pts 0).x) * ((P.y : K) - (pts 0).y)) / baryDenom pts,
       (((pts 1).x - (pts 0).x) * ((P.y : K) - (pts 0).y)
              - ((P.x : K) - (pts 0).x) * ((pts 1).y - (pts 0).y)) / baryDenom pts⟩ := by
  have h : ¬ |baryDenom pts| < 1 / 100 := not_lt.mpr hnd
  unfold baryDenom at h
  simp only [barycentric, baryDenom, h, if_false]

theorem barycentric_degenerate (pts : Fin 3 → Vec3f K) (P : Vec2i)
    (hdeg : |baryDenom pts| < 1 / 100) : barycentric pts P = ⟨-1, 1, 1⟩ := by
  unfold baryDenom at hdeg
  simp only [barycentric, hdeg, if_true]

theorem baryDenom_ne_zero (pts : Fin 3 → Vec3f K) (hnd : 1 / 100 ≤ |baryDenom pts|) :
    baryDenom pts ≠ 0 := by
  intro h0
  rw [h0, abs_zero] at hnd
  norm_num at hnd

theorem accepted_nondegenerate (pts : Fin 3 → Vec3f K) (P : Vec2i) (hacc : accepted pts P) :
    1 / 100 ≤ |baryDenom pts| := by
  by_contra hlt
  rw [not_le] at hlt
  unfold accepted at hacc
  rw [barycentric_degenerate pts P hlt] at hacc
  apply hacc
  left
  norm_num

theorem accepted_weights_sum_to_one_aux (pts : Fin 3 → Vec3f K) (P : Vec2i)
    (hnd : 1 / 100 ≤ |baryDenom pts|) (hacc : accepted pts P) :
    (barycentric pts P).x + (barycentric pts P).y + (barycentric pts P).z = 1 ∧
    0 ≤ (barycentric pts P).x ∧ 0 ≤ (barycentric pts P).y ∧ 0 ≤ (barycentric pts P).z := by
  unfold accepted at hacc
  rw [not_or, not_or, not_lt, not_lt, not_lt] at hacc
  refine ⟨?_, hacc.1, hacc.2.1, hacc.2.2⟩
  rw [barycentric_nondegenerate pts P hnd]
  ring

theorem barycentric_reconstructs_point_aux (pts : Fin 3 → Vec3f K) (P : Vec2i)
    (hnd : 1 / 100 ≤ |baryDenom pts|) :
    (barycentric pts P).x * (pts 0).x + (barycentric pts P).y * (pts 1).x
        + (barycentric pts P).z * (pts 2).x = (P.x : K) ∧
    (barycentric pts P).x * (pts 0).y + (barycentric pts P).y * (pts 1).y
        + (barycentric pts P).z * (pts 2).y = (P.y : K) := by
  have hne := baryDenom_ne_zero pts hnd
  rw [barycentric_nondegenerate pts P hnd]
  constructor
  · simp only
    field_simp
    unfold baryDenom
    ring
  · simp only
    field_simp
    unfold baryDenom
    ring

/-- C3: for a non-degenerate triangle and a pixel that passes the inside test, the
three weights returned by `barycentric` sum to 1 and each of them is non-negative. -/
theorem accepted_weights_sum_to_one (pts : Fin 3 → Vec3f K) (P : Vec2i)
    (hnd : 1 / 100 ≤ |baryDenom pts|) (hacc : accepted pts P) :
    (barycentric pts P).x + (barycentric pts P).y + (barycentric pts P).z = 1 ∧
    0 ≤ (barycentric pts P).x ∧ 0 ≤ (barycentric pts P).y ∧ 0 ≤ (barycentric pts P).z := by
  have hsum : (barycentric pts P).x + (barycentric pts P).y + (barycentric pts P).z = 1 := by
    rw [barycentric_nondegenerate pts P hnd]
    ring
  have hw : 0 ≤ (barycentric pts P).x := by
    by_contra hneg
    exact hacc (Or.inl (not_le.mp hneg))
  have hu : 0 ≤ (barycentric pts P).y := by
    by_contra hneg
    exact hacc (Or.inr (Or.inl (not_le.mp hneg)))
  have hv : 0 ≤ (barycentric pts P).z := by
    by_contra hneg
    exact hacc (Or.inr (Or.inr (not_le.mp hneg)))
  exact ⟨hsum, hw, hu, hv⟩

/-- C4: for a non-degenerate triangle (either winding) and any integer point `P`, the
weights `(w, u, v)` returned by `barycentric` express `P` as the combination
`w*pts[0] + u*pts[1] + v*pts[2]` of the vertices, in both x and y. -/
theorem barycentric_reconstructs_point (pts : Fin 3 → Vec3f K) (P : Vec2i)
    (hnd : 1 / 100 ≤ |baryDenom pts|) :
    (barycentric pts P).x * (pts 0).x + (barycentric pts P).y * (pts 1).x
        + (barycentric pts P).z * (pts 2).x = (P.x : K) ∧
    (barycentric pts P).x * (pts 0).y + (barycentric pts P).y * (pts 1).y
        + (barycentric pts P).z * (pts 2).y = (P.y : K) := by
  have hne : baryDenom pts ≠ 0 := baryDenom_ne_zero pts hnd
  have hd : (pts 1).x * (pts 2).y - (pts 1).x * (pts 0).y - (pts 0).x * (pts 2).y
      - ((pts 2).x * (pts 1).y - (pts 2).x * (pts 0).y - (pts 0).x * (pts 1).y)
      = baryDenom pts := by
    unfold baryDenom
    ring
  rw [barycentric_nondegenerate pts P hnd]
  constructor
  · show (1 - _ / baryDenom pts - _ / baryDenom pts) * (pts 0).x
        + _ / baryDenom pts * (pts 1).x + _ / baryDenom pts * (pts 2).x = (P.x : K)
    rw [div_mul_eq_mul_div, div_mul_eq_mul_div, sub_mul, sub_mul, div_mul_eq_mul_div,
      div_mul_eq_mul_div, one_mul]
    field_simp
    rw [← hd]
    ring
  · show (1 - _ / baryDenom pts - _ / baryDenom pts) * (pts 0).y
        + _ / baryDenom pts * (pts 1).y + _ / baryDenom pts * (pts 2).y = (P.y : K)
    rw [div_mul_eq_mul_div, div_mul_eq_mul_div, sub_mul, sub_mul, div_mul_eq_mul_div,
      div_mul_eq_mul_div, one_mul]
    field_simp
    rw [← hd]
    ring

/-! ## C5: degenerate triangles are skipped -/

theorem rasterize_not_accepted (pts : Fin 3 → Vec3f K) (bb : Vec2i × Vec2i)
    (shade : Vec3f K → TGAColor) (st : Frame K)
    (h : ∀ P, inBox bb P → ¬ accepted pts P) : rasterize pts bb shade st = st := by
  unfold rasterize
  apply foldl_obs_none _ (fun s => s)
  intro s px hpx
  apply foldl_obs_none _ (fun s => s)
  intro s py hpy
  rw [mem_intRange] at hpx hpy
  have hna := h ⟨px, py⟩ ⟨hpx.1, hpx.2, hpy.1, hpy.2⟩
  unfold accepted at hna
  rw [not_not] at hna
  simp only [pixelStep, hna, if_true]

/-- C5: for a triangle whose 2D denominator has absolute value below 1e-2,
`barycentric` returns the sentinel `(-1, 1, 1)` for every pixel, and each of
`triangle_flat`, `triangle_phong_flat` and `triangle_phong_tex` returns the depth buffer
and the image unchanged. -/
theorem degenerate_triangle_changes_nothing (sqrt : K → K) (tex : Texture)
    (pts : Fin 3 → Vec3f K) (hdeg : |baryDenom pts| < 1 / 100) :
    (∀ P : Vec2i, barycentric pts P = ⟨-1, 1, 1⟩) ∧
    (∀ (color : TGAColor) (st : Frame K), triangle_flat pts color st = st) ∧
    (∀ (norms worldPos : Fin 3 → Vec3f K) (light_dir eyePos : Vec3f K) (albedo : TGAColor)
        (st : Frame K),
        triangle_phong_flat sqrt pts norms worldPos light_dir eyePos albedo st = st) ∧
    (∀ (uvs : Fin 3 → Vec2f K) (norms worldPos : Fin 3 → Vec3f K)
        (light_dir eyePos : Vec3f K) (st : Frame K),
        triangle_phong_tex sqrt tex pts uvs norms worldPos light_dir eyePos st = st) := by
  have hna : ∀ P, inBox (bbox_of_triangle pts) P → ¬ accepted pts P := by
    intro P _ hacc
    exact absurd (accepted_nondegenerate pts P hacc) (not_le.mpr hdeg)
  refine ⟨fun P => barycentric_degenerate pts P hdeg, ?_, ?_, ?_⟩
  · intro color st
    rw [triangle_flat_eq]
    exact rasterize_not_accepted pts _ _ st hna
  · intro norms worldPos light_dir eyePos albedo st
    rw [triangle_phong_flat_eq]
    exact rasterize_not_accepted pts _ _ st hna
  · intro uvs norms worldPos light_dir eyePos st
    rw [triangle_phong_tex_eq]
    exact rasterize_not_accepted pts _ _ st hna

/-! ## C6, C7: the bounding box -/

theorem lt_of_lt_truncToInt (n : Int) (x : K) (hn : 0 ≤ n) (h : n < truncToInt x) :
    (n : K) < x := by
  unfold truncToInt at h
  split_ifs at h with hx
  · have h1 : n + 1 ≤ ⌊x⌋ := h
    have h2 : ((n + 1 : Int) : K) ≤ x := Int.le_floor.mp h1
    push_cast at h2
    linarith
  · rw [not_le] at hx
    have h3 : ⌈x⌉ ≤ 0 := Int.ceil_le.mpr (by simpa using le_of_lt hx)
    omega

theorem lt_of_truncToInt_lt (n : Int) (x : K) (hn : 0 ≤ n) (h : truncToInt x < n) :
    x < (n : K) := by
  unfold truncToInt at h
  split_ifs at h with hx
  · exact Int.floor_lt.mp h
  · rw [not_le] at hx
    have : (0 : K) ≤ (n : K) := by exact_mod_cast hn
    linarith

/-- Within the range of `int` the conversion `(int)x` is truncation toward zero. -/
theorem castInt_of_fitsInt (x : K) (h : fitsInt x) : castInt x = truncToInt x := by
  unfold castInt
  exact if_pos h

/-- The conversion `(int)x` always yields a value of the type `int`. -/
theorem castInt_range (x : K) : intMin ≤ castInt x ∧ castInt x ≤ intMax := by
  unfold castInt
  split_ifs with h
  · exact h
  · unfold intMin intMax
    omega

/-- Beyond the range of `int` the conversion `(int)x` yields `INT_MIN`. -/
theorem castInt_of_not_fitsInt (x : K) (h : ¬ fitsInt x) : castInt x = intMin := by
  unfold castInt
  exact if_neg h

theorem convex_not_all_above (w u v a b c p : K) (hw : 0 ≤ w) (hu : 0 ≤ u) (hv : 0 ≤ v)
    (hsum : w + u + v = 1) (hp : w * a + u * b + v * c = p)
    (ha : p < a) (hb : p < b) (hc : p < c) : False := by
  have e1 : 0 ≤ w * (a - p) := mul_nonneg hw (by linarith)
  have e2 : 0 ≤ u * (b - p) := mul_nonneg hu (by linarith)
  have e3 : 0 ≤ v * (c - p) := mul_nonneg hv (by linarith)
  have hz : w * (a - p) + u * (b - p) + v * (c - p) = 0 := by
    have : w * (a - p) + u * (b - p) + v * (c - p)
        = (w * a + u * b + v * c) - (w + u + v) * p := by ring
    rw [this, hp, hsum]
    ring
  have z1 : w * (a - p) = 0 := by linarith
  have z2 : u * (b - p) = 0 := by linarith
  have z3 : v * (c - p) = 0 := by linarith
  have w0 : w = 0 := by
    rcases mul_eq_zero.mp z1 with h | h
    · exact h
    · linarith
  have u0 : u = 0 := by
    rcases mul_eq_zero.mp z2 with h | h
    · exact h
    · linarith
  have v0 : v = 0 := by
    rcases mul_eq_zero.mp z3 with h | h
    · exact h
    · linarith
  rw [w0, u0, v0] at hsum
  norm_num at hsum

theorem convex_not_all_below (w u v a b c p : K) (hw : 0 ≤ w) (hu : 0 ≤ u) (hv : 0 ≤ v)
    (hsum : w + u + v = 1) (hp : w * a + u * b + v * c = p)
    (ha : a < p) (hb : b < p) (hc : c < p) : False := by
  apply convex_not_all_above w u v (-a) (-b) (-c) (-p) hw hu hv hsum
  · rw [← hp]
    ring
  · linarith
  · linarith
  · linarith

/-- An accepted pixel with non-negative coordinates lies within the truncated extent of
the triangle. -/
theorem accepted_within_extent (pts : Fin 3 → Vec3f K) (P : Vec2i) (hacc : accepted pts P)
    (hx : 0 ≤ P.x) (hy : 0 ≤ P.y) :
    extentMinX pts ≤ P.x ∧ P.x ≤ extentMaxX pts ∧
    extentMinY pts ≤ P.y ∧ P.y ≤ extentMaxY pts := by
  have hnd := accepted_nondegenerate pts P hacc
  obtain ⟨hsum, hw, hu, hv⟩ := accepted_weights_sum_to_one_aux pts P hnd hacc
  obtain ⟨hpx, hpy⟩ := barycentric_reconstructs_point_aux pts P hnd
  refine ⟨?_, ?_, ?_, ?_⟩
  · by_contra hcon
    rw [not_le] at hcon
    unfold extentMinX at hcon
    rw [lt_min_iff, lt_min_iff] at hcon
    exact convex_not_all_above _ _ _ _ _ _ _ hw hu hv hsum hpx
      (lt_of_lt_truncToInt _ _ hx hcon.1) (lt_of_lt_truncToInt _ _ hx hcon.2.1)
      (lt_of_lt_truncToInt _ _ hx hcon.2.2)
  · by_contra hcon
    rw [not_le] at hcon
    unfold extentMaxX at hcon
    rw [max_lt_iff, max_lt_iff] at hcon
    exact convex_not_all_below _ _ _ _ _ _ _ hw hu hv hsum hpx
      (lt_of_truncToInt_lt _ _ hx hcon.1) (lt_of_truncToInt_lt _ _ hx hcon.2.1)
      (lt_of_truncToInt_lt _ _ hx hcon.2.2)
  · by_contra hcon
    rw [not_le] at hcon
    unfold extentMinY at hcon
    rw [lt_min_iff, lt_min_iff] at hcon
    exact convex_not_all_above _ _ _ _ _ _ _ hw hu hv hsum hpy
      (lt_of_lt_truncToInt _ _ hy hcon.1) (lt_of_lt_truncToInt _ _ hy hcon.2.1)
      (lt_of_lt_truncToInt _ _ hy hcon.2.2)
  · by_contra hcon
    rw [not_le] at hcon
    unfold extentMaxY at hcon
    rw [max_lt_iff, max_lt_iff] at hcon
    exact convex_not_all_below _ _ _ _ _ _ _ hw hu hv hsum hpy
      (lt_of_truncToInt_lt _ _ hy hcon.1) (lt_of_truncToInt_lt _ _ hy hcon.2.1)
      (lt_of_truncToInt_lt _ _ hy hcon.2.2)

/-- Closed form of the box computed by `bbox_of_triangle` when the truncated vertex
coordinates fit `int`: each bound is the corresponding truncated extent clamped into the
frame. -/
theorem bbox_closed_form (pts : Fin 3 → Vec3f K) (hfit : coordsFitInt pts) :
    bbox_of_triangle pts =
      (⟨max 0 (min (width - 1) (extentMinX pts)), max 0 (min (height - 1) (extentMinY pts))⟩,
       ⟨min (width - 1) (max 0 (extentMaxX pts)),
        min (height - 1) (max 0 (extentMaxY pts))⟩) := by
  have e0x := castInt_of_fitsInt _ (hfit 0).1
  have e0y := castInt_of_fitsInt _ (hfit 0).2
  have e1x := castInt_of_fitsInt _ (hfit 1).1
  have e1y := castInt_of_fitsInt _ (hfit 1).2
  have e2x := castInt_of_fitsInt _ (hfit 2).1
  have e2y := castInt_of_fitsInt _ (hfit 2).2
  simp only [bbox_of_triangle, List.foldl, bboxStep, e0x, e0y, e1x, e1y, e2x, e2y,
    extentMinX, extentMinY, extentMaxX, extentMaxY, width, height, Prod.mk.injEq,
    Vec2i.mk.injEq]
  refine ⟨⟨?_, ?_⟩, ⟨?_, ?_⟩⟩ <;> omega

theorem exTri_covers : covers exTri ⟨1, 1⟩ := by
  refine ⟨by decide, ?_⟩
  norm_num [accepted, barycentric, exTri]

theorem exTri_depthAt : depthAt exTri ⟨1, 1⟩ = 1 := by
  norm_num [depthAt, barycentric, exTri]

theorem exTri_nondegenerate : (1 : ℚ) / 100 ≤ |baryDenom exTri| := by
  norm_num [baryDenom, exTri]

theorem degTri_degenerate : |baryDenom degTri| < (1 : ℚ) / 100 := by
  norm_num [baryDenom, degTri]

/-- Instance of C1: after drawing `exTri` and the degenerate `degTri` onto an empty
depth buffer, the cell of pixel (1,1) holds depth 1. -/
theorem depth_buffer_is_max_covering_depth_witness :
    inFrame ⟨1, 1⟩ ∧
    (render (fun x => x) ⟨1, 1, fun _ _ => red⟩
        [DrawCall.flat exTri red, DrawCall.flat degTri red] exFrame).zb (1 + 1 * width)
      = (([1] : List ℚ)).maximum := by
  have h := (depth_buffer_is_max_covering_depth (fun x => x) ⟨1, 1, fun _ _ => red⟩
    [DrawCall.flat exTri red, DrawCall.flat degTri red] (fun _ _ => ⟨0, 0, 0, 255⟩)
    ⟨1, 1⟩ (by decide)).1
  have hdeg : ¬ covers degTri ⟨1, 1⟩ := fun hc =>
    absurd (accepted_nondegenerate degTri ⟨1, 1⟩ hc.2) (not_le.mpr degTri_degenerate)
  have hl : coveringDepths [DrawCall.flat exTri red, DrawCall.flat degTri red] ⟨1, 1⟩
      = [1] := by
    simp [coveringDepths, List.filter_cons, DrawCall.pts, exTri_covers, hdeg, exTri_depthAt]
  rw [hl] at h
  exact ⟨by decide, h⟩

/-- Instance of C2: drawing `exTri` in red onto the empty buffers stores depth 1 at
pixel (1,1) and colours it red. -/
theorem triangle_flat_strict_depth_test_witness :
    covers exTri ⟨1, 1⟩ ∧
    (triangle_flat exTri red exFrame).zb (1 + 1 * width) = ((1 : ℚ) : WithBot ℚ) ∧
    (triangle_flat exTri red exFrame).image 1 1 = red := by
  have h := (triangle_flat_strict_depth_test exTri red exFrame ⟨1, 1⟩ exTri_covers).1
    (by simp [exFrame, emptyZBuffer])
  rw [exTri_depthAt] at h
  exact ⟨exTri_covers, h⟩

/-- Instance of C3 at `exTri` and pixel (1,1). -/
theorem accepted_weights_sum_to_one_witness :
    (1 : ℚ) / 100 ≤ |baryDenom exTri| ∧ accepted exTri ⟨1, 1⟩ ∧
    (barycentric exTri ⟨1, 1⟩).x + (barycentric exTri ⟨1, 1⟩).y
      + (barycentric exTri ⟨1, 1⟩).z = 1 :=
  ⟨exTri_nondegenerate, exTri_covers.2,
    (accepted_weights_sum_to_one exTri ⟨1, 1⟩ exTri_nondegenerate exTri_covers.2).1⟩

/-- Instance of C4 at `exTri` and the point (3,4). -/
theorem barycentric_reconstructs_point_witness :
    (1 : ℚ) / 100 ≤ |baryDenom exTri| ∧
    (barycentric exTri ⟨3, 4⟩).x * (exTri 0).x + (barycentric exTri ⟨3, 4⟩).y * (exTri 1).x
        + (barycentric exTri ⟨3, 4⟩).z * (exTri 2).x = 3 :=
  ⟨exTri_nondegenerate, by
    simpa using (barycentric_reconstructs_point exTri ⟨3, 4⟩ exTri_nondegenerate).1⟩

/-- Instance of C5 at the collinear triangle `degTri`. -/
theorem degenerate_triangle_changes_nothing_witness :
    |baryDenom degTri| < (1 : ℚ) / 100 ∧ triangle_flat degTri red exFrame = exFrame :=
  ⟨degTri_degenerate,
    (degenerate_triangle_changes_nothing (fun x => x) ⟨1, 1, fun _ _ => red⟩ degTri
      degTri_degenerate).2.1 red exFrame⟩

theorem clamp01_bounds (y : K) : 0 ≤ clamp01 y ∧ clamp01 y ≤ 1 := by
  unfold clamp01
  exact ⟨le_max_left _ _, max_le zero_le_one (min_le_left _ _)⟩

theorem toUChar_of_unit (c : K) (h0 : 0 ≤ c) (h1 : c ≤ 1) :
    ((toUChar (c * 255) : Nat) : Int) = truncToInt (255 * c) ∧ toUChar (c * 255) ≤ 255 := by
  have hx0 : (0 : K) ≤ c * 255 := by positivity
  have hx1 : c * 255 ≤ 255 := by linarith
  have ht : truncToInt (c * 255) = ⌊c * 255⌋ := by
    unfold truncToInt
    rw [if_pos hx0]
  have hf0 : 0 ≤ ⌊c * 255⌋ := Int.floor_nonneg.mpr hx0
  have hf1 : ⌊c * 255⌋ ≤ 255 := by
    have : ⌊c * 255⌋ ≤ ⌊(255 : K)⌋ := Int.floor_le_floor hx1
    have h255 : ⌊(255 : K)⌋ = 255 := by
      exact_mod_cast Int.floor_intCast (α := K) 255
    omega
  have hcomm : (255 : K) * c = c * 255 := mul_comm _ _
  unfold toUChar
  rw [hcomm, ht]
  constructor
  · omega
  · omega

/-- One colour channel of `phongColor`, before it is stored, against the channel
formula of the specification. -/
theorem phongColor_channel_key (sqrt : K → K) (N fragPos L eyePos : Vec3f K) (c : Nat) :
    ((toUChar (clamp01 ((c : K) / 255 * (ambientStrength + diffuseStrength *
        phongDiffuse sqrt N L) + specularStrength * phongSpecular sqrt N fragPos L eyePos)
        * 255) : Nat) : Int) = phongChannelSpec sqrt N fragPos L eyePos c ∧
    toUChar (clamp01 ((c : K) / 255 * (ambientStrength + diffuseStrength *
        phongDiffuse sqrt N L) + specularStrength * phongSpecular sqrt N fragPos L eyePos)
        * 255) ≤ 255 := by
  have hb := clamp01_bounds ((c : K) / 255 * (ambientStrength + diffuseStrength *
        phongDiffuse sqrt N L) + specularStrength * phongSpecular sqrt N fragPos L eyePos)
  have h := toUChar_of_unit _ hb.1 hb.2
  refine ⟨?_, h.2⟩
  rw [h.1]
  unfold phongChannelSpec ambientStrength diffuseStrength specularStrength
  norm_num

theorem phongColor_unfold (sqrt : K → K) (N fragPos L eyePos : Vec3f K)
    (albedo : TGAColor) :
    phongColor sqrt N fragPos L eyePos albedo =
      ⟨toUChar (clamp01 ((albedo.r : K) / 255 * (ambientStrength + diffuseStrength *
          phongDiffuse sqrt N L) + specularStrength * phongSpecular sqrt N fragPos L eyePos)
          * 255),
       toUChar (clamp01 ((albedo.g : K) / 255 * (ambientStrength + diffuseStrength *
          phongDiffuse sqrt N L) + specularStrength * phongSpecular sqrt N fragPos L eyePos)
          * 255),
       toUChar (clamp01 ((albedo.b : K) / 255 * (ambientStrength + diffuseStrength *
          phongDiffuse sqrt N L) + specularStrength * phongSpecular sqrt N fragPos L eyePos)
          * 255),
       albedo.a⟩ := rfl

/-- C8: for every normal, light direction, eye position, fragment position and
albedo, each colour channel returned by `phongColor` is
`trunc(255 * clamp01(albedo_c/255 * (0.30 + 0.70*diffuse) + 0.20*specular))` with
`diffuse = max(0, N.L)` and `specular = max(0, R.V)^64` on the normalized vectors; each
channel is at most 255; the alpha channel is the albedo's. -/
theorem phongColor_channels (sqrt : K → K) (N fragPos L eyePos : Vec3f K)
    (albedo : TGAColor) :
    (((phongColor sqrt N fragPos L eyePos albedo).r : Nat) : Int)
        = phongChannelSpec sqrt N fragPos L eyePos albedo.r ∧
    (((phongColor sqrt N fragPos L eyePos albedo).g : Nat) : Int)
        = phongChannelSpec sqrt N fragPos L eyePos albedo.g ∧
    (((phongColor sqrt N fragPos L eyePos albedo).b : Nat) : Int)
        = phongChannelSpec sqrt N fragPos L eyePos albedo.b ∧
    (phongColor sqrt N fragPos L eyePos albedo).r ≤ 255 ∧
    (phongColor sqrt N fragPos L eyePos albedo).g ≤ 255 ∧
    (phongColor sqrt N fragPos L eyePos albedo).b ≤ 255 ∧
    (phongColor sqrt N fragPos L eyePos albedo).a = albedo.a := by
  rw [phongColor_unfold]
  have hr := phongColor_channel_key sqrt N fragPos L eyePos albedo.r
  have hg := phongColor_channel_key sqrt N fragPos L eyePos albedo.g
  have hb := phongColor_channel_key sqrt N fragPos L eyePos albedo.b
  exact ⟨hr.1, hg.1, hb.1, hr.2, hg.2, hb.2, rfl⟩

/-! ## C9: the unit-triangle scenario -/

theorem unitTriangle_vnorms (sqrt : K → K) (h1 : sqrt 1 = 1) :
    ((unitTriangleMesh : Model K).compute_vertex_normals sqrt).vnorms_
      = [⟨0, 0, -1⟩, ⟨0, 0, -1⟩, ⟨0, 0, -1⟩] := by
  simp [Model.compute_vertex_normals, unitTriangleMesh, accumulateNormals, accumulateFace,
    addFaceNormal, vecGet, vecSet, Vec3f.sub, Vec3f.cross, Vec3f.add, finishNormal,
    Vec3f.norm, Vec3f.smul, List.range', h1]
  intro h
  norm_num at h

theorem unitTriangle_normals (sqrt : K → K) (h1 : sqrt 1 = 1) (i : Fin 3) :
    unitTriangleNormals sqrt i = ⟨0, 0, -1⟩ := by
  unfold unitTriangleNormals Model.normal
  rw [unitTriangle_vnorms sqrt h1]
  fin_cases i <;> simp

theorem centroidNormal_eq (sqrt : K → K) (h1 : sqrt 1 = 1) :
    centroidNormal sqrt = ⟨0, 0, -1⟩ := by
  unfold centroidNormal
  rw [unitTriangle_normals sqrt h1, unitTriangle_normals sqrt h1, unitTriangle_normals sqrt h1]
  simp only [centroidWeights, Vec3f.smul, Vec3f.add, Vec3f.normalize, Vec3f.norm]
  norm_num [h1]

theorem centroidPos_eq : (centroidPos : Vec3f K) = ⟨1 / 3, 1 / 3, 0⟩ := by
  simp [centroidPos, unitTriangleWorld, centroidWeights, Vec3f.smul, Vec3f.add]

theorem light_dir_normalized (sqrt : K → K) (h1 : sqrt 1 = 1) :
    (light_dir : Vec3f K).normalize sqrt = ⟨0, 0, -1⟩ := by
  simp [light_dir, Vec3f.normalize, Vec3f.norm, Vec3f.smul, h1]

theorem scenario_diffuse (sqrt : K → K) (h1 : sqrt 1 = 1) :
    phongDiffuse sqrt (centroidNormal sqrt) ((light_dir : Vec3f K).normalize sqrt) = 1 := by
  rw [centroidNormal_eq sqrt h1, light_dir_normalized sqrt h1]
  simp [phongDiffuse, Vec3f.normalize, Vec3f.norm, Vec3f.smul, Vec3f.dot, h1]

theorem scenario_specular (sqrt : K → K) (h1 : sqrt 1 = 1) (hnn : ∀ x, 0 ≤ sqrt x) :
    phongSpecular sqrt (centroidNormal sqrt) centroidPos
      ((light_dir : Vec3f K).normalize sqrt) camera = 0 := by
  rw [centroidNormal_eq sqrt h1, light_dir_normalized sqrt h1, centroidPos_eq]
  have hR : phongReflect sqrt (⟨0, 0, -1⟩ : Vec3f K) ⟨0, 0, -1⟩ = ⟨0, 0, -1⟩ := by
    simp only [phongReflect, Vec3f.normalize, Vec3f.norm, Vec3f.smul, Vec3f.dot, Vec3f.sub]
    norm_num [h1]
  unfold phongSpecular
  rw [hR]
  simp only [camera, Vec3f.normalize, Vec3f.norm, Vec3f.smul, Vec3f.dot, Vec3f.sub]
  have hs := hnn ((1 - 1 / 3) * (1 - 1 / 3) + (0 - 1 / 3) * (0 - 1 / 3) + (4 - 0) * (4 - 0))
  have hinv : 0 ≤ 1 / sqrt ((1 - 1 / 3) * (1 - 1 / 3) + (0 - 1 / 3) * (0 - 1 / 3)
      + (4 - 0) * (4 - 0)) := by positivity
  have hle : (0 : K) * ((1 - 1 / 3) * (1 / sqrt ((1 - 1 / 3) * (1 - 1 / 3)
      + (0 - 1 / 3) * (0 - 1 / 3) + (4 - 0) * (4 - 0))))
      + 0 * ((0 - 1 / 3) * (1 / sqrt ((1 - 1 / 3) * (1 - 1 / 3)
      + (0 - 1 / 3) * (0 - 1 / 3) + (4 - 0) * (4 - 0))))
      + -1 * ((4 - 0) * (1 / sqrt ((1 - 1 / 3) * (1 - 1 / 3)
      + (0 - 1 / 3) * (0 - 1 / 3) + (4 - 0) * (4 - 0)))) ≤ 0 := by
    nlinarith
  rw [max_eq_left hle]
  norm_num

theorem truncToInt_natCast (c : Nat) : truncToInt ((c : K)) = (c : Int) := by
  unfold truncToInt
  rw [if_pos (Nat.cast_nonneg c)]
  exact Int.floor_natCast c

theorem scenario_channel (sqrt : K → K) (h1 : sqrt 1 = 1) (hnn : ∀ x, 0 ≤ sqrt x)
    (c : Nat) (hc : c ≤ 255) :
    phongChannelSpec sqrt (centroidNormal sqrt) centroidPos
      ((light_dir : Vec3f K).normalize sqrt) camera c = (c : Int) := by
  unfold phongChannelSpec
  rw [scenario_diffuse sqrt h1, scenario_specular sqrt h1 hnn]
  have hc0 : (0 : K) ≤ (c : K) / 255 := by positivity
  have hc1 : (c : K) / 255 ≤ 1 := by
    rw [div_le_one (by norm_num)]
    exact_mod_cast hc
  have harg : (c : K) / 255 * (3 / 10 + 7 / 10 * 1) + 2 / 10 * 0 = (c : K) / 255 := by ring
  rw [harg]
  unfold clamp01
  rw [min_eq_right hc1, max_eq_right hc0]
  have : (255 : K) * ((c : K) / 255) = (c : K) := by field_simp
  rw [this, truncToInt_natCast]

/-- C9: for the single triangle (0,0,0), (1,0,0), (0,1,0) with the vertex normals of
`compute_vertex_normals`, light direction (0,0,-1) and the eye at (1,0,4), the three
vertex normals are (0,0,-1); at the centroid the diffuse term is 1 and the specular
term is 0; the colour written by `triangle_phong_flat` there is the albedo itself for
every albedo with channels at most 255, (180,180,180,255) for the default gray, and no
channel exceeds 255. -/
theorem unit_triangle_centroid_color (sqrt : K → K) (h1 : sqrt 1 = 1)
    (hnn : ∀ x, 0 ≤ sqrt x) :
    ((unitTriangleMesh : Model K).compute_vertex_normals sqrt).vnorms_
        = [⟨0, 0, -1⟩, ⟨0, 0, -1⟩, ⟨0, 0, -1⟩] ∧
    phongDiffuse sqrt (centroidNormal sqrt) ((light_dir : Vec3f K).normalize sqrt) = 1 ∧
    phongSpecular sqrt (centroidNormal sqrt) centroidPos
        ((light_dir : Vec3f K).normalize sqrt) camera = 0 ∧
    (∀ albedo : TGAColor, albedo.r ≤ 255 → albedo.g ≤ 255 → albedo.b ≤ 255 →
      phongShade sqrt (unitTriangleNormals sqrt) unitTriangleWorld
        ((light_dir : Vec3f K).normalize sqrt) camera albedo centroidWeights = albedo) ∧
    phongShade sqrt (unitTriangleNormals sqrt) unitTriangleWorld
        ((light_dir : Vec3f K).normalize sqrt) camera defaultGray centroidWeights
      = ⟨180, 180, 180, 255⟩ := by
  have hall : ∀ albedo : TGAColor, albedo.r ≤ 255 → albedo.g ≤ 255 → albedo.b ≤ 255 →
      phongShade sqrt (unitTriangleNormals sqrt) unitTriangleWorld
        ((light_dir : Vec3f K).normalize sqrt) camera albedo centroidWeights = albedo := by
    intro albedo hr hg hb
    have hshade : phongShade sqrt (unitTriangleNormals sqrt) unitTriangleWorld
        ((light_dir : Vec3f K).normalize sqrt) camera albedo centroidWeights
        = phongColor sqrt (centroidNormal sqrt) centroidPos
            ((light_dir : Vec3f K).normalize sqrt) camera albedo := rfl
    rw [hshade, phongColor_unfold]
    have kr := (phongColor_channel_key sqrt (centroidNormal sqrt) centroidPos
      ((light_dir : Vec3f K).normalize sqrt) camera albedo.r).1
    have kg := (phongColor_channel_key sqrt (centroidNormal sqrt) centroidPos
      ((light_dir : Vec3f K).normalize sqrt) camera albedo.g).1
    have kb := (phongColor_channel_key sqrt (centroidNormal sqrt) centroidPos
      ((light_dir : Vec3f K).normalize sqrt) camera albedo.b).1
    rw [scenario_channel sqrt h1 hnn _ hr] at kr
    rw [scenario_channel sqrt h1 hnn _ hg] at kg
    rw [scenario_channel sqrt h1 hnn _ hb] at kb
    cases albedo with
    | mk r g b a =>
      simp only [TGAColor.mk.injEq]
      exact ⟨Int.ofNat.inj kr, Int.ofNat.inj kg, Int.ofNat.inj kb, trivial⟩
  exact ⟨unitTriangle_vnorms sqrt h1, scenario_diffuse sqrt h1,
    scenario_specular sqrt h1 hnn, hall,
    hall defaultGray (by decide) (by decide) (by decide)⟩

/-- Instance of C9 over the real numbers with the real square root. -/
theorem unit_triangle_centroid_color_witness :
    Real.sqrt 1 = 1 ∧ (∀ x, 0 ≤ Real.sqrt x) ∧
    phongShade Real.sqrt (unitTriangleNormals Real.sqrt) unitTriangleWorld
        ((light_dir : Vec3f ℝ).normalize Real.sqrt) camera defaultGray centroidWeights
      = ⟨180, 180, 180, 255⟩ :=
  ⟨Real.sqrt_one, Real.sqrt_nonneg,
    (unit_triangle_centroid_color Real.sqrt Real.sqrt_one Real.sqrt_nonneg).2.2.2.2⟩

/-! ## C10: vertex normals -/

theorem foldl_invariant {S A : Type} (P : S → Prop) (f : S → A → S) (l : List A) (s : S)
    (h0 : P s) (hstep : ∀ s a, a ∈ l → P s → P (f s a)) : P (l.foldl f s) := by
  induction l generalizing s with
  | nil => exact h0
  | cons a l ih =>
    rw [List.foldl_cons]
    exact ih _ (hstep s a (List.mem_cons_self _ _) h0)
      (fun s b hb => hstep s b (List.mem_cons_of_mem _ hb))

theorem vecSet_length (v : List (Vec3f K)) (i : Int) (a : Vec3f K) :
    (vecSet v i a).length = v.length := by
  unfold vecSet
  split_ifs <;> simp

theorem vecSet_getElem?_ne (v : List (Vec3f K)) (i : Int) (j : Nat) (a : Vec3f K)
    (h : i ≠ (j : Int)) : (vecSet v i a)[j]? = v[j]? := by
  unfold vecSet
  split_ifs with h0
  · apply List.getElem?_set_ne
    omega
  · rfl

theorem getD_mem_of_lt (f : List Int) (k : Nat) (hk : k < f.length) : f.getD k 0 ∈ f := by
  rw [List.getD_eq_getElem f 0 hk]
  exact List.getElem_mem hk

theorem addFaceNormal_length (verts : List (Vec3f K)) (f : List Int) (v0 : Vec3f K)
    (vn : List (Vec3f K)) (k : Nat) :
    (addFaceNormal verts f v0 vn k).length = vn.length := by
  simp only [addFaceNormal, vecSet_length]

theorem addFaceNormal_getElem?_of_not_mem (verts : List (Vec3f K)) (f : List Int)
    (v0 : Vec3f K) (vn : List (Vec3f K)) (k j : Nat) (hk : k + 1 < f.length)
    (hj : (j : Int) ∉ f) : (addFaceNormal verts f v0 vn k)[j]? = vn[j]? := by
  have h0 : f.getD 0 0 ≠ (j : Int) := fun h => hj (h ▸ getD_mem_of_lt f 0 (by omega))
  have h1 : f.getD k 0 ≠ (j : Int) := fun h => hj (h ▸ getD_mem_of_lt f k (by omega))
  have h2 : f.getD (k + 1) 0 ≠ (j : Int) := fun h => hj (h ▸ getD_mem_of_lt f (k + 1) hk)
  simp only [addFaceNormal]
  rw [vecSet_getElem?_ne _ _ _ _ h2, vecSet_getElem?_ne _ _ _ _ h1,
    vecSet_getElem?_ne _ _ _ _ h0]

theorem accumulateFace_length (verts vn : List (Vec3f K)) (f : List Int) :
    (accumulateFace verts vn f).length = vn.length := by
  unfold accumulateFace
  simp only
  split_ifs
  · rfl
  · refine foldl_invariant (fun s : List (Vec3f K) => s.length = vn.length) _ _ _ ?_ ?_
    · rfl
    · intro s k _ hs
      rw [addFaceNormal_length, hs]

theorem accumulateFace_getElem?_of_not_mem (verts vn : List (Vec3f K)) (f : List Int)
    (j : Nat) (hj : (j : Int) ∉ f) : (accumulateFace verts vn f)[j]? = vn[j]? := by
  unfold accumulateFace
  simp only
  split_ifs with hn
  · rfl
  · refine foldl_invariant (fun s : List (Vec3f K) => s[j]? = vn[j]?) _ _ _ ?_ ?_
    · rfl
    · intro s k hk hs
      rw [List.mem_range'_1] at hk
      rw [addFaceNormal_getElem?_of_not_mem verts f _ s k j (by omega) hj, hs]

theorem accumulateNormals_length (verts : List (Vec3f K)) (faces : List (List Int)) :
    (accumulateNormals verts faces).length = verts.length := by
  unfold accumulateNormals
  refine foldl_invariant (fun s : List (Vec3f K) => s.length = verts.length) _ _ _ ?_ ?_
  · simp
  · intro s f _ hs
    rw [accumulateFace_length, hs]

theorem accumulateNormals_unused (verts : List (Vec3f K)) (faces : List (List Int))
    (j : Nat) (hlt : j < verts.length) (hj : ∀ f ∈ faces, (j : Int) ∉ f) :
    (accumulateNormals verts faces)[j]? = some ⟨0, 0, 0⟩ := by
  unfold accumulateNormals
  refine foldl_invariant (fun s : List (Vec3f K) => s[j]? = some (⟨0, 0, 0⟩ : Vec3f K)) _ _ _ ?_ ?_
  · exact List.getElem?_replicate_of_lt hlt
  · intro s f hf hs
    rw [accumulateFace_getElem?_of_not_mem verts s f j (hj f hf), hs]

theorem sqrt_zero_of (sqrt : K → K) (hsq : ∀ x, 0 ≤ x → sqrt x * sqrt x = x) :
    sqrt 0 = 0 :=
  mul_self_eq_zero.mp (hsq 0 le_rfl)

theorem sqrt_one_of (sqrt : K → K) (hsq : ∀ x, 0 ≤ x → sqrt x * sqrt x = x)
    (hnn : ∀ x, 0 ≤ sqrt x) : sqrt 1 = 1 := by
  have h := hsq 1 zero_le_one
  have h0 := hnn 1
  have hfac : (sqrt 1 - 1) * (sqrt 1 + 1) = 0 := by
    have : (sqrt 1 - 1) * (sqrt 1 + 1) = sqrt 1 * sqrt 1 - 1 := by ring
    rw [this, h]
    ring
  rcases mul_eq_zero.mp hfac with h2 | h2
  · linarith
  · linarith

theorem finishNormal_zero (sqrt : K → K) (hsq : ∀ x, 0 ≤ x → sqrt x * sqrt x = x) :
    finishNormal sqrt ⟨0, 0, 0⟩ = ⟨0, 0, 1⟩ := by
  have h0 := sqrt_zero_of sqrt hsq
  simp [finishNormal, Vec3f.norm, h0]

theorem finishNormal_norm (sqrt : K → K) (hsq : ∀ x, 0 ≤ x → sqrt x * sqrt x = x)
    (hnn : ∀ x, 0 ≤ sqrt x) (v : Vec3f K) : (finishNormal sqrt v).norm sqrt = 1 := by
  have h1 := sqrt_one_of sqrt hsq hnn
  unfold finishNormal
  simp only
  split_ifs with hlen
  · have hq : 0 ≤ v.x * v.x + v.y * v.y + v.z * v.z := by
      have := mul_self_nonneg v.x
      have := mul_self_nonneg v.y
      have := mul_self_nonneg v.z
      linarith
    have hmul := hsq _ hq
    have hpos : 0 < v.norm sqrt := lt_trans (by norm_num) hlen
    have hne : v.norm sqrt ≠ 0 := ne_of_gt hpos
    have harg : v.x * (1 / v.norm sqrt) * (v.x * (1 / v.norm sqrt))
        + v.y * (1 / v.norm sqrt) * (v.y * (1 / v.norm sqrt))
        + v.z * (1 / v.norm sqrt) * (v.z * (1 / v.norm sqrt)) = 1 := by
      field_simp
      unfold Vec3f.norm
      rw [hmul]
    show sqrt (v.x * (1 / v.norm sqrt) * (v.x * (1 / v.norm sqrt))
        + v.y * (1 / v.norm sqrt) * (v.y * (1 / v.norm sqrt))
        + v.z * (1 / v.norm sqrt) * (v.z * (1 / v.norm sqrt))) = 1
    rw [harg, h1]
  · simp [Vec3f.norm, h1]

/-- C10: after `compute_vertex_normals` on a mesh with valid face indices there is
exactly one normal per vertex, so `has_normals()` is true; every normal has length 1;
a vertex whose accumulated sum of face normals is exactly zero gets the fallback
(0,0,1), and so does every vertex used by no face. -/
theorem vertex_normals_unit_length (sqrt : K → K)
    (hsq : ∀ x, 0 ≤ x → sqrt x * sqrt x = x) (hnn : ∀ x, 0 ≤ sqrt x)
    (m : Model K) (_hvalid : validFaces m) :
    (m.compute_vertex_normals sqrt).vnorms_.length
        = (m.compute_vertex_normals sqrt).verts_.length ∧
    (m.compute_vertex_normals sqrt).has_normals = true ∧
    (∀ n ∈ (m.compute_vertex_normals sqrt).vnorms_, n.norm sqrt = 1) ∧
    (∀ j : Nat, (accumulateNormals m.verts_ m.faces_)[j]? = some ⟨0, 0, 0⟩ →
      (m.compute_vertex_normals sqrt).vnorms_[j]? = some ⟨0, 0, 1⟩) ∧
    (∀ j : Nat, j < m.verts_.length → (∀ f ∈ m.faces_, (j : Int) ∉ f) →
      (m.compute_vertex_normals sqrt).vnorms_[j]? = some ⟨0, 0, 1⟩) := by
  have hlen : (m.compute_vertex_normals sqrt).vnorms_.length
      = (m.compute_vertex_normals sqrt).verts_.length := by
    simp [Model.compute_vertex_normals, accumulateNormals_length]
  have hzero : ∀ j : Nat, (accumulateNormals m.verts_ m.faces_)[j]? = some ⟨0, 0, 0⟩ →
      (m.compute_vertex_normals sqrt).vnorms_[j]? = some ⟨0, 0, 1⟩ := by
    intro j hj
    simp only [Model.compute_vertex_normals, List.getElem?_map, hj, Option.map_some',
      finishNormal_zero sqrt hsq]
  refine ⟨hlen, ?_, ?_, hzero, ?_⟩
  · unfold Model.has_normals
    rw [hlen]
    simp
  · intro n hn
    simp only [Model.compute_vertex_normals, List.mem_map] at hn
    obtain ⟨a, _, rfl⟩ := hn
    exact finishNormal_norm sqrt hsq hnn a
  · intro j hlt hunused
    exact hzero j (accumulateNormals_unused m.verts_ m.faces_ j hlt hunused)

/-- Instance of C10 over the real numbers with the real square root, on the mesh of
the single triangle. -/
theorem vertex_normals_unit_length_witness :
    (∀ x : ℝ, 0 ≤ x → Real.sqrt x * Real.sqrt x = x) ∧ (∀ x : ℝ, 0 ≤ Real.sqrt x) ∧
    validFaces (unitTriangleMesh : Model ℝ) ∧
    ∀ n ∈ ((unitTriangleMesh : Model ℝ).compute_vertex_normals Real.sqrt).vnorms_,
      n.norm Real.sqrt = 1 :=
  ⟨fun _ hx => Real.mul_self_sqrt hx, Real.sqrt_nonneg,
    by simp [validFaces, unitTriangleMesh],
    (vertex_normals_unit_length Real.sqrt (fun _ hx => Real.mul_self_sqrt hx)
      Real.sqrt_nonneg unitTriangleMesh (by simp [validFaces, unitTriangleMesh])).2.2.1⟩

/-! ## C12: `Model::uv` and the fallback texel -/

theorem texShade_eq_phongShade (sqrt : K → K) (tex : Texture) (uvs : Fin 3 → Vec2f K)
    (norms worldPos : Fin 3 → Vec3f K) (light_dir eyePos : Vec3f K) (bc : Vec3f K) :
    texShade sqrt tex uvs norms worldPos light_dir eyePos bc
      = phongShade sqrt norms worldPos light_dir eyePos
          (tex.get (texelX tex uvs bc) (texelY tex uvs bc)) bc := rfl

theorem texel_zero_uv (tex : Texture) (bc : Vec3f K) :
    texelX tex (fun _ => (⟨0, 0⟩ : Vec2f K)) bc = 0 ∧
    texelY tex (fun _ => (⟨0, 0⟩ : Vec2f K)) bc = 0 := by
  have h0 : castInt (0 : K) = 0 := by
    unfold castInt truncToInt intMin intMax
    simp
  constructor
  · simp only [texelX, zero_mul, add_zero, h0]
    omega
  · simp only [texelY, zero_mul, add_zero, h0]
    omega

/-- C12: `Model::uv` never fails (no read falls outside its vector); it returns (0,0)
when `iface` is outside the face list, when `nthvert` is outside that face's UV index
list, or when the stored UV index is negative or not below the number of texture
coordinates, and `uvs_[faces_uv_[iface][nthvert]]` in every other case; with UV (0,0)
at all three corners `triangle_phong_tex` samples the texel (0,0) of the texture. -/
theorem uv_never_fails (sqrt : K → K) (m : Model K) (iface nthvert : Int) :
    (∃ v, m.uv iface nthvert = some v) ∧
    ((iface < 0 ∨ iface ≥ (m.faces_uv_.length : Int)) → m.uv iface nthvert = some ⟨0, 0⟩) ∧
    (∀ fu, 0 ≤ iface → m.faces_uv_[iface.toNat]? = some fu →
      ((nthvert < 0 ∨ nthvert ≥ (fu.length : Int)) → m.uv iface nthvert = some ⟨0, 0⟩) ∧
      (∀ idx, 0 ≤ nthvert → fu[nthvert.toNat]? = some idx →
        ((idx < 0 ∨ idx ≥ (m.uvs_.length : Int)) → m.uv iface nthvert = some ⟨0, 0⟩) ∧
        (0 ≤ idx → idx < (m.uvs_.length : Int) →
          m.uv iface nthvert = m.uvs_[idx.toNat]?))) ∧
    (∀ (tex : Texture) (pts norms worldPos : Fin 3 → Vec3f K) (l e : Vec3f K)
        (st : Frame K),
      triangle_phong_tex sqrt tex pts (fun _ => ⟨0, 0⟩) norms worldPos l e st
        = triangle_phong_flat sqrt pts norms worldPos l e (tex.get 0 0) st) := by
  have hcase1 : (iface < 0 ∨ iface ≥ (m.faces_uv_.length : Int)) →
      m.uv iface nthvert = some ⟨0, 0⟩ := by
    intro h
    unfold Model.uv
    rw [if_pos h]
  have hcase2 : ∀ fu, 0 ≤ iface → m.faces_uv_[iface.toNat]? = some fu →
      ((nthvert < 0 ∨ nthvert ≥ (fu.length : Int)) → m.uv iface nthvert = some ⟨0, 0⟩) ∧
      (∀ idx, 0 ≤ nthvert → fu[nthvert.toNat]? = some idx →
        ((idx < 0 ∨ idx ≥ (m.uvs_.length : Int)) → m.uv iface nthvert = some ⟨0, 0⟩) ∧
        (0 ≤ idx → idx < (m.uvs_.length : Int) →
          m.uv iface nthvert = m.uvs_[idx.toNat]?)) := by
    intro fu hi hfu
    have hin : ¬ (iface < 0 ∨ iface ≥ (m.faces_uv_.length : Int)) := by
      have := (List.getElem?_eq_some_iff.mp hfu).1
      omega
    refine ⟨?_, ?_⟩
    · intro hn
      unfold Model.uv
      rw [if_neg hin, hfu]
      simp only
      rw [if_pos hn]
    · intro idx hn hidx
      have hnin : ¬ (nthvert < 0 ∨ nthvert ≥ (fu.length : Int)) := by
        have := (List.getElem?_eq_some_iff.mp hidx).1
        omega
      refine ⟨?_, ?_⟩
      · intro hbad
        unfold Model.uv
        rw [if_neg hin, hfu]
        simp only
        rw [if_neg hnin, hidx]
        simp only
        rw [if_pos hbad]
      · intro h0 h1
        have hgood : ¬ (idx < 0 ∨ idx ≥ (m.uvs_.length : Int)) := by omega
        unfold Model.uv
        rw [if_neg hin, hfu]
        simp only
        rw [if_neg hnin, hidx]
        simp only
        rw [if_neg hgood]
  refine ⟨?_, hcase1, hcase2, ?_⟩
  · by_cases h1 : iface < 0 ∨ iface ≥ (m.faces_uv_.length : Int)
    · exact ⟨_, hcase1 h1⟩
    · have hlt : iface.toNat < m.faces_uv_.length := by omega
      have hfu : m.faces_uv_[iface.toNat]? = some (m.faces_uv_[iface.toNat]) :=
        List.getElem?_eq_getElem hlt
      obtain ⟨hA, hB⟩ := hcase2 _ (by omega) hfu
      by_cases h2 : nthvert < 0 ∨ nthvert ≥ ((m.faces_uv_[iface.toNat]).length : Int)
      · exact ⟨_, hA h2⟩
      · have hlt2 : nthvert.toNat < (m.faces_uv_[iface.toNat]).length := by omega
        have hidx := List.getElem?_eq_getElem hlt2
        obtain ⟨hC, hD⟩ := hB _ (by omega) hidx
        by_cases h3 : (m.faces_uv_[iface.toNat])[nthvert.toNat] < 0 ∨
            (m.faces_uv_[iface.toNat])[nthvert.toNat] ≥ (m.uvs_.length : Int)
        · exact ⟨_, hC h3⟩
        · have hlt3 : ((m.faces_uv_[iface.toNat])[nthvert.toNat]).toNat < m.uvs_.length := by
            omega
          refine ⟨m.uvs_[((m.faces_uv_[iface.toNat])[nthvert.toNat]).toNat], ?_⟩
          rw [hD (by omega) (by omega)]
          exact List.getElem?_eq_getElem hlt3
  · intro tex pts norms worldPos l e st
    rw [triangle_phong_tex_eq, triangle_phong_flat_eq]
    congr 1
    funext bc
    rw [texShade_eq_phongShade, (texel_zero_uv tex bc).1, (texel_zero_uv tex bc).2]

/-- Instance of C12: in `uvModel` the face stores the UV indices 0, 1, 7 and only two
texture coordinates are loaded; corner 1 reads `uvs_[1]`, corner 2 (index 7) and corner
5 (outside the list) fall back to (0,0). -/
theorem uv_never_fails_witness :
    uvModel.uv 0 1 = some ⟨3 / 4, 1 / 2⟩ ∧ uvModel.uv 0 2 = some ⟨0, 0⟩ ∧
    uvModel.uv 0 5 = some ⟨0, 0⟩ ∧ uvModel.uv 3 0 = some ⟨0, 0⟩ ∧
    ∃ v, uvModel.uv (-1) 0 = some v :=
  ⟨by rfl, by decide, by decide, by decide,
    (uv_never_fails (fun x => x) uvModel (-1) 0).1⟩

/-! ## C20: texel coordinates stay inside the texture -/

theorem clamp_eq_clampSpec (v hi : Int) (hhi : 0 ≤ hi) :
    max 0 (min hi v) = clampSpec v 0 hi ∧ 0 ≤ max 0 (min hi v) ∧ max 0 (min hi v) ≤ hi := by
  unfold clampSpec
  refine ⟨?_, ?_, ?_⟩
  · split_ifs <;> omega
  · omega
  · omega

theorem foldl_fixed {S A : Type} (f : S → A → S) (l : List A) (s : S)
    (h : ∀ a, a ∈ l → f s a = s) : l.foldl f s = s := by
  induction l with
  | nil => rfl
  | cons a l ih =>
    rw [List.foldl_cons, h a (List.mem_cons_self _ _)]
    exact ih (fun b hb => h b (List.mem_cons_of_mem _ hb))

/-- A rasterizer run in which no visited pixel passes both tests returns the buffers
unchanged. -/
theorem rasterize_no_pass (pts : Fin 3 → Vec3f K) (bb : Vec2i × Vec2i)
    (shade : Vec3f K → TGAColor) (st : Frame K)
    (h : ∀ P, inBox bb P → accepted pts P →
      ¬ st.zb (P.x + P.y * width) < ((depthAt pts P : K) : WithBot K)) :
    rasterize pts bb shade st = st := by
  unfold rasterize
  apply foldl_fixed
  intro px hpx
  apply foldl_fixed
  intro py hpy
  rw [mem_intRange] at hpx hpy
  have hP := h ⟨px, py⟩ ⟨hpx.1, hpx.2, hpy.1, hpy.2⟩
  unfold pixelStep
  simp only
  by_cases hacc : (barycentric pts ⟨px, py⟩).x < 0 ∨ (barycentric pts ⟨px, py⟩).y < 0 ∨
      (barycentric pts ⟨px, py⟩).z < 0
  · rw [if_pos hacc]
  · rw [if_neg hacc]
    have hlt := hP hacc
    unfold depthAt at hlt
    split_ifs
    · rfl
    · rfl

theorem draw_no_pass (sqrt : K → K) (tex : Texture) (st : Frame K) (c : DrawCall K)
    (h : ∀ P, covers c.pts P →
      ((depthAt c.pts P : K) : WithBot K) ≤ st.zb (P.x + P.y * width)) :
    draw sqrt tex st c = st := by
  obtain ⟨shade, hshade⟩ := draw_eq_rasterize sqrt tex st c
  rw [hshade]
  apply rasterize_no_pass
  intro P hbox hacc
  exact not_lt.mpr (h P ⟨hbox, hacc⟩)

theorem render_no_pass (sqrt : K → K) (tex : Texture) (calls : List (DrawCall K))
    (st : Frame K)
    (h : ∀ c ∈ calls, ∀ P, covers c.pts P →
      ((depthAt c.pts P : K) : WithBot K) ≤ st.zb (P.x + P.y * width)) :
    render sqrt tex calls st = st := by
  induction calls with
  | nil => rfl
  | cons c cs ih =>
    have hstep : render sqrt tex (c :: cs) st = render sqrt tex cs (draw sqrt tex st c) := rfl
    rw [hstep, draw_no_pass sqrt tex st c (h c (List.mem_cons_self _ _))]
    exact ih (fun d hd => h d (List.mem_cons_of_mem _ hd))

theorem render_zb_dominates (sqrt : K → K) (tex : Texture) (calls : List (DrawCall K))
    (st : Frame K) (c : DrawCall K) (hc : c ∈ calls) (P : Vec2i) (hcov : covers c.pts P) :
    ((depthAt c.pts P : K) : WithBot K)
      ≤ (render sqrt tex calls st).zb (P.x + P.y * width) := by
  have hP : inFrame P := bbox_inFrame c.pts P hcov.1
  rw [render_zb sqrt tex calls st P hP]
  apply le_max_of_le_right
  apply List.le_maximum_of_mem'
  unfold coveringDepths
  rw [List.mem_map]
  refine ⟨c, ?_, rfl⟩
  rw [List.mem_filter]
  exact ⟨hc, by simpa using hcov⟩

/-- C19: the opaque pass is idempotent: for every list of draw calls and every initial
depth buffer and image, rasterizing the list a second time onto the buffers produced
by the first rasterization returns exactly those buffers (no depth cell and no pixel
changes). -/
theorem opaque_pass_idempotent (sqrt : K → K) (tex : Texture)
    (calls : List (DrawCall K)) (st : Frame K) :
    render sqrt tex calls (render sqrt tex calls st) = render sqrt tex calls st ∧
    (∀ i : Int, (render sqrt tex calls (render sqrt tex calls st)).zb i
      = (render sqrt tex calls st).zb i) ∧
    (∀ x y : Int, (render sqrt tex calls (render sqrt tex calls st)).image x y
      = (render sqrt tex calls st).image x y) := by
  have h : render sqrt tex calls (render sqrt tex calls st) = render sqrt tex calls st :=
    render_no_pass sqrt tex calls _
      (fun c hc P hcov => render_zb_dominates sqrt tex calls st c hc P hcov)
  refine ⟨h, ?_, ?_⟩
  · intro i
    rw [h]
  · intro x y
    rw [h]

/-! ## C18: the overlay pass -/

theorem alphaPixelStep_obs (pts : Fin 3 → Vec3f K) (color : Pixel K) (alpha : K)
    (st : OverlayFrame K) (P Q : Vec2i) :
    obsOverlay (alphaPixelStep pts color alpha st P) Q
      = if P = Q then overlayCellStep pts color alpha Q (obsOverlay st Q)
        else obsOverlay st Q := by
  by_cases hPQ : P = Q
  · subst hPQ
    simp only [if_true]
    unfold alphaPixelStep overlayCellStep obsOverlay accepted depthAt
    by_cases hacc : (barycentric pts P).x < 0 ∨ (barycentric pts P).y < 0 ∨
        (barycentric pts P).z < 0
    · simp [hacc]
    · simp only [hacc, if_false, not_false_eq_true, true_and]
      split_ifs with hlt
      · simp
      · rfl
  · simp only [hPQ, if_false]
    have hne2 : ¬ (Q.x = P.x ∧ Q.y = P.y) := by
      rw [vec2i_eq_iff] at hPQ
      tauto
    unfold alphaPixelStep obsOverlay
    simp only
    split_ifs <;> simp [hne2]

/-- Effect of one call of `triangle_alpha` on the depth buffer and on the colour of a
pixel. -/
theorem triangle_alpha_obs (pts : Fin 3 → Vec3f K) (color : Pixel K) (alpha : K)
    (st : OverlayFrame K) (Q : Vec2i) :
    obsOverlay (triangle_alpha pts color alpha st) Q
      = if covers pts Q ∧ st.zb (Q.x + Q.y * width) < ((depthAt pts Q : K) : WithBot K) then
          (st.zb, blendPixel alpha (st.image Q.x Q.y) color)
        else obsOverlay st Q := by
  have hcol : ∀ (px : Int) (s : OverlayFrame K),
      px ∈ intRange (bbox_of_triangle pts).1.x (bbox_of_triangle pts).2.x →
      obsOverlay ((intRange (bbox_of_triangle pts).1.y (bbox_of_triangle pts).2.y).foldl
          (fun st py => alphaPixelStep pts color alpha st ⟨px, py⟩) s) Q
        = if px = Q.x then
            (if Q.y ∈ intRange (bbox_of_triangle pts).1.y (bbox_of_triangle pts).2.y then
              overlayCellStep pts color alpha Q (obsOverlay s Q) else obsOverlay s Q)
          else obsOverlay s Q := by
    intro px s _
    by_cases hx : px = Q.x
    · simp only [hx, if_true]
      rw [← hx]
      apply foldl_obs_once (fun st py => alphaPixelStep pts color alpha st ⟨px, py⟩)
        (fun s => obsOverlay s Q) (overlayCellStep pts color alpha Q) Q.y _
        (nodup_intRange _ _)
      intro s a _
      show obsOverlay (alphaPixelStep pts color alpha s ⟨px, a⟩) Q = _
      rw [alphaPixelStep_obs]
      have : ((⟨px, a⟩ : Vec2i) = Q) ↔ a = Q.y := by
        rw [vec2i_eq_iff]
        simp [hx]
      simp only [this]
    · simp only [hx, if_false]
      apply foldl_obs_none (fun st py => alphaPixelStep pts color alpha st ⟨px, py⟩)
        (fun s => obsOverlay s Q)
      intro s a _
      show obsOverlay (alphaPixelStep pts color alpha s ⟨px, a⟩) Q = _
      rw [alphaPixelStep_obs]
      have : ¬ ((⟨px, a⟩ : Vec2i) = Q) := by
        rw [vec2i_eq_iff]
        simp [hx]
      simp only [this, if_false]
  unfold triangle_alpha
  simp only
  rw [foldl_obs_once
    (fun st px => (intRange (bbox_of_triangle pts).1.y (bbox_of_triangle pts).2.y).foldl
      (fun st py => alphaPixelStep pts color alpha st ⟨px, py⟩) st)
    (fun s => obsOverlay s Q)
    (fun c => if Q.y ∈ intRange (bbox_of_triangle pts).1.y (bbox_of_triangle pts).2.y then
      overlayCellStep pts color alpha Q c else c)
    Q.x _ (nodup_intRange _ _) (fun s a ha => hcol a s ha)]
  simp only [mem_intRange, covers, inBox, overlayCellStep, obsOverlay]
  by_cases h1 : (bbox_of_triangle pts).1.x ≤ Q.x ∧ Q.x ≤ (bbox_of_triangle pts).2.x
  · by_cases h2 : (bbox_of_triangle pts).1.y ≤ Q.y ∧ Q.y ≤ (bbox_of_triangle pts).2.y
    · have : (bbox_of_triangle pts).1.x ≤ Q.x ∧ Q.x ≤ (bbox_of_triangle pts).2.x ∧
          (bbox_of_triangle pts).1.y ≤ Q.y ∧ Q.y ≤ (bbox_of_triangle pts).2.y :=
        ⟨h1.1, h1.2, h2.1, h2.2⟩
      simp [h1, h2, this]
    · have : ¬ ((bbox_of_triangle pts).1.x ≤ Q.x ∧ Q.x ≤ (bbox_of_triangle pts).2.x ∧
          (bbox_of_triangle pts).1.y ≤ Q.y ∧ Q.y ≤ (bbox_of_triangle pts).2.y) :=
        fun h => h2 ⟨h.2.2.1, h.2.2.2⟩
      simp [h1, h2, this]
  · have : ¬ ((bbox_of_triangle pts).1.x ≤ Q.x ∧ Q.x ≤ (bbox_of_triangle pts).2.x ∧
        (bbox_of_triangle pts).1.y ≤ Q.y ∧ Q.y ≤ (bbox_of_triangle pts).2.y) :=
      fun h => h1 ⟨h.1, h.2.1⟩
    simp [h1, this]

theorem blend_between (alpha e c : K) (h0 : 0 ≤ alpha) (h1 : alpha ≤ 1) :
    min e c ≤ blend alpha e c ∧ blend alpha e c ≤ max e c := by
  have hform : blend alpha e c = e + alpha * (c - e) := by
    unfold blend
    ring
  have hform2 : blend alpha e c = c + (1 - alpha) * (e - c) := by
    unfold blend
    ring
  rcases le_total e c with hec | hce
  · rw [min_eq_left hec, max_eq_right hec]
    constructor
    · rw [hform]
      have : 0 ≤ alpha * (c - e) := mul_nonneg h0 (by linarith)
      linarith
    · rw [hform2]
      have : (1 - alpha) * (e - c) ≤ 0 :=
        mul_nonpos_of_nonneg_of_nonpos (by linarith) (by linarith)
      linarith
  · rw [min_eq_right hce, max_eq_left hce]
    constructor
    · rw [hform2]
      have : 0 ≤ (1 - alpha) * (e - c) := mul_nonneg (by linarith) (by linarith)
      linarith
    · rw [hform]
      have : alpha * (c - e) ≤ 0 := mul_nonpos_of_nonneg_of_nonpos h0 (by linarith)
      linarith

/-- C18: for one call of `triangle_alpha` with overlay colour `C` and `alpha` in
[0,1]: every depth cell is the same after the call as before; a pixel that is not
covered or fails the strict depth test keeps its colour; each channel of a pixel that
is covered and passes becomes `existing*(1 - alpha) + C*alpha` and lies between the
existing and the overlay channel value. -/
theorem overlay_pass_blends_and_keeps_depth (pts : Fin 3 → Vec3f K) (color : Pixel K)
    (alpha : K) (st : OverlayFrame K) (h0 : 0 ≤ alpha) (h1 : alpha ≤ 1) :
    (triangle_alpha pts color alpha st).zb = st.zb ∧
    (∀ Q : Vec2i,
      ¬ (covers pts Q ∧ st.zb (Q.x + Q.y * width) < ((depthAt pts Q : K) : WithBot K)) →
      (triangle_alpha pts color alpha st).image Q.x Q.y = st.image Q.x Q.y) ∧
    (∀ Q : Vec2i, covers pts Q →
      st.zb (Q.x + Q.y * width) < ((depthAt pts Q : K) : WithBot K) →
      (triangle_alpha pts color alpha st).image Q.x Q.y
          = ⟨(st.image Q.x Q.y).r * (1 - alpha) + color.r * alpha,
             (st.image Q.x Q.y).g * (1 - alpha) + color.g * alpha,
             (st.image Q.x Q.y).b * (1 - alpha) + color.b * alpha⟩ ∧
      min (st.image Q.x Q.y).r color.r ≤ ((triangle_alpha pts color alpha st).image Q.x Q.y).r ∧
      ((triangle_alpha pts color alpha st).image Q.x Q.y).r ≤ max (st.image Q.x Q.y).r color.r ∧
      min (st.image Q.x Q.y).g color.g ≤ ((triangle_alpha pts color alpha st).image Q.x Q.y).g ∧
      ((triangle_alpha pts color alpha st).image Q.x Q.y).g ≤ max (st.image Q.x Q.y).g color.g ∧
      min (st.image Q.x Q.y).b color.b ≤ ((triangle_alpha pts color alpha st).image Q.x Q.y).b ∧
      ((triangle_alpha pts color alpha st).image Q.x Q.y).b
        ≤ max (st.image Q.x Q.y).b color.b) := by
  refine ⟨?_, ?_, ?_⟩
  · have h := congrArg Prod.fst (triangle_alpha_obs pts color alpha st ⟨0, 0⟩)
    simp only [obsOverlay] at h
    rw [h]
    split_ifs <;> rfl
  · intro Q hno
    have h := congrArg Prod.snd (triangle_alpha_obs pts color alpha st Q)
    rw [if_neg hno] at h
    exact h
  · intro Q hcov hlt
    have h := congrArg Prod.snd (triangle_alpha_obs pts color alpha st Q)
    rw [if_pos ⟨hcov, hlt⟩] at h
    simp only [obsOverlay] at h
    rw [h]
    have hr := blend_between alpha (st.image Q.x Q.y).r color.r h0 h1
    have hg := blend_between alpha (st.image Q.x Q.y).g color.g h0 h1
    have hb := blend_between alpha (st.image Q.x Q.y).b color.b h0 h1
    exact ⟨rfl, hr.1, hr.2, hg.1, hg.2, hb.1, hb.2⟩

/-- Instance of C18: the glass colour at opacity 0.15 over `exTri` on black buffers;
pixel (1,1) passes the depth test and its red channel becomes 27. -/
theorem overlay_pass_blends_and_keeps_depth_witness :
    (0 : ℚ) ≤ overlayAlpha ∧ (overlayAlpha : ℚ) ≤ 1 ∧
    (triangle_alpha exTri glass overlayAlpha exOverlayFrame).zb = exOverlayFrame.zb ∧
    ((triangle_alpha exTri glass overlayAlpha exOverlayFrame).image 1 1).r = 27 := by
  have ha0 : (0 : ℚ) ≤ overlayAlpha := by norm_num [overlayAlpha]
  have ha1 : (overlayAlpha : ℚ) ≤ 1 := by norm_num [overlayAlpha]
  have h := overlay_pass_blends_and_keeps_depth exTri glass overlayAlpha exOverlayFrame ha0 ha1
  have hpix := (h.2.2 ⟨1, 1⟩ exTri_covers (by simp [exOverlayFrame, emptyZBuffer])).1
  refine ⟨ha0, ha1, h.1, ?_⟩
  have hr := congrArg Pixel.r hpix
  simp only at hr
  rw [hr]
  norm_num [exOverlayFrame, glass, overlayAlpha]

/-! ## C16: the viewport matrix -/

theorem viewport_entries (x y w h : Int) :
    (viewport x y w h : Matrix (Fin 4) (Fin 4) K)
      = Matrix.of ![![(w : K) / 2, 0, 0, (x : K) + (w : K) / 2],
                    ![0, (h : K) / 2, 0, (y : K) + (h : K) / 2],
                    ![0, 0, (depth : K) / 2, (depth : K) / 2],
                    ![0, 0, 0, 1]] := by
  ext i j
  fin_cases i <;> fin_cases j <;>
    simp [viewport, matSet, Matrix.one_apply, Matrix.vecHead, Matrix.vecTail]

theorem v2m_entries (v : Vec3f K) :
    (v2m v : Matrix (Fin 4) (Fin 1) K) = Matrix.of ![![v.x], ![v.y], ![v.z], ![1]] := by
  ext i j
  fin_cases i <;> fin_cases j <;> simp [v2m, matSet, Matrix.vecHead, Matrix.vecTail]

theorem affine_segment_bounds (x w a : K) (h0 : -1 ≤ a) (h1 : a ≤ 1) :
    min x (x + w) ≤ x + w / 2 + a * w / 2 ∧ x + w / 2 + a * w / 2 ≤ max x (x + w) := by
  have hval : x + w / 2 + a * w / 2 = x + (1 + a) / 2 * w := by ring
  have hs0 : 0 ≤ (1 + a) / 2 := by linarith
  have hs1 : (1 + a) / 2 ≤ 1 := by linarith
  rw [hval]
  rcases le_total 0 w with hw | hw
  · rw [min_eq_left (by linarith), max_eq_right (by linarith)]
    have e1 : 0 ≤ (1 + a) / 2 * w := mul_nonneg hs0 hw
    have e2 : (1 + a) / 2 * w ≤ 1 * w := mul_le_mul_of_nonneg_right hs1 hw
    constructor <;> linarith
  · rw [min_eq_right (by linarith), max_eq_left (by linarith)]
    have e1 : (1 + a) / 2 * w ≤ 0 := mul_nonpos_of_nonneg_of_nonpos hs0 hw
    have e2 : 1 * w ≤ (1 + a) / 2 * w := mul_le_mul_of_nonpos_right hs1 hw
    constructor <;> linarith

theorem affine_segment_onto (x w t : K) (h0 : min x (x + w) ≤ t) (h1 : t ≤ max x (x + w)) :
    ∃ a, -1 ≤ a ∧ a ≤ 1 ∧ x + w / 2 + a * w / 2 = t := by
  rcases lt_trichotomy w 0 with hw | hw | hw
  · rw [min_eq_right (by linarith)] at h0
    rw [max_eq_left (by linarith)] at h1
    have hnw : 0 < -w := by linarith
    have hs0 : 0 ≤ (x - t) / (-w) := div_nonneg (by linarith) (le_of_lt hnw)
    have hs1 : (x - t) / (-w) ≤ 1 := (div_le_one hnw).mpr (by linarith)
    refine ⟨2 * ((x - t) / (-w)) - 1, by linarith, by linarith, ?_⟩
    have hne : w ≠ 0 := ne_of_lt hw
    field_simp
    ring
  · subst hw
    simp only [add_zero, min_self, max_self] at h0 h1
    exact ⟨0, by norm_num, by norm_num, by simp; exact le_antisymm h0 h1⟩
  · rw [min_eq_left (by linarith)] at h0
    rw [max_eq_right (by linarith)] at h1
    have hs0 : 0 ≤ (t - x) / w := div_nonneg (by linarith) (le_of_lt hw)
    have hs1 : (t - x) / w ≤ 1 := (div_le_one hw).mpr (by linarith)
    refine ⟨2 * ((t - x) / w) - 1, by linarith, by linarith, ?_⟩
    have hne : w ≠ 0 := ne_of_gt hw
    field_simp
    ring

theorem viewport_apply (x y w h : Int) (a b c : K) :
    ((viewport x y w h : Matrix (Fin 4) (Fin 4) K) * v2m ⟨a, b, c⟩) 0 0
        = (x : K) + (w : K) / 2 + a * (w : K) / 2 ∧
    ((viewport x y w h : Matrix (Fin 4) (Fin 4) K) * v2m ⟨a, b, c⟩) 1 0
        = (y : K) + (h : K) / 2 + b * (h : K) / 2 ∧
    ((viewport x y w h : Matrix (Fin 4) (Fin 4) K) * v2m ⟨a, b, c⟩) 2 0
        = 0 + (255 : K) / 2 + c * (255 : K) / 2 ∧
    ((viewport x y w h : Matrix (Fin 4) (Fin 4) K) * v2m ⟨a, b, c⟩) 3 0 = 1 := by
  rw [viewport_entries, v2m_entries]
  refine ⟨?_, ?_, ?_, ?_⟩
  · simp [Matrix.mul_apply, Fin.sum_univ_four, Matrix.vecHead, Matrix.vecTail]
    ring
  · simp [Matrix.mul_apply, Fin.sum_univ_four, Matrix.vecHead, Matrix.vecTail]
    ring
  · simp [Matrix.mul_apply, Fin.sum_univ_four, Matrix.vecHead, Matrix.vecTail, depth]
    ring
  · simp [Matrix.mul_apply, Fin.sum_univ_four, Matrix.vecHead, Matrix.vecTail]

/-- C16: for all integers `x, y, w, h`, `viewport(x,y,w,h)` applied to the homogeneous
point `(a,b,c,1)` yields `(x + w/2 + a*w/2, y + h/2 + b*h/2, depth/2 + c*depth/2, 1)`
with `depth = 255`; the NDC origin goes to the centre `(x + w/2, y + h/2, depth/2)`,
the corners -1 and 1 go to `x` and `x + w`, `y` and `y + h`, 0 and 255, and the cube
`[-1,1]^3` is mapped onto the box spanned by these values. -/
theorem viewport_maps_ndc_cube (x y w h : Int) :
    (∀ a b c : K,
      (viewport x y w h : Matrix (Fin 4) (Fin 4) K) * v2m ⟨a, b, c⟩
        = Matrix.of ![![(x : K) + (w : K) / 2 + a * (w : K) / 2],
                      ![(y : K) + (h : K) / 2 + b * (h : K) / 2],
                      ![(255 : K) / 2 + c * (255 : K) / 2],
                      ![1]]) ∧
    (viewport x y w h : Matrix (Fin 4) (Fin 4) K) * v2m (⟨0, 0, 0⟩ : Vec3f K)
        = Matrix.of ![![(x : K) + (w : K) / 2], ![(y : K) + (h : K) / 2], ![(255 : K) / 2],
                      ![1]] ∧
    (viewport x y w h : Matrix (Fin 4) (Fin 4) K) * v2m (⟨-1, -1, -1⟩ : Vec3f K)
        = Matrix.of ![![(x : K)], ![(y : K)], ![0], ![1]] ∧
    (viewport x y w h : Matrix (Fin 4) (Fin 4) K) * v2m (⟨1, 1, 1⟩ : Vec3f K)
        = Matrix.of ![![(x : K) + (w : K)], ![(y : K) + (h : K)], ![255], ![1]] ∧
    (∀ a b c : K, -1 ≤ a → a ≤ 1 → -1 ≤ b → b ≤ 1 → -1 ≤ c → c ≤ 1 →
      min (x : K) ((x : K) + (w : K))
          ≤ ((viewport x y w h : Matrix (Fin 4) (Fin 4) K) * v2m ⟨a, b, c⟩) 0 0 ∧
      ((viewport x y w h : Matrix (Fin 4) (Fin 4) K) * v2m ⟨a, b, c⟩) 0 0
          ≤ max (x : K) ((x : K) + (w : K)) ∧
      min (y : K) ((y : K) + (h : K))
          ≤ ((viewport x y w h : Matrix (Fin 4) (Fin 4) K) * v2m ⟨a, b, c⟩) 1 0 ∧
      ((viewport x y w h : Matrix (Fin 4) (Fin 4) K) * v2m ⟨a, b, c⟩) 1 0
          ≤ max (y : K) ((y : K) + (h : K)) ∧
      0 ≤ ((viewport x y w h : Matrix (Fin 4) (Fin 4) K) * v2m ⟨a, b, c⟩) 2 0 ∧
      ((viewport x y w h : Matrix (Fin 4) (Fin 4) K) * v2m ⟨a, b, c⟩) 2 0 ≤ 255) ∧
    (∀ t u s : K, min (x : K) ((x : K) + (w : K)) ≤ t → t ≤ max (x : K) ((x : K) + (w : K)) →
      min (y : K) ((y : K) + (h : K)) ≤ u → u ≤ max (y : K) ((y : K) + (h : K)) →
      0 ≤ s → s ≤ 255 →
      ∃ a b c : K, -1 ≤ a ∧ a ≤ 1 ∧ -1 ≤ b ∧ b ≤ 1 ∧ -1 ≤ c ∧ c ≤ 1 ∧
        (viewport x y w h : Matrix (Fin 4) (Fin 4) K) * v2m ⟨a, b, c⟩
          = Matrix.of ![![t], ![u], ![s], ![1]]) := by
  have hcol : ∀ a b c : K,
      (viewport x y w h : Matrix (Fin 4) (Fin 4) K) * v2m ⟨a, b, c⟩
        = Matrix.of ![![(x : K) + (w : K) / 2 + a * (w : K) / 2],
                      ![(y : K) + (h : K) / 2 + b * (h : K) / 2],
                      ![(255 : K) / 2 + c * (255 : K) / 2],
                      ![1]] := by
    intro a b c
    obtain ⟨e0, e1, e2, e3⟩ := viewport_apply (K := K) x y w h a b c
    ext i j
    fin_cases i <;> fin_cases j
    · simpa using e0
    · simpa using e1
    · simpa using e2
    · simpa using e3
  refine ⟨hcol, ?_, ?_, ?_, ?_, ?_⟩
  · rw [hcol]
    norm_num
  · rw [hcol]
    ext i j
    fin_cases i <;> fin_cases j <;> simp <;> ring
  · rw [hcol]
    ext i j
    fin_cases i <;> fin_cases j <;> simp <;> ring
  · intro a b c ha0 ha1 hb0 hb1 hc0 hc1
    obtain ⟨e0, e1, e2, _⟩ := viewport_apply (K := K) x y w h a b c
    rw [e0, e1, e2]
    have hx := affine_segment_bounds (x : K) (w : K) a ha0 ha1
    have hy := affine_segment_bounds (y : K) (h : K) b hb0 hb1
    have hz := affine_segment_bounds (0 : K) (255 : K) c hc0 hc1
    rw [min_eq_left (by norm_num), max_eq_right (by norm_num)] at hz
    refine ⟨hx.1, hx.2, hy.1, hy.2, hz.1, ?_⟩
    have := hz.2
    linarith
  · intro t u s ht0 ht1 hu0 hu1 hs0 hs1
    obtain ⟨a, ha0, ha1, hae⟩ := affine_segment_onto (x : K) (w : K) t ht0 ht1
    obtain ⟨b, hb0, hb1, hbe⟩ := affine_segment_onto (y : K) (h : K) u hu0 hu1
    obtain ⟨c, hc0, hc1, hce⟩ := affine_segment_onto (0 : K) (255 : K) s
      (by rw [min_eq_left (by norm_num)]; exact hs0)
      (by rw [max_eq_right (by norm_num)]; linarith)
    refine ⟨a, b, c, ha0, ha1, hb0, hb1, hc0, hc1, ?_⟩
    rw [hcol, hae, hbe]
    have hce2 : (255 : K) / 2 + c * 255 / 2 = s := by linarith
    rw [hce2]

/-- Instance of C16: the viewport of `main`, `viewport(0, 0, 1920, 1920)`, sends the
NDC origin to (960, 960, 255/2). -/
theorem viewport_maps_ndc_cube_witness :
    (viewport 0 0 1920 1920 : Matrix (Fin 4) (Fin 4) ℚ) * v2m (⟨0, 0, 0⟩ : Vec3f ℚ)
      = Matrix.of ![![(960 : ℚ)], ![(960 : ℚ)], ![(255 : ℚ) / 2], ![1]] := by
  have h := (viewport_maps_ndc_cube (K := ℚ) 0 0 1920 1920).2.1
  rw [h]
  norm_num

/-! ## C15: the projection matrix -/

theorem mainProjection_entries (sqrt : K → K) (camera center : Vec3f K) :
    mainProjection sqrt camera center
      = Matrix.of ![![1, 0, 0, 0], ![0, 1, 0, 0], ![0, 0, 1, 0],
                    ![0, 0, -1 / eyeDistance sqrt camera center, 1]] := by
  ext i j
  fin_cases i <;> fin_cases j <;>
    simp [mainProjection, eyeDistance, matSet, Matrix.one_apply, Matrix.vecHead,
      Matrix.vecTail]

theorem eyeDistance_ne_zero (sqrt : K → K) (camera center : Vec3f K) :
    eyeDistance sqrt camera center ≠ 0 := by
  unfold eyeDistance
  split_ifs with h
  · exact one_ne_zero
  · exact h

/-- C15: the `Projection` matrix built in `main` is the 4x4 identity except entry
(row 3, col 2) `= -1/dist`, where `dist = |camera - center|`, replaced by 1 when it is
0; for every point `(x,y,z)` with `z != dist`, applying `Projection` to `(x,y,z,1)` and
then the perspective divide `m2v` yields `(x, y, z) / (1 - z/dist)`, the divisor being
non-zero. -/
theorem projection_is_perspective_divide (sqrt : K → K) (camera center : Vec3f K) :
    (∀ i j : Fin 4, ¬ (i = 3 ∧ j = 2) →
      mainProjection sqrt camera center i j = (1 : Matrix (Fin 4) (Fin 4) K) i j) ∧
    mainProjection sqrt camera center 3 2 = -1 / eyeDistance sqrt camera center ∧
    ((camera.sub center).norm sqrt = 0 → eyeDistance sqrt camera center = 1) ∧
    ((camera.sub center).norm sqrt ≠ 0 →
      eyeDistance sqrt camera center = (camera.sub center).norm sqrt) ∧
    (∀ x y z : K, z ≠ eyeDistance sqrt camera center →
      1 - z / eyeDistance sqrt camera center ≠ 0 ∧
      m2v (mainProjection sqrt camera center * v2m ⟨x, y, z⟩)
        = ⟨x / (1 - z / eyeDistance sqrt camera center),
           y / (1 - z / eyeDistance sqrt camera center),
           z / (1 - z / eyeDistance sqrt camera center)⟩) := by
  have hd := eyeDistance_ne_zero sqrt camera center
  refine ⟨?_, ?_, ?_, ?_, ?_⟩
  · intro i j hij
    rw [mainProjection_entries]
    fin_cases i <;> fin_cases j <;>
      simp [Matrix.one_apply, Matrix.vecHead, Matrix.vecTail] at hij ⊢
  · rw [mainProjection_entries]
    simp [Matrix.vecHead, Matrix.vecTail]
  · intro h
    unfold eyeDistance
    rw [if_pos h]
  · intro h
    unfold eyeDistance
    rw [if_neg h]
  · intro x y z hz
    have hw : 1 - z / eyeDistance sqrt camera center ≠ 0 := by
      intro h0
      apply hz
      field_simp at h0
      linarith
    refine ⟨hw, ?_⟩
    have hden : (mainProjection sqrt camera center * v2m ⟨x, y, z⟩) 3 0
        = 1 - z / eyeDistance sqrt camera center := by
      rw [mainProjection_entries, v2m_entries]
      simp [Matrix.mul_apply, Fin.sum_univ_four, Matrix.vecHead, Matrix.vecTail]
      ring
    have h0 : (mainProjection sqrt camera center * v2m ⟨x, y, z⟩) 0 0 = x := by
      rw [mainProjection_entries, v2m_entries]
      simp [Matrix.mul_apply, Fin.sum_univ_four, Matrix.vecHead, Matrix.vecTail]
    have h1 : (mainProjection sqrt camera center * v2m ⟨x, y, z⟩) 1 0 = y := by
      rw [mainProjection_entries, v2m_entries]
      simp [Matrix.mul_apply, Fin.sum_univ_four, Matrix.vecHead, Matrix.vecTail]
    have h2 : (mainProjection sqrt camera center * v2m ⟨x, y, z⟩) 2 0 = z := by
      rw [mainProjection_entries, v2m_entries]
      simp [Matrix.mul_apply, Fin.sum_univ_four, Matrix.vecHead, Matrix.vecTail]
    unfold m2v
    rw [hden, h0, h1, h2]

/-- Instance of C15 over the real numbers, with the camera (1,0,4) and the center
(0,0,0) of `main`: the point (1,2,0) is left unchanged by projection and divide. -/
theorem projection_is_perspective_divide_witness :
    (0 : ℝ) ≠ eyeDistance Real.sqrt camera center ∧
    m2v (mainProjection Real.sqrt (camera : Vec3f ℝ) center * v2m (⟨1, 2, 0⟩ : Vec3f ℝ))
      = ⟨1 / (1 - 0 / eyeDistance Real.sqrt camera center),
         2 / (1 - 0 / eyeDistance Real.sqrt camera center),
         0 / (1 - 0 / eyeDistance Real.sqrt camera center)⟩ :=
  ⟨(eyeDistance_ne_zero Real.sqrt camera center).symm,
    ((projection_is_perspective_divide Real.sqrt (camera : Vec3f ℝ) center).2.2.2.2 1 2 0
      (eyeDistance_ne_zero Real.sqrt camera center).symm).2⟩

/-! ## C14: the view matrix -/

theorem castSucc_two : (2 : Fin 3).castSucc = (2 : Fin 4) := rfl

theorem lookat_eq_product (sqrt : K → K) (eye center up : Vec3f K) :
    lookat sqrt eye center up
      = (Matrix.of ![![(cameraRight sqrt eye center up).x, (cameraRight sqrt eye center up).y,
                      (cameraRight sqrt eye center up).z, 0],
                    ![(cameraUp sqrt eye center up).x, (cameraUp sqrt eye center up).y,
                      (cameraUp sqrt eye center up).z, 0],
                    ![(cameraForward sqrt eye center).x, (cameraForward sqrt eye center).y,
                      (cameraForward sqrt eye center).z, 0],
                    ![0, 0, 0, 1]] : Matrix (Fin 4) (Fin 4) K)
        * (Matrix.of ![![1, 0, 0, -eye.x], ![0, 1, 0, -eye.y], ![0, 0, 1, -eye.z],
                      ![0, 0, 0, 1]] : Matrix (Fin 4) (Fin 4) K) := by
  unfold lookat
  simp only [List.foldl]
  congr 1
  · ext i j
    fin_cases i <;> fin_cases j <;>
      simp [matSet, Vec3f.get, Matrix.one_apply, Matrix.vecHead, Matrix.vecTail,
        cameraRight, cameraUp, cameraForward, castSucc_two]
  · ext i j
    fin_cases i <;> fin_cases j <;>
      simp [matSet, Vec3f.get, Matrix.one_apply, Matrix.vecHead, Matrix.vecTail,
        castSucc_two]

theorem lookat_apply (sqrt : K → K) (eye center up p : Vec3f K) :
    lookat sqrt eye center up * v2m p
      = Matrix.of ![![(cameraRight sqrt eye center up).dot (p.sub eye)],
                    ![(cameraUp sqrt eye center up).dot (p.sub eye)],
                    ![(cameraForward sqrt eye center).dot (p.sub eye)],
                    ![1]] := by
  rw [lookat_eq_product, v2m_entries]
  ext i j
  fin_cases i <;> fin_cases j <;>
    simp [Matrix.mul_apply, Fin.sum_univ_four, Matrix.vecHead, Matrix.vecTail, Vec3f.dot,
      Vec3f.sub] <;> ring

theorem lookat_rows (sqrt : K → K) (eye center up : Vec3f K) (j : Fin 3) :
    lookat sqrt eye center up 0 j.castSucc = (cameraRight sqrt eye center up).get j ∧
    lookat sqrt eye center up 1 j.castSucc = (cameraUp sqrt eye center up).get j ∧
    lookat sqrt eye center up 2 j.castSucc = (cameraForward sqrt eye center).get j ∧
    lookat sqrt eye center up 3 j.castSucc = 0 := by
  rw [lookat_eq_product]
  fin_cases j <;>
    simp [Matrix.mul_apply, Fin.sum_univ_four, Matrix.vecHead, Matrix.vecTail, Vec3f.get,
      castSucc_two]

theorem vec3f_dot_self_pos (v : Vec3f K) (hv : v ≠ ⟨0, 0, 0⟩) : 0 < v.dot v := by
  unfold Vec3f.dot
  have hx := mul_self_nonneg v.x
  have hy := mul_self_nonneg v.y
  have hz := mul_self_nonneg v.z
  by_contra hnot
  have hsum : v.x * v.x + v.y * v.y + v.z * v.z = 0 := by linarith
  have ex : v.x * v.x = 0 := by linarith
  have ey : v.y * v.y = 0 := by linarith
  have ez : v.z * v.z = 0 := by linarith
  apply hv
  cases v with
  | mk a b c =>
    simp only [Vec3f.mk.injEq]
    exact ⟨mul_self_eq_zero.mp ex, mul_self_eq_zero.mp ey, mul_self_eq_zero.mp ez⟩

theorem vec3f_norm_facts (sqrt : K → K) (hsq : ∀ x, 0 ≤ x → sqrt x * sqrt x = x)
    (hnn : ∀ x, 0 ≤ sqrt x) (v : Vec3f K) (hv : v ≠ ⟨0, 0, 0⟩) :
    v.norm sqrt * v.norm sqrt = v.dot v ∧ 0 < v.norm sqrt := by
  have hpos := vec3f_dot_self_pos v hv
  have hmul : v.norm sqrt * v.norm sqrt = v.dot v := hsq _ (le_of_lt hpos)
  refine ⟨hmul, ?_⟩
  rcases lt_or_eq_of_le (hnn (v.x * v.x + v.y * v.y + v.z * v.z)) with h | h
  · exact h
  · exfalso
    have : v.norm sqrt = 0 := h.symm
    rw [this, mul_zero] at hmul
    linarith

theorem vec3f_normalize_dot (sqrt : K → K) (v w : Vec3f K) :
    (v.normalize sqrt).dot w = v.dot w * (1 / v.norm sqrt) := by
  simp only [Vec3f.normalize, Vec3f.smul, Vec3f.dot]
  ring

theorem vec3f_dot_comm (v w : Vec3f K) : v.dot w = w.dot v := by
  simp only [Vec3f.dot]
  ring

theorem vec3f_normalize_unit (sqrt : K → K) (hsq : ∀ x, 0 ≤ x → sqrt x * sqrt x = x)
    (hnn : ∀ x, 0 ≤ sqrt x) (v : Vec3f K) (hv : v ≠ ⟨0, 0, 0⟩) :
    (v.normalize sqrt).dot (v.normalize sqrt) = 1 := by
  obtain ⟨hmul, hpos⟩ := vec3f_norm_facts sqrt hsq hnn v hv
  have hne : v.norm sqrt ≠ 0 := ne_of_gt hpos
  rw [vec3f_normalize_dot, vec3f_dot_comm, vec3f_normalize_dot, ← hmul]
  field_simp

theorem vec3f_cross_dot_left (a b : Vec3f K) : (a.cross b).dot a = 0 := by
  simp only [Vec3f.cross, Vec3f.dot]
  ring

theorem vec3f_cross_dot_right (a b : Vec3f K) : (a.cross b).dot b = 0 := by
  simp only [Vec3f.cross, Vec3f.dot]
  ring

theorem vec3f_lagrange (a b : Vec3f K) :
    (a.cross b).dot (a.cross b) = a.dot a * b.dot b - a.dot b * a.dot b := by
  simp only [Vec3f.cross, Vec3f.dot]
  ring

theorem vec3f_cross_smul (a b : Vec3f K) (s : K) :
    a.cross (b.smul s) = (a.cross b).smul s := by
  simp only [Vec3f.cross, Vec3f.smul, Vec3f.mk.injEq]
  refine ⟨?_, ?_, ?_⟩ <;> ring

theorem vec3f_smul_ne_zero (a : Vec3f K) (s : K) (hs : s ≠ 0) (ha : a ≠ ⟨0, 0, 0⟩) :
    a.smul s ≠ ⟨0, 0, 0⟩ := by
  intro h
  apply ha
  cases a with
  | mk x y z =>
    simp only [Vec3f.smul, Vec3f.mk.injEq] at h ⊢
    obtain ⟨h1, h2, h3⟩ := h
    exact ⟨(mul_eq_zero.mp h1).resolve_right hs, (mul_eq_zero.mp h2).resolve_right hs,
      (mul_eq_zero.mp h3).resolve_right hs⟩

theorem vec3f_sub_ne_zero (a b : Vec3f K) (h : a ≠ b) : a.sub b ≠ ⟨0, 0, 0⟩ := by
  intro h0
  apply h
  cases a with
  | mk x y z =>
    cases b with
    | mk u v w =>
      simp only [Vec3f.sub, Vec3f.mk.injEq] at h0 ⊢
      exact ⟨sub_eq_zero.mp h0.1, sub_eq_zero.mp h0.2.1, sub_eq_zero.mp h0.2.2⟩

/-- The camera basis built by `lookat` is orthonormal when `eye != center` and `up` is
not collinear with `eye - center`. -/
theorem camera_basis_orthonormal (sqrt : K → K) (hsq : ∀ x, 0 ≤ x → sqrt x * sqrt x = x)
    (hnn : ∀ x, 0 ≤ sqrt x) (eye center up : Vec3f K) (hne : eye ≠ center)
    (hup : up.cross (eye.sub center) ≠ ⟨0, 0, 0⟩) :
    (cameraForward sqrt eye center).dot (cameraForward sqrt eye center) = 1 ∧
    (cameraRight sqrt eye center up).dot (cameraRight sqrt eye center up) = 1 ∧
    (cameraUp sqrt eye center up).dot (cameraUp sqrt eye center up) = 1 ∧
    (cameraRight sqrt eye center up).dot (cameraForward sqrt eye center) = 0 ∧
    (cameraUp sqrt eye center up).dot (cameraForward sqrt eye center) = 0 ∧
    (cameraUp sqrt eye center up).dot (cameraRight sqrt eye center up) = 0 := by
  have hd : eye.sub center ≠ ⟨0, 0, 0⟩ := vec3f_sub_ne_zero eye center hne
  obtain ⟨hnmul, hnpos⟩ := vec3f_norm_facts sqrt hsq hnn _ hd
  have hzz : (cameraForward sqrt eye center).dot (cameraForward sqrt eye center) = 1 :=
    vec3f_normalize_unit sqrt hsq hnn _ hd
  have hc : up.cross (cameraForward sqrt eye center) ≠ ⟨0, 0, 0⟩ := by
    unfold cameraForward Vec3f.normalize
    rw [vec3f_cross_smul]
    exact vec3f_smul_ne_zero _ _ (one_div_ne_zero (ne_of_gt hnpos)) hup
  have hxx : (cameraRight sqrt eye center up).dot (cameraRight sqrt eye center up) = 1 :=
    vec3f_normalize_unit sqrt hsq hnn _ hc
  have hxz : (cameraRight sqrt eye center up).dot (cameraForward sqrt eye center) = 0 := by
    unfold cameraRight
    rw [vec3f_normalize_dot, vec3f_cross_dot_right, zero_mul]
  have hzx : (cameraForward sqrt eye center).dot (cameraRight sqrt eye center up) = 0 := by
    rw [vec3f_dot_comm, hxz]
  have hee : ((cameraForward sqrt eye center).cross (cameraRight sqrt eye center up)).dot
      ((cameraForward sqrt eye center).cross (cameraRight sqrt eye center up)) = 1 := by
    rw [vec3f_lagrange, hzz, hxx, hzx]
    ring
  have he : (cameraForward sqrt eye center).cross (cameraRight sqrt eye center up)
      ≠ ⟨0, 0, 0⟩ := by
    intro h0
    rw [h0] at hee
    simp [Vec3f.dot] at hee
  have hyy : (cameraUp sqrt eye center up).dot (cameraUp sqrt eye center up) = 1 :=
    vec3f_normalize_unit sqrt hsq hnn _ he
  have hyz : (cameraUp sqrt eye center up).dot (cameraForward sqrt eye center) = 0 := by
    unfold cameraUp
    rw [vec3f_normalize_dot, vec3f_cross_dot_left, zero_mul]
  have hyx : (cameraUp sqrt eye center up).dot (cameraRight sqrt eye center up) = 0 := by
    unfold cameraUp
    rw [vec3f_normalize_dot, vec3f_cross_dot_right, zero_mul]
  exact ⟨hzz, hxx, hyy, hxz, hyz, hyx⟩

theorem dot_center_sub_eye (sqrt : K → K) (hsq : ∀ x, 0 ≤ x → sqrt x * sqrt x = x)
    (hnn : ∀ x, 0 ≤ sqrt x) (eye center a : Vec3f K) (hne : eye ≠ center) :
    a.dot (center.sub eye)
      = -((eye.sub center).norm sqrt * a.dot (cameraForward sqrt eye center)) := by
  have hd : eye.sub center ≠ ⟨0, 0, 0⟩ := vec3f_sub_ne_zero eye center hne
  obtain ⟨_, hnpos⟩ := vec3f_norm_facts sqrt hsq hnn _ hd
  have hn0 : (eye.sub center).norm sqrt ≠ 0 := ne_of_gt hnpos
  have h1 : a.dot (cameraForward sqrt eye center)
      = a.dot (eye.sub center) * (1 / (eye.sub center).norm sqrt) := by
    unfold cameraForward
    rw [vec3f_dot_comm, vec3f_normalize_dot, vec3f_dot_comm]
  have h2 : a.dot (center.sub eye) = -(a.dot (eye.sub center)) := by
    simp only [Vec3f.dot, Vec3f.sub]
    ring
  rw [h1, h2]
  field_simp

/-- C14: for `eye != center` and `up` not collinear with `eye - center`, the matrix
`ModelView` set by `lookat` has the orthonormal camera basis (right, trueUp, forward)
as its rotation rows, satisfies `ModelView * p = basis * (p - eye)` for every point
`p`, maps the eye to the origin and the center to `(0, 0, -|eye - center|)`. -/
theorem lookat_is_camera_transform (sqrt : K → K)
    (hsq : ∀ x, 0 ≤ x → sqrt x * sqrt x = x) (hnn : ∀ x, 0 ≤ sqrt x)
    (eye center up : Vec3f K) (hne : eye ≠ center)
    (hup : up.cross (eye.sub center) ≠ ⟨0, 0, 0⟩) :
    (∀ j : Fin 3,
      lookat sqrt eye center up 0 j.castSucc = (cameraRight sqrt eye center up).get j ∧
      lookat sqrt eye center up 1 j.castSucc = (cameraUp sqrt eye center up).get j ∧
      lookat sqrt eye center up 2 j.castSucc = (cameraForward sqrt eye center).get j ∧
      lookat sqrt eye center up 3 j.castSucc = 0) ∧
    ((cameraForward sqrt eye center).dot (cameraForward sqrt eye center) = 1 ∧
      (cameraRight sqrt eye center up).dot (cameraRight sqrt eye center up) = 1 ∧
      (cameraUp sqrt eye center up).dot (cameraUp sqrt eye center up) = 1 ∧
      (cameraRight sqrt eye center up).dot (cameraForward sqrt eye center) = 0 ∧
      (cameraUp sqrt eye center up).dot (cameraForward sqrt eye center) = 0 ∧
      (cameraUp sqrt eye center up).dot (cameraRight sqrt eye center up) = 0) ∧
    (∀ p : Vec3f K,
      lookat sqrt eye center up * v2m p
        = Matrix.of ![![(cameraRight sqrt eye center up).dot (p.sub eye)],
                      ![(cameraUp sqrt eye center up).dot (p.sub eye)],
                      ![(cameraForward sqrt eye center).dot (p.sub eye)],
                      ![1]]) ∧
    lookat sqrt eye center up * v2m eye = v2m ⟨0, 0, 0⟩ ∧
    lookat sqrt eye center up * v2m center
      = v2m ⟨0, 0, -((eye.sub center).norm sqrt)⟩ := by
  have hortho := camera_basis_orthonormal sqrt hsq hnn eye center up hne hup
  refine ⟨lookat_rows sqrt eye center up, hortho, lookat_apply sqrt eye center up, ?_, ?_⟩
  · rw [lookat_apply, v2m_entries]
    ext i j
    fin_cases i <;> fin_cases j <;> simp [Vec3f.dot, Vec3f.sub]
  · rw [lookat_apply, v2m_entries]
    rw [dot_center_sub_eye sqrt hsq hnn eye center _ hne,
      dot_center_sub_eye sqrt hsq hnn eye center _ hne,
      dot_center_sub_eye sqrt hsq hnn eye center _ hne,
      hortho.2.2.2.1, hortho.2.2.2.2.1, hortho.1]
    ext i j
    fin_cases i <;> fin_cases j <;> simp

/-- Instance of C14 over the real numbers with the camera (1,0,4), the center (0,0,0)
and the up vector (0,1,0) of `main`. -/
theorem lookat_is_camera_transform_witness :
    (camera : Vec3f ℝ) ≠ center ∧
    (up : Vec3f ℝ).cross ((camera : Vec3f ℝ).sub center) ≠ ⟨0, 0, 0⟩ ∧
    lookat Real.sqrt (camera : Vec3f ℝ) center up * v2m (camera : Vec3f ℝ)
      = v2m ⟨0, 0, 0⟩ := by
  have hne : (camera : Vec3f ℝ) ≠ center := by
    intro h
    have := congrArg Vec3f.x h
    simp [camera, center] at this
  have hup : (up : Vec3f ℝ).cross ((camera : Vec3f ℝ).sub center) ≠ ⟨0, 0, 0⟩ := by
    intro h
    have := congrArg Vec3f.x h
    simp [up, camera, center, Vec3f.cross, Vec3f.sub] at this
  exact ⟨hne, hup,
    (lookat_is_camera_transform Real.sqrt (fun _ hx => Real.mul_self_sqrt hx)
      Real.sqrt_nonneg camera center up hne hup).2.2.2.1⟩

/-! ## C13: fan triangulation -/

theorem fanLoop_eq_map {α : Type} (n : Nat) (body : Nat → α) (k fuel : Nat)
    (h : n - 1 - k ≤ fuel) :
    fanLoop n body k fuel = (List.range' k (n - 1 - k)).map body := by
  induction fuel generalizing k with
  | zero =>
    have h0 : n - 1 - k = 0 := by omega
    rw [h0]
    rfl
  | succ fuel ih =>
    unfold fanLoop
    split_ifs with hk
    · have hsucc : n - 1 - k = (n - 1 - (k + 1)) + 1 := by omega
      rw [ih (k + 1) (by omega), hsucc, List.range'_succ, List.map_cons]
    · have h0 : n - 1 - k = 0 := by omega
      rw [h0]
      rfl

theorem faceCalls_eq_map (m : Model K)
    (Viewport Projection ModelView : Matrix (Fin 4) (Fin 4) K) (light eye : Vec3f K)
    (use_tex : Bool) (i : Nat) :
    faceCalls m Viewport Projection ModelView light eye use_tex i
      = (fanTriangles (m.face (i : Int))).map (fun t =>
          submitTriangle m Viewport Projection ModelView light eye
            (use_tex && m.face_has_uv (i : Int)) i t.1 t.2.1 t.2.2.1 t.2.2.2) := by
  unfold faceCalls fanTriangles
  simp only
  split_ifs with hn
  · rfl
  · rw [fanLoop_eq_map _ _ _ _ (by omega)]
    have hlen : (m.face (i : Int)).length - 1 - 1 = (m.face (i : Int)).length - 2 := by omega
    rw [hlen, List.map_map]
    rfl

theorem fanTriangles_length (f : List Int) : (fanTriangles f).length = f.length - 2 := by
  unfold fanTriangles
  split_ifs with hn
  · simp
    omega
  · simp

theorem fanTriangles_getElem? (f : List Int) (k : Nat) (h1 : 1 ≤ k) (h2 : k + 1 < f.length) :
    (fanTriangles f)[k - 1]? = some (k, f.getD 0 0, f.getD k 0, f.getD (k + 1) 0) := by
  unfold fanTriangles
  rw [if_neg (by omega), List.getElem?_map]
  have hr : (List.range' 1 (f.length - 2))[k - 1]? = some k := by
    have hlt : k - 1 < f.length - 2 := by omega
    rw [List.getElem?_range' 1 1 hlt]
    congr 1
    omega
  rw [hr]
  rfl

theorem accumulateFace_eq_fan (verts vn : List (Vec3f K)) (f : List Int) :
    accumulateFace verts vn f
      = (fanTriangles f).foldl
          (fun vn t => addTriangleNormal verts vn t.2.1 t.2.2.1 t.2.2.2) vn := by
  unfold accumulateFace fanTriangles
  simp only
  split_ifs with hn
  · rfl
  · rw [List.foldl_map]
    rfl

/-- Once the constructor has returned the model `m`, the rest of `main` returns 1 if and
only if `m` has zero vertices or zero faces; in that case no depth buffer is allocated,
no triangle is rasterized and no output image is written; otherwise it allocates the
depth buffer, runs the face loop, writes the image and returns 0. -/
theorem mainAfterLoad_result (sqrt : K → K) (m : Model K) :
    ((mainAfterLoad sqrt m).code = 1 ↔ (m.nverts = 0 ∨ m.nfaces = 0)) ∧
    ((m.nverts = 0 ∨ m.nfaces = 0) ↔ (m.verts_ = [] ∨ m.faces_ = [])) ∧
    ((m.nverts = 0 ∨ m.nfaces = 0) →
      (mainAfterLoad sqrt m).code = 1 ∧ (mainAfterLoad sqrt m).zbuffer = none ∧
      (mainAfterLoad sqrt m).submitted = [] ∧ (mainAfterLoad sqrt m).output = none) ∧
    (¬ (m.nverts = 0 ∨ m.nfaces = 0) →
      (mainAfterLoad sqrt m).code = 0 ∧
      (mainAfterLoad sqrt m).submitted = mainCalls sqrt m ∧
      (mainAfterLoad sqrt m).zbuffer
        = some (render sqrt m.diffusemap_ (mainCalls sqrt m)
            ⟨emptyZBuffer, fun _ _ => ⟨0, 0, 0, 0⟩⟩).zb ∧
      (mainAfterLoad sqrt m).output
        = some (flipVertically (render sqrt m.diffusemap_ (mainCalls sqrt m)
            ⟨emptyZBuffer, fun _ _ => ⟨0, 0, 0, 0⟩⟩).image)) := by
  have hfail : (m.nverts = 0 ∨ m.nfaces = 0) →
      (mainAfterLoad sqrt m).code = 1 ∧ (mainAfterLoad sqrt m).zbuffer = none ∧
      (mainAfterLoad sqrt m).submitted = [] ∧ (mainAfterLoad sqrt m).output = none := by
    intro h
    unfold mainAfterLoad
    rw [if_pos h]
    exact ⟨rfl, rfl, rfl, rfl⟩
  have hrun : ¬ (m.nverts = 0 ∨ m.nfaces = 0) →
      (mainAfterLoad sqrt m).code = 0 ∧
      (mainAfterLoad sqrt m).submitted = mainCalls sqrt m ∧
      (mainAfterLoad sqrt m).zbuffer
        = some (render sqrt m.diffusemap_ (mainCalls sqrt m)
            ⟨emptyZBuffer, fun _ _ => ⟨0, 0, 0, 0⟩⟩).zb ∧
      (mainAfterLoad sqrt m).output
        = some (flipVertically (render sqrt m.diffusemap_ (mainCalls sqrt m)
            ⟨emptyZBuffer, fun _ _ => ⟨0, 0, 0, 0⟩⟩).image) := by
    intro h
    unfold mainAfterLoad
    rw [if_neg h]
    exact ⟨rfl, rfl, rfl, rfl⟩
  refine ⟨?_, ?_, hfail, hrun⟩
  · constructor
    · intro hcode
      by_contra hno
      rw [(hrun hno).1] at hcode
      exact absurd hcode (by decide)
    · intro h
      exact (hfail h).1
  · unfold Model.nverts Model.nfaces
    constructor
    · rintro (h | h)
      · left
        exact List.length_eq_zero.mp (by exact_mod_cast h)
      · right
        exact List.length_eq_zero.mp (by exact_mod_cast h)
    · rintro (h | h)
      · left
        rw [h]
        rfl
      · right
        rw [h]
        rfl

theorem vecGetChecked_of_lt (v : List (Vec3f K)) (i : Int) (h : 0 ≤ i ∧ i < (v.length : Int)) :
    vecGetChecked v i = some (vecGet v i) := by
  unfold vecGetChecked
  exact if_pos h

theorem vecSetChecked_of_lt (v : List (Vec3f K)) (i : Int) (a : Vec3f K)
    (h : 0 ≤ i ∧ i < (v.length : Int)) : vecSetChecked v i a = some (vecSet v i a) := by
  unfold vecSetChecked
  exact if_pos h

theorem vecGetChecked_isSome (v : List (Vec3f K)) (i : Int) (a : Vec3f K)
    (h : vecGetChecked v i = some a) : 0 ≤ i ∧ i < (v.length : Int) := by
  unfold vecGetChecked at h
  by_contra hc
  rw [if_neg hc] at h
  exact absurd h (by simp)

/-- A fold of a checked step that succeeds at every state satisfying an invariant
returns the fold of the unchecked step. -/
theorem foldlM_eq_some_foldl {S A : Type} (P : S → Prop) (f : S → A → Option S)
    (g : S → A → S) (l : List A) (s : S) (h0 : P s)
    (hstep : ∀ s a, a ∈ l → P s → f s a = some (g s a) ∧ P (g s a)) :
    l.foldlM f s = some (l.foldl g s) := by
  induction l generalizing s with
  | nil => rfl
  | cons a l ih =>
    rw [List.foldlM_cons, (hstep s a (List.mem_cons_self _ _) h0).1]
    exact ih _ (hstep s a (List.mem_cons_self _ _) h0).2
      (fun s b hb => hstep s b (List.mem_cons_of_mem _ hb))

theorem addFaceNormalChecked_eq (verts : List (Vec3f K)) (f : List Int) (v0 : Vec3f K)
    (vn : List (Vec3f K)) (k : Nat) (hlen : vn.length = verts.length)
    (h0 : 0 ≤ f.getD 0 0 ∧ f.getD 0 0 < (verts.length : Int))
    (h1 : 0 ≤ f.getD k 0 ∧ f.getD k 0 < (verts.length : Int))
    (h2 : 0 ≤ f.getD (k + 1) 0 ∧ f.getD (k + 1) 0 < (verts.length : Int)) :
    addFaceNormalChecked verts f v0 vn k = some (addFaceNormal verts f v0 vn k) := by
  unfold addFaceNormalChecked addFaceNormal
  simp only
  rw [vecGetChecked_of_lt verts _ h1, Option.some_bind, vecGetChecked_of_lt verts _ h2,
    Option.some_bind, vecGetChecked_of_lt vn _ (by rw [hlen]; exact h0), Option.some_bind,
    vecSetChecked_of_lt vn _ _ (by rw [hlen]; exact h0), Option.some_bind,
    vecGetChecked_of_lt _ _ (by rw [vecSet_length, hlen]; exact h1), Option.some_bind,
    vecSetChecked_of_lt _ _ _ (by rw [vecSet_length, hlen]; exact h1), Option.some_bind,
    vecGetChecked_of_lt _ _ (by rw [vecSet_length, vecSet_length, hlen]; exact h2),
    Option.some_bind,
    vecSetChecked_of_lt _ _ _ (by rw [vecSet_length, vecSet_length, hlen]; exact h2)]

theorem accumulateFaceChecked_eq (verts vn : List (Vec3f K)) (f : List Int)
    (hlen : vn.length = verts.length)
    (hf : ∀ i ∈ f, 0 ≤ i ∧ i < (verts.length : Int)) :
    accumulateFaceChecked verts vn f = some (accumulateFace verts vn f) := by
  unfold accumulateFaceChecked accumulateFace
  simp only
  split_ifs with hn
  · rfl
  · rw [vecGetChecked_of_lt verts _ (hf _ (getD_mem_of_lt f 0 (by omega))), Option.some_bind]
    refine foldlM_eq_some_foldl (fun s : List (Vec3f K) => s.length = verts.length) _ _ _ _
      hlen ?_
    intro s k hk hs
    rw [List.mem_range'_1] at hk
    refine ⟨addFaceNormalChecked_eq verts f _ s k hs
      (hf _ (getD_mem_of_lt f 0 (by omega))) (hf _ (getD_mem_of_lt f k (by omega)))
      (hf _ (getD_mem_of_lt f (k + 1) (by omega))), ?_⟩
    show (addFaceNormal verts f _ s k).length = verts.length
    rw [addFaceNormal_length, hs]

/-- With valid face indices no access of `compute_vertex_normals` leaves its vector: the
checked method returns what the unchecked one computes. -/
theorem compute_vertex_normals_checked_eq (sqrt : K → K) (m : Model K) (hv : validFaces m) :
    m.compute_vertex_normals_checked sqrt = some (m.compute_vertex_normals sqrt) := by
  unfold Model.compute_vertex_normals_checked Model.compute_vertex_normals accumulateNormals
  rw [foldlM_eq_some_foldl (fun s : List (Vec3f K) => s.length = m.verts_.length)
    (accumulateFaceChecked m.verts_) (accumulateFace m.verts_) m.faces_ _ (by simp)]
  · rfl
  · intro s f hf hs
    refine ⟨accumulateFaceChecked_eq m.verts_ s f hs (hv f hf), ?_⟩
    show (accumulateFace m.verts_ s f).length = m.verts_.length
    rw [accumulateFace_length, hs]

theorem normalize_length (m : Model K) : m.normalize.verts_.length = m.verts_.length := by
  unfold Model.normalize
  simp

theorem normalize_faces (m : Model K) : m.normalize.faces_ = m.faces_ := rfl

/-- The model the constructor builds from the parsed vectors when every stored face index
addresses a vertex. -/
theorem construct_of_validFaces (sqrt : K → K) (parsed : Model K) (hv : validFaces parsed) :
    parsed.construct sqrt
      = some ((if parsed.verts_.isEmpty then parsed else parsed.normalize).compute_vertex_normals
          sqrt) := by
  unfold Model.construct
  apply compute_vertex_normals_checked_eq
  split_ifs
  · exact hv
  · intro f hf i hi
    rw [normalize_length]
    exact hv f hf i hi

/-- A checked fold that succeeds has succeeded at every element. -/
theorem foldlM_some_step {S A : Type} (f : S → A → Option S) (l : List A) (s r : S)
    (h : l.foldlM f s = some r) : ∀ a ∈ l, ∃ s1 s2, f s1 a = some s2 := by
  induction l generalizing s with
  | nil =>
    intro a ha
    exact absurd ha (List.not_mem_nil a)
  | cons b l ih =>
    intro a ha
    rw [List.foldlM_cons] at h
    cases hb : f s b with
    | none =>
      rw [hb] at h
      exact absurd h (by simp)
    | some s1 =>
      rw [hb] at h
      have h2 : l.foldlM f s1 = some r := h
      rcases List.mem_cons.mp ha with rfl | hmem
      · exact ⟨s, s1, hb⟩
      · exact ih s1 h2 a hmem

theorem addFaceNormalChecked_some (verts : List (Vec3f K)) (f : List Int) (v0 : Vec3f K)
    (vn r : List (Vec3f K)) (k : Nat) (h : addFaceNormalChecked verts f v0 vn k = some r) :
    (0 ≤ f.getD k 0 ∧ f.getD k 0 < (verts.length : Int)) ∧
    (0 ≤ f.getD (k + 1) 0 ∧ f.getD (k + 1) 0 < (verts.length : Int)) := by
  unfold addFaceNormalChecked at h
  simp only [Option.bind_eq_some] at h
  obtain ⟨v1, h1, v2, h2, _⟩ := h
  exact ⟨vecGetChecked_isSome _ _ _ h1, vecGetChecked_isSome _ _ _ h2⟩

/-- When the checked face loop body succeeds on a face with at least three entries, every
index of the face addresses a vertex. -/
theorem accumulateFaceChecked_some (verts vn r : List (Vec3f K)) (f : List Int)
    (hn : 3 ≤ f.length) (h : accumulateFaceChecked verts vn f = some r) :
    ∀ i ∈ f, 0 ≤ i ∧ i < (verts.length : Int) := by
  unfold accumulateFaceChecked at h
  simp only at h
  rw [if_neg (by omega)] at h
  rw [Option.bind_eq_some] at h
  obtain ⟨v0, h0, hfold⟩ := h
  have hstep := foldlM_some_step _ _ _ _ hfold
  intro i hi
  obtain ⟨j, hj, rfl⟩ := List.getElem_of_mem hi
  rw [← List.getD_eq_getElem f 0 hj]
  by_cases hj0 : j = 0
  · subst hj0
    exact vecGetChecked_isSome _ _ _ h0
  · by_cases hjl : j + 1 < f.length
    · obtain ⟨s1, s2, hs⟩ := hstep j (by rw [List.mem_range'_1]; omega)
      exact (addFaceNormalChecked_some verts f v0 s1 s2 j hs).1
    · obtain ⟨s1, s2, hs⟩ := hstep (j - 1) (by rw [List.mem_range'_1]; omega)
      have := (addFaceNormalChecked_some verts f v0 s1 s2 (j - 1) hs).2
      rwa [show j - 1 + 1 = j by omega] at this

/-- When the constructor returns a model, that model has the parsed faces, as many
vertices as were parsed, and every index of a face with at least three entries addresses
a vertex: the reads `model->vert(face[k])` of `main` stay inside `verts_`. -/
theorem construct_some_valid (sqrt : K → K) (parsed m : Model K)
    (h : parsed.construct sqrt = some m) :
    m.faces_ = parsed.faces_ ∧ m.verts_.length = parsed.verts_.length ∧
    ∀ f ∈ m.faces_, 3 ≤ f.length → ∀ i ∈ f, 0 ≤ i ∧ i < (m.verts_.length : Int) := by
  unfold Model.construct Model.compute_vertex_normals_checked at h
  rw [Option.map_eq_some'] at h
  obtain ⟨acc, hacc, rfl⟩ := h
  have hstep := foldlM_some_step _ _ _ _ hacc
  have hfaces : (if parsed.verts_.isEmpty then parsed else parsed.normalize).faces_
      = parsed.faces_ := by
    split_ifs <;> rfl
  have hlen : (if parsed.verts_.isEmpty then parsed else parsed.normalize).verts_.length
      = parsed.verts_.length := by
    split_ifs
    · rfl
    · exact normalize_length parsed
  refine ⟨hfaces, hlen, ?_⟩
  intro f hf hn
  obtain ⟨s1, s2, hs⟩ := hstep f hf
  exact accumulateFaceChecked_some _ s1 s2 f hn hs

/-- The program on parsed vectors whose face indices all address a vertex. -/
theorem main_of_validFaces (sqrt : K → K) (parsed : Model K) (hv : validFaces parsed) :
    main sqrt parsed
      = some (mainAfterLoad sqrt
          ((if parsed.verts_.isEmpty then parsed else parsed.normalize).compute_vertex_normals
            sqrt)) := by
  unfold main
  rw [construct_of_validFaces sqrt parsed hv]
  rfl

/-- C17, the code fails the claim: a model file with no `v` line and the line `f 1 2 3`
leaves zero vertices and the stored face (0, 1, 2); the constructor `new Model(...)` calls
`compute_vertex_normals`, whose first statement for that face reads `verts_[0]` of the
empty vector, so `main` has no defined result where the claim requires exit code 1; the
check of `main` would return 1 for that model if it were reached, and it is reached,
returning 1 and writing nothing, for the model with no vertex and no face. -/
theorem main_undefined_on_vertexless_face (sqrt : K → K) :
    parseFaceLine plainFaceLine [] [] = some ([[0, 1, 2]], [[]]) ∧
    (vertexlessModel : Model K).nverts = 0 ∧
    (vertexlessModel : Model K).nfaces = 1 ∧
    vecGetChecked (vertexlessModel : Model K).verts_ 0 = none ∧
    (vertexlessModel : Model K).construct sqrt = none ∧
    main sqrt (vertexlessModel : Model K) = none ∧
    (mainAfterLoad sqrt (vertexlessModel : Model K)).code = 1 ∧
    (main sqrt (emptyModel : Model K)).map MainResult.code = some 1 ∧
    ((main sqrt (emptyModel : Model K)).bind MainResult.output).isNone = true := by
  have hc : (vertexlessModel : Model K).construct sqrt = none := by
    simp [Model.construct, vertexlessModel, Model.compute_vertex_normals_checked,
      accumulateFaceChecked, vecGetChecked]
  have he : main sqrt (emptyModel : Model K)
      = some (mainAfterLoad sqrt
          ((emptyModel : Model K).compute_vertex_normals sqrt)) := by
    rw [main_of_validFaces sqrt emptyModel (by
      intro f hf
      exact absurd hf (List.not_mem_nil f))]
    rfl
  refine ⟨by decide, rfl, rfl, by simp [vecGetChecked, vertexlessModel], hc, ?_, ?_, ?_, ?_⟩
  · unfold main
    rw [hc]
    rfl
  · rfl
  · rw [he]
    rfl
  · rw [he]
    rfl

/-! ## C11: UV index lists of parsed faces -/

theorem length_dropWhile_le_self {α : Type} (p : α → Bool) (l : List α) :
    (l.dropWhile p).length ≤ l.length :=
  (List.dropWhile_sublist p).length_le

/-- A successful `strtol` consumes at least one character. -/
theorem strtol_consumes (s : List Char) (v : Int) (e : List Char)
    (h : strtol s = some (v, e)) : e.length < s.length := by
  have hs1 : (s.dropWhile isSpaceC).length ≤ s.length := length_dropWhile_le_self _ _
  have key : ∀ s2 : List Char, ¬ (s2.takeWhile Char.isDigit).isEmpty = true →
      (s2.dropWhile Char.isDigit).length < s2.length := by
    intro s2 hne
    have happ := List.takeWhile_append_dropWhile Char.isDigit (l := s2)
    have hlen := congrArg List.length happ
    rw [List.length_append] at hlen
    have hpos : 0 < (s2.takeWhile Char.isDigit).length := by
      rcases hl : s2.takeWhile Char.isDigit with _ | ⟨a, t⟩
      · rw [hl] at hne
        exact absurd rfl hne
      · simp
    omega
  have hs2 : (match s.dropWhile isSpaceC with
      | '-' :: t => t
      | '+' :: t => t
      | _ => s.dropWhile isSpaceC).length ≤ (s.dropWhile isSpaceC).length := by
    split
    · rename_i t heq
      rw [heq]
      simp
    · rename_i t heq
      rw [heq]
      simp
    · exact le_rfl
  unfold strtol at h
  simp only at h
  split_ifs at h with hds hneg
  all_goals
    simp only [Option.some.injEq, Prod.mk.injEq] at h
    have hlt := key _ hds
    rw [h.2] at hlt
    omega

/-- The token loop of the face parser ends within `s.length + 1` iterations, and it
never stores more UV indices than vertex indices. -/
theorem parseFaceTokens_total (fuel : Nat) (s : List Char) (f fuv : List Int)
    (hfuel : s.length < fuel) (hle : fuv.length ≤ f.length) :
    ∃ r, parseFaceTokens fuel s f fuv = some r ∧ r.2.length ≤ r.1.length := by
  induction fuel generalizing s f fuv with
  | zero => omega
  | succ fuel ih =>
    unfold parseFaceTokens
    rcases s with _ | ⟨c0, s0⟩
    · exact ⟨(f, fuv), rfl, hle⟩
    · simp only
      have hb : ((c0 :: s0).dropWhile isBlank).length ≤ (c0 :: s0).length :=
        length_dropWhile_le_self _ _
      rcases hd : (c0 :: s0).dropWhile isBlank with _ | ⟨c, rest⟩
      · exact ⟨(f, fuv), rfl, hle⟩
      · simp only
        rw [hd] at hb
        rcases hst : strtol (c :: rest) with _ | ⟨vIdx, e⟩
        · exact ⟨(f, fuv), rfl, hle⟩
        · simp only
          have he := strtol_consumes _ _ _ hst
          have hsk : (skipToken e).length ≤ e.length := length_dropWhile_le_self _ _
          have hf : fuv.length ≤ (f ++ [vIdx - 1]).length := by
            rw [List.length_append]
            omega
          have hplain : ∃ r, parseFaceTokens fuel (skipToken e) (f ++ [vIdx - 1]) fuv = some r ∧
              r.2.length ≤ r.1.length := by
            apply ih
            · simp only [List.length_cons] at hfuel hb he
              omega
            · exact hf
          split
          · rename_i t
            rcases hst2 : strtol t with _ | ⟨tmp, e2⟩
            · exact hplain
            · have he2 := strtol_consumes _ _ _ hst2
              have hsk2 : (skipToken e2).length ≤ e2.length := length_dropWhile_le_self _ _
              apply ih
              · simp only [List.length_cons] at hfuel hb he
                omega
              · split_ifs
                · simp only [List.length_append, List.length_singleton]
                  omega
                · exact hf
          · exact hplain

/-- Every `f` line is parsed to the end: `parseFaceLine` never runs out of fuel. -/
theorem parseFaceLine_total (line : List Char) (faces_ faces_uv_ : List (List Int)) :
    ∃ r, parseFaceLine line faces_ faces_uv_ = some r := by
  have hlen : (faceLineText line).length < line.length + 1 := by
    unfold faceLineText
    have h1 : ((line.drop 2).takeWhile (fun c => c != Char.ofNat 0)).length
        ≤ (line.drop 2).length := (List.takeWhile_sublist _).length_le
    have h2 : (line.drop 2).length ≤ line.length := by
      rw [List.length_drop]
      omega
    omega
  obtain ⟨r, hr, _⟩ := parseFaceTokens_total (line.length + 1) (faceLineText line) [] []
    hlen le_rfl
  unfold parseFaceLine
  rw [hr]
  simp only
  split_ifs <;> exact ⟨_, rfl⟩

/-- C11, evaluation of the parser: the line `f 1/1 2 3/3` stores the vertex indices
(0,1,2) and the UV indices (0,2), a UV list that is neither empty nor as long as the
vertex list; the line `f 1/1 2 3/3 4/4` stores (0,1,2,3) and (0,2,3), after which
`face_has_uv` holds and `uv(0,1)` is the texture coordinate of the third token. -/
theorem partial_uv_face_breaks_parallel_lists :
    parseFaceLine partialUvLine [] [] = some ([[0, 1, 2]], [[0, 2]]) ∧
    ([0, 2] : List Int) ≠ [] ∧ ([0, 2] : List Int).length ≠ ([0, 1, 2] : List Int).length ∧
    parseFaceLine partialUvQuadLine [] [] = some ([[0, 1, 2, 3]], [[0, 2, 3]]) ∧
    partialUvModel.face_has_uv 0 = true ∧
    partialUvModel.uv 0 1 = some ⟨1, 1⟩ ∧
    partialUvModel.uv 0 3 = some ⟨0, 0⟩ := by
  refine ⟨by decide, by decide, by decide, by decide, by decide, by rfl, by decide⟩

/-! ## C21: the box stays inside the frame -/

theorem bbox_bounds_full (pts : Fin 3 → Vec3f K) :
    (0 ≤ (bbox_of_triangle pts).1.x ∧ (bbox_of_triangle pts).1.x ≤ width - 1) ∧
    (0 ≤ (bbox_of_triangle pts).2.x ∧ (bbox_of_triangle pts).2.x ≤ width - 1) ∧
    (0 ≤ (bbox_of_triangle pts).1.y ∧ (bbox_of_triangle pts).1.y ≤ height - 1) ∧
    (0 ≤ (bbox_of_triangle pts).2.y ∧ (bbox_of_triangle pts).2.y ≤ height - 1) := by
  simp only [bbox_of_triangle, List.foldl, bboxStep, width, height]
  omega

theorem foldl_congr_mem {S A : Type} (f g : S → A → S) (l : List A) (s : S)
    (h : ∀ s a, a ∈ l → f s a = g s a) : l.foldl f s = l.foldl g s := by
  induction l generalizing s with
  | nil => rfl
  | cons a l ih =>
    rw [List.foldl_cons, List.foldl_cons, h s a (List.mem_cons_self _ _)]
    exact ih _ (fun s b hb => h s b (List.mem_cons_of_mem _ hb))

theorem inFrame_index_range (P : Vec2i) (hP : inFrame P) :
    0 ≤ P.x + P.y * width ∧ P.x + P.y * width < width * height := by
  unfold inFrame at hP
  simp only [width, height] at hP ⊢
  omega

theorem pixelStep_eq_unguarded (pts : Fin 3 → Vec3f K) (shade : Vec3f K → TGAColor)
    (st : Frame K) (P : Vec2i) (hP : inFrame P) :
    pixelStep pts shade st P = pixelStepUnguarded pts shade st P := by
  have hidx := inFrame_index_range P hP
  have hguard : ¬ (P.x + P.y * width < 0 ∨ P.x + P.y * width ≥ width * height) := by
    omega
  unfold pixelStep pixelStepUnguarded
  simp only [hguard, if_false]

theorem rasterize_eq_unguarded (pts : Fin 3 → Vec3f K) (shade : Vec3f K → TGAColor)
    (st : Frame K) :
    rasterize pts (bbox_of_triangle pts) shade st
      = rasterizeUnguarded pts (bbox_of_triangle pts) shade st := by
  unfold rasterize rasterizeUnguarded
  apply foldl_congr_mem
  intro s px hpx
  apply foldl_congr_mem
  intro s py hpy
  rw [mem_intRange] at hpx hpy
  exact pixelStep_eq_unguarded pts shade s ⟨px, py⟩
    (bbox_inFrame pts ⟨px, py⟩ ⟨hpx.1, hpx.2, hpy.1, hpy.2⟩)

/-- C21: for every triangle, on or off screen, both corners of the box computed by
`bbox_of_triangle` lie in `[0, width-1] x [0, height-1]`; hence every pixel visited by
the rasterizer loops has a depth-buffer index `P.x + P.y*width` in `[0, width*height)`,
the test `idx < 0 || idx >= width*height` is never taken, and each of the three
rasterizers computes the same buffers as its loops with that test removed. -/
theorem bbox_within_frame_index_guard_dead (sqrt : K → K) (tex : Texture)
    (pts : Fin 3 → Vec3f K) :
    ((0 ≤ (bbox_of_triangle pts).1.x ∧ (bbox_of_triangle pts).1.x ≤ width - 1) ∧
     (0 ≤ (bbox_of_triangle pts).2.x ∧ (bbox_of_triangle pts).2.x ≤ width - 1) ∧
     (0 ≤ (bbox_of_triangle pts).1.y ∧ (bbox_of_triangle pts).1.y ≤ height - 1) ∧
     (0 ≤ (bbox_of_triangle pts).2.y ∧ (bbox_of_triangle pts).2.y ≤ height - 1)) ∧
    (∀ P : Vec2i, inBox (bbox_of_triangle pts) P →
      0 ≤ P.x + P.y * width ∧ P.x + P.y * width < width * height ∧
      ¬ (P.x + P.y * width < 0 ∨ P.x + P.y * width ≥ width * height)) ∧
    (∀ (color : TGAColor) (st : Frame K),
      triangle_flat pts color st
        = rasterizeUnguarded pts (bbox_of_triangle pts) (fun _ => color) st) ∧
    (∀ (norms worldPos : Fin 3 → Vec3f K) (l e : Vec3f K) (albedo : TGAColor)
        (st : Frame K),
      triangle_phong_flat sqrt pts norms worldPos l e albedo st
        = rasterizeUnguarded pts (bbox_of_triangle pts)
            (phongShade sqrt norms worldPos l e albedo) st) ∧
    (∀ (uvs : Fin 3 → Vec2f K) (norms worldPos : Fin 3 → Vec3f K) (l e : Vec3f K)
        (st : Frame K),
      triangle_phong_tex sqrt tex pts uvs norms worldPos l e st
        = rasterizeUnguarded pts (bbox_of_triangle pts)
            (texShade sqrt tex uvs norms worldPos l e) st) := by
  refine ⟨bbox_bounds_full pts, ?_, ?_, ?_, ?_⟩
  · intro P hbox
    have hidx := inFrame_index_range P (bbox_inFrame pts P hbox)
    refine ⟨hidx.1, hidx.2, ?_⟩
    omega
  · intro color st
    rw [triangle_flat_eq, rasterize_eq_unguarded]
  · intro norms worldPos l e albedo st
    rw [triangle_phong_flat_eq, rasterize_eq_unguarded]
  · intro uvs norms worldPos l e st
    rw [triangle_phong_tex_eq, rasterize_eq_unguarded]

/-- Instance of C21: the triangle `cornerTri` sticks out of the frame on the left and
at the top; its box is columns 0..30, rows 1900..1919, and the visited corner pixel
(30, 1919) has an index below `width * height`. -/
theorem bbox_within_frame_index_guard_dead_witness :
    bbox_of_triangle cornerTri = (⟨0, 1900⟩, ⟨30, 1919⟩) ∧
    inBox (bbox_of_triangle cornerTri) ⟨30, 1919⟩ ∧
    (30 : Int) + 1919 * width < width * height := by
  have hb : bbox_of_triangle cornerTri = (⟨0, 1900⟩, ⟨30, 1919⟩) := by decide
  have hbox : inBox (bbox_of_triangle cornerTri) ⟨30, 1919⟩ := by
    rw [hb]
    decide
  exact ⟨hb, hbox,
    ((bbox_within_frame_index_guard_dead (fun x => x) noTexture cornerTri).2.1
      ⟨30, 1919⟩ hbox).2.1⟩

/-! ## C22: one coverage and depth rule for the three rasterizers -/

theorem flatBox_eq (pts : Fin 3 → Vec3f K) : flatBox pts = bbox_of_triangle pts := rfl

theorem triangle_flat_eq_flatBox (pts : Fin 3 → Vec3f K) (color : TGAColor)
    (st : Frame K) :
    triangle_flat pts color st = rasterize pts (flatBox pts) (fun _ => color) st := rfl

theorem foldl_rel {S T A : Type} (R : S → T → Prop) (f : S → A → S) (g : T → A → T)
    (l : List A) (s : S) (t : T) (h0 : R s t)
    (hstep : ∀ s t a, R s t → R (f s a) (g t a)) : R (l.foldl f s) (l.foldl g t) := by
  induction l generalizing s t with
  | nil => exact h0
  | cons a l ih =>
    rw [List.foldl_cons, List.foldl_cons]
    exact ih _ _ (hstep s t a h0)

theorem pixelStep_zb_indep (pts : Fin 3 → Vec3f K) (sh1 sh2 : Vec3f K → TGAColor)
    (s1 s2 : Frame K) (P : Vec2i) (h : s1.zb = s2.zb) :
    (pixelStep pts sh1 s1 P).zb = (pixelStep pts sh2 s2 P).zb := by
  unfold pixelStep
  simp only [h]
  split_ifs <;> first | rfl | exact h

/-- The depth buffer left by the pixel loops does not depend on the colour function
nor on the image. -/
theorem rasterize_zb_indep (pts : Fin 3 → Vec3f K) (bb : Vec2i × Vec2i)
    (sh1 sh2 : Vec3f K → TGAColor) (s1 s2 : Frame K) (h : s1.zb = s2.zb) :
    (rasterize pts bb sh1 s1).zb = (rasterize pts bb sh2 s2).zb := by
  unfold rasterize
  refine foldl_rel (fun a b : Frame K => a.zb = b.zb) _ _ _ _ _ h ?_
  intro a b px hab
  refine foldl_rel (fun a b : Frame K => a.zb = b.zb) _ _ _ _ _ hab ?_
  intro a b py hab
  exact pixelStep_zb_indep pts sh1 sh2 a b ⟨px, py⟩ hab

theorem pixelStep_image_ne (pts : Fin 3 → Vec3f K) (shade : Vec3f K → TGAColor)
    (st : Frame K) (P Q : Vec2i) (hPQ : P ≠ Q) :
    (pixelStep pts shade st P).image Q.x Q.y = st.image Q.x Q.y := by
  have hne2 : ¬ (Q.x = P.x ∧ Q.y = P.y) := by
    intro h
    apply hPQ
    rw [vec2i_eq_iff]
    exact ⟨h.1.symm, h.2.symm⟩
  unfold pixelStep
  simp only
  split_ifs <;> simp [imageSet, hne2]

theorem rasterize_image_outside (pts : Fin 3 → Vec3f K) (bb : Vec2i × Vec2i)
    (shade : Vec3f K → TGAColor) (st : Frame K) (Q : Vec2i) (hQ : ¬ inBox bb Q) :
    (rasterize pts bb shade st).image Q.x Q.y = st.image Q.x Q.y := by
  unfold rasterize
  apply foldl_obs_none _ (fun s : Frame K => s.image Q.x Q.y)
  intro s px hpx
  apply foldl_obs_none _ (fun s : Frame K => s.image Q.x Q.y)
  intro s py hpy
  rw [mem_intRange] at hpx hpy
  apply pixelStep_image_ne
  intro h
  apply hQ
  rw [← h]
  exact ⟨hpx.1, hpx.2, hpy.1, hpy.2⟩

/-- The image left by one rasterizer run, pixel by pixel: the colour function where
the pixel is written, the old colour elsewhere. -/
theorem rasterize_image (pts : Fin 3 → Vec3f K) (shade : Vec3f K → TGAColor)
    (st : Frame K) (Q : Vec2i) :
    (written pts st Q →
      (rasterize pts (bbox_of_triangle pts) shade st).image Q.x Q.y
        = shade (barycentric pts Q)) ∧
    (¬ written pts st Q →
      (rasterize pts (bbox_of_triangle pts) shade st).image Q.x Q.y = st.image Q.x Q.y) := by
  by_cases hbox : inBox (bbox_of_triangle pts) Q
  · have hQ := bbox_inFrame pts Q hbox
    have h := congrArg Prod.snd (rasterize_bbox_obs pts shade st Q hQ)
    simp only [obs] at h
    constructor
    · intro hw
      have hc : covers pts Q ∧ st.zb (Q.x + Q.y * width) < ((depthAt pts Q : K) : WithBot K) :=
        hw
      rw [h, if_pos hc]
    · intro hw
      have hc : ¬ (covers pts Q ∧
          st.zb (Q.x + Q.y * width) < ((depthAt pts Q : K) : WithBot K)) := hw
      rw [h, if_neg hc]
  · constructor
    · intro hw
      exact absurd hw.1.1 hbox
    · intro _
      exact rasterize_image_outside pts _ shade st Q hbox

/-- C22: the three rasterizers share one coverage and depth rule: the box inlined in
`triangle_flat` is the box of `bbox_of_triangle`; on the same triangle and the same
buffers `triangle_flat`, `triangle_phong_flat` and `triangle_phong_tex` leave the same
depth buffer; and they write the same pixels, those that are covered and whose stored
depth is strictly below the interpolated depth, each with its own colour, leaving
every other pixel as it was. -/
theorem rasterizers_share_coverage_and_depth (sqrt : K → K) (tex : Texture)
    (pts : Fin 3 → Vec3f K) (color : TGAColor) (uvs : Fin 3 → Vec2f K)
    (norms worldPos : Fin 3 → Vec3f K) (l e : Vec3f K) (albedo : TGAColor)
    (st : Frame K) :
    flatBox pts = bbox_of_triangle pts ∧
    triangle_flat pts color st = rasterize pts (flatBox pts) (fun _ => color) st ∧
    (triangle_flat pts color st).zb
        = (triangle_phong_flat sqrt pts norms worldPos l e albedo st).zb ∧
    (triangle_phong_flat sqrt pts norms worldPos l e albedo st).zb
        = (triangle_phong_tex sqrt tex pts uvs norms worldPos l e st).zb ∧
    (∀ Q : Vec2i, written pts st Q →
      (triangle_flat pts color st).image Q.x Q.y = color ∧
      (triangle_phong_flat sqrt pts norms worldPos l e albedo st).image Q.x Q.y
        = phongShade sqrt norms worldPos l e albedo (barycentric pts Q) ∧
      (triangle_phong_tex sqrt tex pts uvs norms worldPos l e st).image Q.x Q.y
        = texShade sqrt tex uvs norms worldPos l e (barycentric pts Q)) ∧
    (∀ Q : Vec2i, ¬ written pts st Q →
      (triangle_flat pts color st).image Q.x Q.y = st.image Q.x Q.y ∧
      (triangle_phong_flat sqrt pts norms worldPos l e albedo st).image Q.x Q.y
        = st.image Q.x Q.y ∧
      (triangle_phong_tex sqrt tex pts uvs norms worldPos l e st).image Q.x Q.y
        = st.image Q.x Q.y) := by
  refine ⟨rfl, rfl, ?_, ?_, ?_, ?_⟩
  · rw [triangle_flat_eq, triangle_phong_flat_eq]
    exact rasterize_zb_indep pts _ _ _ st st rfl
  · rw [triangle_phong_flat_eq, triangle_phong_tex_eq]
    exact rasterize_zb_indep pts _ _ _ st st rfl
  · intro Q hw
    rw [triangle_flat_eq, triangle_phong_flat_eq, triangle_phong_tex_eq]
    exact ⟨(rasterize_image pts _ st Q).1 hw, (rasterize_image pts _ st Q).1 hw,
      (rasterize_image pts _ st Q).1 hw⟩
  · intro Q hw
    rw [triangle_flat_eq, triangle_phong_flat_eq, triangle_phong_tex_eq]
    exact ⟨(rasterize_image pts _ st Q).2 hw, (rasterize_image pts _ st Q).2 hw,
      (rasterize_image pts _ st Q).2 hw⟩

/-- Instance of C22: on the empty buffers pixel (1,1) of `exTri` is written, so the
flat call colours it red, and the flat and the Phong call leave the same depth
buffer. -/
theorem rasterizers_share_coverage_and_depth_witness :
    written exTri exFrame ⟨1, 1⟩ ∧
    (triangle_flat exTri red exFrame).image 1 1 = red ∧
    (triangle_flat exTri red exFrame).zb
      = (triangle_phong_flat (fun x => x) exTri unitTriangleWorld unitTriangleWorld
          light_dir camera defaultGray exFrame).zb := by
  have hw : written exTri exFrame ⟨1, 1⟩ :=
    ⟨exTri_covers, by simp [exFrame, emptyZBuffer]⟩
  have h := rasterizers_share_coverage_and_depth (fun x => x) noTexture exTri red
    (fun _ => ⟨0, 0⟩) unitTriangleWorld unitTriangleWorld light_dir camera defaultGray
    exFrame
  exact ⟨hw, (h.2.2.2.2.1 ⟨1, 1⟩ hw).1, h.2.2.1⟩

end Scalar

end ComputerGraphic
